import Mathlib

/-!
# Terrain obstacle and path graphs of awakengine

A shallow embedding of `Terrain.Tile` and `Terrain.ObstaclesAndPaths`
(`terrain.go`) together with the properties of the obstacle graph, the convex
vertex set and the path graph that the specification states about them, of the
footprint offsets that `Load` computes (`game.go`) and of `Text.Layout`
(`font.go`).

Conventions of the embedding:

* Go `int` values are unbounded integers (`Int`); the coordinates handled here
  are tile indices times a tile size and are assumed to stay far from the
  64-bit range.
* Slice indexing that would be out of range in Go (a run-time failure) makes
  the embedded function return `none`.
* `pVerts` (a Go map used as a set) and the edge set of a graph are
  duplicate-free lists; only membership and the number of elements are
  observable, since Go iterates maps in no fixed order.
* The segment occlusion test `Graph.FullyBlocks`, the viewport size `camSize`
  and the package-level `tileSize` read by the column pass are not defined in
  the sources at hand and are parameters.
-/

namespace Awakengine

/-! ## Geometry types -/

/-- Integer vector in the plane (`vec.I2`). -/
structure I2 where
  X : Int
  Y : Int
deriving DecidableEq, Repr

/-- Componentwise sum (`vec.I2.Add`). -/
def I2.Add (a b : I2) : I2 := ⟨a.X + b.X, a.Y + b.Y⟩

/-- Componentwise difference (`vec.I2.Sub`). -/
def I2.Sub (a b : I2) : I2 := ⟨a.X - b.X, a.Y - b.Y⟩

/-- Scaling by an integer (`vec.I2.Mul`). -/
def I2.Mul (a : I2) (k : Int) : I2 := ⟨a.X * k, a.Y * k⟩

/-- Absolute value of an integer (`vec.Abs`). -/
def Abs (x : Int) : Int := if x < 0 then -x else x

/-- A set of points (`vec.VertexSet`, a Go `map[I2]bool`), kept duplicate-free. -/
abbrev VertexSet := List I2

/-- The assignment `s[v] = true`. -/
def VertexSet.set (s : VertexSet) (v : I2) : VertexSet :=
  if v ∈ s then s else s ++ [v]

/-- Modelled from the spec: the graph container of the geometry library, whose
declaration is not among the sources. It is the set of directed edges
`(from, to)` it was given, supporting `AddEdge`, enumeration and counting. -/
structure Graph where
  E : List (I2 × I2)
deriving DecidableEq, Repr

/-- The empty graph (`vec.NewGraph`). -/
def NewGraph : Graph := ⟨[]⟩

/-- Adding the directed edge `(u, v)` to the edge set. -/
def Graph.AddEdge (g : Graph) (u v : I2) : Graph :=
  if (u, v) ∈ g.E then g else ⟨g.E ++ [(u, v)]⟩

/-- Number of edges in the graph. -/
def Graph.NumEdges (g : Graph) : Nat := g.E.length

/-! ## Terrain -/

/-- Properties of a tile (`TileInfo`). -/
structure TileInfo where
  Name : String
  Block : Bool
deriving DecidableEq, Repr

/-- Modelled from the spec: the `Doodad` type, whose declaration is not among
the sources; these are the fields `ObstaclesAndPaths` reads: the position
`pos`, the sprite offset `anim.offset` and the footprint `UL`, `DR`. -/
structure Doodad where
  pos : I2
  animOffset : I2
  UL : I2
  DR : I2
deriving DecidableEq, Repr

/-- The base layer of the game world (`Terrain`), without its prerendered image. -/
structure Terrain where
  doodads : List Doodad
  tiles : List Nat
  tileInfo : List TileInfo
  tileSize : Int
  size : I2

/-- Tile lookup `Terrain.Tile`: positions outside the grid are blocking. -/
def Terrain.Tile (t : Terrain) (x y : Int) : Option TileInfo :=
  if x < 0 ∨ x ≥ t.size.X ∨ y < 0 ∨ y ≥ t.size.Y then
    some ⟨"", true⟩
  else
    (t.tiles[(x + t.size.X * y).toNat]?).bind fun k => t.tileInfo[k]?

/-! ## ObstaclesAndPaths -/

/-- The unit diagonal `ul`. -/
def ul : I2 := ⟨-1, -1⟩
/-- The unit diagonal `ur`. -/
def ur : I2 := ⟨1, -1⟩
/-- The unit diagonal `dl`. -/
def dl : I2 := ⟨-1, 1⟩
/-- The unit diagonal `dr`. -/
def dr : I2 := ⟨1, 1⟩

/-- The two accumulators of `ObstaclesAndPaths`: the obstacle graph `o` and the
convex vertex set `pVerts`. -/
structure Acc where
  o : Graph
  pVerts : VertexSet
deriving DecidableEq, Repr

/-- Variables of the row pass while it walks one scan line. -/
structure RowScan where
  o : Graph
  pVerts : VertexSet
  up : Bool
  down : Bool
  u : I2
deriving DecidableEq, Repr

/-- Body of the inner loop of the row pass at the corner `ut`, given the
blocking flags `cup`, `cdown` of the tiles above and below the line. -/
def rowCell (fatUL fatDR ut : I2) (cup cdown : Bool) (st : RowScan) : RowScan :=
  let fatUR : I2 := ⟨fatDR.X, fatUL.Y⟩
  let fatDL : I2 := ⟨fatUL.X, fatDR.Y⟩
  let up := st.up
  let down := st.down
  let s4 : RowScan :=
    if up != cup || down != cdown then
      let s1 : RowScan :=
        if up && !down then
          if cdown then
            let v := ut.Add fatDL
            { st with o := st.o.AddEdge st.u v }
          else
            let v := ut.Add fatDR
            { st with o := st.o.AddEdge st.u v, pVerts := st.pVerts.set (v.Add dr) }
        else st
      let s2 : RowScan :=
        if !up && down then
          if cup then
            let v := ut.Add fatUL
            { s1 with o := s1.o.AddEdge v s1.u }
          else
            let v := ut.Add fatUR
            { s1 with o := s1.o.AddEdge v s1.u, pVerts := s1.pVerts.set (v.Add ur) }
        else s1
      let s3 : RowScan :=
        if cup && !cdown then
          if down then
            { s2 with u := ut.Add fatDR }
          else
            let u := ut.Add fatDL
            { s2 with u := u, pVerts := s2.pVerts.set (u.Add dl) }
        else s2
      if !cup && cdown then
        if up then
          { s3 with u := ut.Add fatUR }
        else
          let u := ut.Add fatUL
          { s3 with u := u, pVerts := s3.pVerts.set (u.Add ul) }
      else s3
    else st
  { s4 with up := cup, down := cdown }

/-- One scan line `j` of the row pass: the loop over `i` in `[0, size.X)`. -/
def rowLine (t : Terrain) (fatUL fatDR : I2) (j : Int) (a : Acc) : Option Acc :=
  ((List.range t.size.X.toNat).foldlM
    (fun (st : RowScan) (i : Nat) =>
      (t.Tile i (j - 1)).bind fun tu =>
      (t.Tile i j).bind fun td =>
        some (rowCell fatUL fatDR ((I2.mk i j).Mul t.tileSize) tu.Block td.Block st))
    (⟨a.o, a.pVerts, true, true, ⟨0, 0⟩⟩ : RowScan)).map
    fun st => ⟨st.o, st.pVerts⟩

/-- The row pass: scan lines `j` in `[0, size.Y]`. -/
def rowPass (t : Terrain) (fatUL fatDR : I2) (a : Acc) : Option Acc :=
  (List.range (t.size.Y + 1).toNat).foldlM
    (fun (a : Acc) (j : Nat) => rowLine t fatUL fatDR j a) a

/-- Variables of the column pass while it walks one scan column. -/
structure ColScan where
  o : Graph
  pVerts : VertexSet
  left : Bool
  right : Bool
  u : I2
deriving DecidableEq, Repr

/-- Body of the inner loop of the column pass at the corner `ut`, given the
blocking flags `cleft`, `cright` of the tiles left and right of the line. -/
def colCell (fatUL fatDR ut : I2) (cleft cright : Bool) (st : ColScan) : ColScan :=
  let fatUR : I2 := ⟨fatDR.X, fatUL.Y⟩
  let fatDL : I2 := ⟨fatUL.X, fatDR.Y⟩
  let left := st.left
  let right := st.right
  let s4 : ColScan :=
    if left != cleft || right != cright then
      let s1 : ColScan :=
        if left && !right then
          if cright then
            let v := ut.Add fatUR
            { st with o := st.o.AddEdge v st.u }
          else
            let v := ut.Add fatDR
            { st with o := st.o.AddEdge v st.u, pVerts := st.pVerts.set (v.Add dr) }
        else st
      let s2 : ColScan :=
        if !left && right then
          if cleft then
            let v := ut.Add fatUL
            { s1 with o := s1.o.AddEdge s1.u v }
          else
            let v := ut.Add fatDL
            { s1 with o := s1.o.AddEdge s1.u v, pVerts := s1.pVerts.set (v.Add dl) }
        else s1
      let s3 : ColScan :=
        if cleft && !cright then
          if right then
            { s2 with u := ut.Add fatDR }
          else
            let u := ut.Add fatUR
            { s2 with u := u, pVerts := s2.pVerts.set (u.Add ur) }
        else s2
      if !cleft && cright then
        if left then
          { s3 with u := ut.Add fatDL }
        else
          let u := ut.Add fatUL
          { s3 with u := u, pVerts := s3.pVerts.set (u.Add ul) }
      else s3
    else st
  { s4 with left := cleft, right := cright }

/-- One scan column `i` of the column pass: the loop over `j` in `[0, size.Y)`.
The corner is scaled by the package-level `tileSize`. -/
def colLine (t : Terrain) (tileSize : Int) (fatUL fatDR : I2) (i : Int) (a : Acc) :
    Option Acc :=
  ((List.range t.size.Y.toNat).foldlM
    (fun (st : ColScan) (j : Nat) =>
      (t.Tile (i - 1) j).bind fun tl =>
      (t.Tile i j).bind fun tr =>
        some (colCell fatUL fatDR ((I2.mk i j).Mul tileSize) tl.Block tr.Block st))
    (⟨a.o, a.pVerts, true, true, ⟨0, 0⟩⟩ : ColScan)).map
    fun st => ⟨st.o, st.pVerts⟩

/-- The column pass: scan columns `i` in `[0, size.X]`. -/
def colPass (t : Terrain) (tileSize : Int) (fatUL fatDR : I2) (a : Acc) : Option Acc :=
  (List.range (t.size.X + 1).toNat).foldlM
    (fun (a : Acc) (i : Nat) => colLine t tileSize fatUL fatDR i a) a

/-- Body of the doodad loop: four edges around the fattened rectangle and the
four outer corner points. -/
def doodadStep (fatUL fatDR : I2) (a : Acc) (d : Doodad) : Acc :=
  let u0 := d.pos.Sub d.animOffset
  let u := (u0.Add d.UL).Add fatUL
  let v := (u0.Add d.DR).Add fatDR
  let uv : I2 := ⟨u.X, v.Y⟩
  let vu : I2 := ⟨v.X, u.Y⟩
  let o := (((a.o.AddEdge u uv).AddEdge uv v).AddEdge v vu).AddEdge vu u
  let p := (((a.pVerts.set (u.Add ul)).set (uv.Add dl)).set (v.Add dr)).set (vu.Add ur)
  ⟨o, p⟩

/-- The doodad loop of `ObstaclesAndPaths`. -/
def doodadPass (ds : List Doodad) (fatUL fatDR : I2) (a : Acc) : Acc :=
  ds.foldl (doodadStep fatUL fatDR) a

/-- The path graph loop of `ObstaclesAndPaths`: every ordered pair of points of
`pVerts` that passes the span cull and the occlusion cull becomes an edge. -/
def buildPaths (camSize : I2) (FullyBlocks : Graph → I2 → I2 → Bool) (o : Graph)
    (pVerts : VertexSet) : Graph :=
  pVerts.foldl
    (fun (p : Graph) (u : I2) =>
      pVerts.foldl
        (fun (p : Graph) (v : I2) =>
          if Abs (u.X - v.X) > camSize.X then p
          else if Abs (u.Y - v.Y) > camSize.Y then p
          else if FullyBlocks o u v then p
          else p.AddEdge u v)
        p)
    NewGraph

/-- The obstacle graph and the convex vertex set built by `ObstaclesAndPaths`
before it computes paths: row pass, column pass, doodads. -/
def obstaclesAndVerts (t : Terrain) (tileSize : Int) (fatUL fatDR : I2) : Option Acc :=
  (rowPass t fatUL fatDR ⟨NewGraph, []⟩).bind fun a =>
  (colPass t tileSize fatUL fatDR a).map fun a =>
    doodadPass t.doodads fatUL fatDR a

/-- The function `Terrain.ObstaclesAndPaths`: the obstacle graph and the path graph. -/
def ObstaclesAndPaths (t : Terrain) (tileSize : Int) (camSize : I2)
    (FullyBlocks : Graph → I2 → I2 → Bool) (fatUL fatDR : I2) : Option (Graph × Graph) :=
  (obstaclesAndVerts t tileSize fatUL fatDR).map fun a =>
    (a.o, buildPaths camSize FullyBlocks a.o a.pVerts)

/-- Example terrain: a `w` by `h` grid given by its tile indices, where index 0 is
an open tile and index 1 a blocking tile. -/
def gridOf (w h s : Int) (tiles : List Nat) : Terrain :=
  ⟨[], tiles, [⟨"open", false⟩, ⟨"wall", true⟩], s, ⟨w, h⟩⟩

/-- The condition under which the inner loop body of `buildPaths` reaches `AddEdge`. -/
def keepsPair (camSize : I2) (FullyBlocks : Graph → I2 → I2 → Bool) (o : Graph)
    (u v : I2) : Prop :=
  ¬ (Abs (u.X - v.X) > camSize.X) ∧ ¬ (Abs (u.Y - v.Y) > camSize.Y) ∧
    FullyBlocks o u v = false

instance (camSize : I2) (FullyBlocks : Graph → I2 → I2 → Bool) (o : Graph) (u v : I2) :
    Decidable (keepsPair camSize FullyBlocks o u v) := by
  unfold keepsPair
  infer_instance

/-! ## Auxiliary definitions for the properties -/

/-- Blocking flag of the tile at `(x, y)` as `Terrain.Tile` reports it. -/
def Terrain.blocking (t : Terrain) (x y : Int) : Bool :=
  ((t.Tile x y).map TileInfo.Block).getD true

/-- A rectangular grid whose tile indices all have a `TileInfo`: the
precondition under which `Terrain.Tile` never indexes out of range. -/
def Terrain.WellFormed (t : Terrain) : Prop :=
  t.tiles.length = (t.size.X * t.size.Y).toNat ∧ ∀ k ∈ t.tiles, k < t.tileInfo.length

instance (t : Terrain) : Decidable t.WellFormed := by
  unfold Terrain.WellFormed
  infer_instance

/-- Initial variables of a scan line of the row pass. -/
def rowStart (a : Acc) : RowScan := ⟨a.o, a.pVerts, true, true, ⟨0, 0⟩⟩

/-- The accumulators held by the row scan variables. -/
def RowScan.toAcc (st : RowScan) : Acc := ⟨st.o, st.pVerts⟩

/-- The row scan of line `j` after its first `n` columns, reading the blocking
flags from a total map `blk`. -/
def rowLineP (blk : Int → Int → Bool) (s : Int) (fatUL fatDR : I2) (j : Int)
    (st0 : RowScan) : Nat → RowScan
  | 0 => st0
  | n + 1 =>
    rowCell fatUL fatDR ((I2.mk (n : Int) j).Mul s) (blk n (j - 1)) (blk n j)
      (rowLineP blk s fatUL fatDR j st0 n)

/-- The row pass over `w` columns after its first `m` scan lines, reading the
blocking flags from a total map `blk`. -/
def rowPassP (blk : Int → Int → Bool) (s : Int) (fatUL fatDR : I2) (w : Nat)
    (a : Acc) : Nat → Acc
  | 0 => a
  | m + 1 =>
    (rowLineP blk s fatUL fatDR (m : Int)
      (rowStart (rowPassP blk s fatUL fatDR w a m)) w).toAcc

/-- Initial variables of a scan column of the column pass. -/
def colStart (a : Acc) : ColScan := ⟨a.o, a.pVerts, true, true, ⟨0, 0⟩⟩

/-- The accumulators held by the column scan variables. -/
def ColScan.toAcc (st : ColScan) : Acc := ⟨st.o, st.pVerts⟩

/-- The column scan of column `i` after its first `n` rows, reading the blocking
flags from a total map `blk`. -/
def colLineP (blk : Int → Int → Bool) (s : Int) (fatUL fatDR : I2) (i : Int)
    (st0 : ColScan) : Nat → ColScan
  | 0 => st0
  | n + 1 =>
    colCell fatUL fatDR ((I2.mk i (n : Int)).Mul s) (blk (i - 1) n) (blk i n)
      (colLineP blk s fatUL fatDR i st0 n)

/-- The column pass over `h` rows after its first `m` scan columns, reading the
blocking flags from a total map `blk`. -/
def colPassP (blk : Int → Int → Bool) (s : Int) (fatUL fatDR : I2) (h : Nat)
    (a : Acc) : Nat → Acc
  | 0 => a
  | m + 1 =>
    (colLineP blk s fatUL fatDR (m : Int)
      (colStart (colPassP blk s fatUL fatDR h a m)) h).toAcc

/-- The point registered in `pVerts` at the corner `ut`, as a function of the
blocking flags of the four tiles around it (up-left, up-right, down-left,
down-right): the fattened corner of the only blocking tile, moved one unit
away from that tile. -/
def tagOf (fatUL fatDR ut : I2) (bul bur bdl bdr : Bool) : Option I2 :=
  match bul, bur, bdl, bdr with
  | true, false, false, false => some ((ut.Add fatDR).Add dr)
  | false, true, false, false => some ((ut.Add ⟨fatUL.X, fatDR.Y⟩).Add dl)
  | false, false, true, false => some ((ut.Add ⟨fatDR.X, fatUL.Y⟩).Add ur)
  | false, false, false, true => some ((ut.Add fatUL).Add ul)
  | _, _, _, _ => none

/-- The edges the row pass adds at the corner `ut`, as a function of the running
origin `u`, the flags before the corner and the flags after it. -/
def rowEdges (fatUL fatDR ut u : I2) (up down cup cdown : Bool) : List (I2 × I2) :=
  match up, down, cup, cdown with
  | true, false, _, true => [(u, ut.Add ⟨fatUL.X, fatDR.Y⟩)]
  | true, false, false, false => [(u, ut.Add fatDR)]
  | false, true, true, _ => [(ut.Add fatUL, u)]
  | false, true, false, false => [(ut.Add ⟨fatDR.X, fatUL.Y⟩, u)]
  | _, _, _, _ => []

/-- The running origin `u` of the row pass after the corner `ut`. -/
def rowOrigin (fatUL fatDR ut u : I2) (up down cup cdown : Bool) : I2 :=
  match up, down, cup, cdown with
  | true, false, true, false => u
  | _, true, true, false => ut.Add fatDR
  | _, false, true, false => ut.Add ⟨fatUL.X, fatDR.Y⟩
  | false, true, false, true => u
  | true, _, false, true => ut.Add ⟨fatDR.X, fatUL.Y⟩
  | false, _, false, true => ut.Add fatUL
  | _, _, _, _ => u

/-- The edges the column pass adds at the corner `ut`, as a function of the
running origin `u`, the flags before the corner and the flags after it. -/
def colEdges (fatUL fatDR ut u : I2) (left right cleft cright : Bool) : List (I2 × I2) :=
  match left, right, cleft, cright with
  | true, false, _, true => [(ut.Add ⟨fatDR.X, fatUL.Y⟩, u)]
  | true, false, false, false => [(ut.Add fatDR, u)]
  | false, true, true, _ => [(u, ut.Add fatUL)]
  | false, true, false, false => [(u, ut.Add ⟨fatUL.X, fatDR.Y⟩)]
  | _, _, _, _ => []

/-- The running origin `u` of the column pass after the corner `ut`. -/
def colOrigin (fatUL fatDR ut u : I2) (left right cleft cright : Bool) : I2 :=
  match left, right, cleft, cright with
  | true, false, true, false => u
  | _, true, true, false => ut.Add fatDR
  | _, false, true, false => ut.Add ⟨fatDR.X, fatUL.Y⟩
  | false, true, false, true => u
  | true, _, false, true => ut.Add ⟨fatUL.X, fatDR.Y⟩
  | false, _, false, true => ut.Add fatUL
  | _, _, _, _ => u

/-- The fattened upper-left corner `U = p + UL + fatUL` of a doodad, where `p` is
its render position `pos - anim.offset`. -/
def doodadU (fatUL : I2) (d : Doodad) : I2 :=
  ⟨d.pos.X - d.animOffset.X + d.UL.X + fatUL.X, d.pos.Y - d.animOffset.Y + d.UL.Y + fatUL.Y⟩

/-- The fattened lower-right corner `V = p + DR + fatDR` of a doodad. -/
def doodadV (fatDR : I2) (d : Doodad) : I2 :=
  ⟨d.pos.X - d.animOffset.X + d.DR.X + fatDR.X, d.pos.Y - d.animOffset.Y + d.DR.Y + fatDR.Y⟩

/-- The closed loop `U -> (U.x, V.y) -> V -> (V.x, U.y) -> U` around a doodad, as
the specification lists it. -/
def doodadLoop (fatUL fatDR : I2) (d : Doodad) : List (I2 × I2) :=
  let U := doodadU fatUL d
  let V := doodadV fatDR d
  [(U, ⟨U.X, V.Y⟩), (⟨U.X, V.Y⟩, V), (V, ⟨V.X, U.Y⟩), (⟨V.X, U.Y⟩, U)]

/-- The four outer corner points of a doodad, as the specification lists them:
`U + (-1,-1)`, `(U.x, V.y) + (-1,+1)`, `V + (+1,+1)`, `(V.x, U.y) + (+1,-1)`. -/
def doodadCorners (fatUL fatDR : I2) (d : Doodad) : List I2 :=
  let U := doodadU fatUL d
  let V := doodadV fatDR d
  [⟨U.X - 1, U.Y - 1⟩, ⟨U.X - 1, V.Y + 1⟩, ⟨V.X + 1, V.Y + 1⟩, ⟨V.X + 1, U.Y - 1⟩]

/-- The point that a pass registers at the grid corner `(i, j)` of a terrain
with tile size `s`, if any: `tagOf` at the four tiles `(i-1, j-1)`, `(i, j-1)`,
`(i-1, j)`, `(i, j)` around the corner. -/
def cornerTag (t : Terrain) (s : Int) (fatUL fatDR : I2) (i j : Int) : Option I2 :=
  tagOf fatUL fatDR ((I2.mk i j).Mul s) (t.blocking (i - 1) (j - 1)) (t.blocking i (j - 1))
    (t.blocking (i - 1) j) (t.blocking i j)

/-- The convex corner point of the specification at the grid corner
`c = (i * s, j * s)`: when exactly one of the four tiles `(i-1, j-1)`, `(i, j-1)`,
`(i-1, j)`, `(i, j)` is blocking, the point `c + d(c)` where `d(c)` is the unit
diagonal pointing away from that tile; no point otherwise. -/
def convexCornerTag (t : Terrain) (s : Int) (i j : Int) : Option I2 :=
  match t.blocking (i - 1) (j - 1), t.blocking i (j - 1), t.blocking (i - 1) j,
    t.blocking i j with
  | true, false, false, false => some ⟨i * s + 1, j * s + 1⟩
  | false, true, false, false => some ⟨i * s - 1, j * s + 1⟩
  | false, false, true, false => some ⟨i * s + 1, j * s - 1⟩
  | false, false, false, true => some ⟨i * s - 1, j * s - 1⟩
  | _, _, _, _ => none

/-- Membership of a point in the closed rectangle `[lo, hi]`. -/
def inClosedRect (p lo hi : I2) : Prop :=
  lo.X ≤ p.X ∧ p.X ≤ hi.X ∧ lo.Y ≤ p.Y ∧ p.Y ≤ hi.Y

instance (p lo hi : I2) : Decidable (inClosedRect p lo hi) := by
  unfold inClosedRect
  infer_instance

/-- Upper-left corner of the fattened rectangle of tile `(x, y)`:
`(x * s, y * s) + fatUL`. -/
def tileLo (s : Int) (fatUL : I2) (x y : Int) : I2 := ⟨x * s + fatUL.X, y * s + fatUL.Y⟩

/-- Lower-right corner of the fattened rectangle of tile `(x, y)`:
`((x + 1) * s, (y + 1) * s) + fatDR`. -/
def tileHi (s : Int) (fatDR : I2) (x y : Int) : I2 :=
  ⟨(x + 1) * s + fatDR.X, (y + 1) * s + fatDR.Y⟩

/-- The four points one unit diagonally outside the corners of the fattened
rectangle of tile `(x, y)`. -/
def tileCornerTags (s : Int) (fatUL fatDR : I2) (x y : Int) : List I2 :=
  [⟨x * s + fatUL.X - 1, y * s + fatUL.Y - 1⟩,
   ⟨(x + 1) * s + fatDR.X + 1, y * s + fatUL.Y - 1⟩,
   ⟨x * s + fatUL.X - 1, (y + 1) * s + fatDR.Y + 1⟩,
   ⟨(x + 1) * s + fatDR.X + 1, (y + 1) * s + fatDR.Y + 1⟩]

/-! ## Load: the footprint offsets -/

/-- The two vectors that `Load` passes to `ObstaclesAndPaths`, computed from the
player's footprint `(ul, dr)`: `ul.Mul(-1)` and `dr.Mul(-1)`, in this order. -/
def Load.offsets (ul dr : I2) : I2 × I2 := (ul.Mul (-1), dr.Mul (-1))

/-! ## Text layout (`font.go`) -/

/-- Metrics of one character (`CharInfo`). -/
structure CharInfo where
  X : Int
  Y : Int
  Width : Int
  Height : Int
  XOffset : Int
  YOffset : Int
  XAdvance : Int
deriving DecidableEq, Repr

/-- One laid-out character (`oneChar`), without its back references to the text. -/
structure oneChar where
  pos : I2
  c : Nat
  visible : Bool
deriving DecidableEq, Repr

/-- Local variables of `Text.Layout`. -/
structure LayoutVars where
  x : Int
  y : Int
  maxW : Int
  chars : List oneChar
  wordStartC : Nat
  wordStartI : Nat
deriving DecidableEq, Repr

/-- The closure `wrapIt` of `Text.Layout`, called with `stop` for its argument
`end`: when `x` has reached the wrap width, start a new line and move the
characters of the current word to it. `text` holds the bytes of `t.Text`, `cm` is
the metrics map (absent keys read as the zero `CharInfo`). -/
def wrapIt (text : List Nat) (cm : Nat → CharInfo) (lineHeight width : Int)
    (st : LayoutVars) (stop : Nat) : Option LayoutVars :=
  if st.x < width then some st
  else
    let st1 : LayoutVars :=
      { st with maxW := if st.x > st.maxW then st.x else st.maxW, x := 0,
                y := st.y + lineHeight }
    (List.range (stop - st.wordStartI)).foldlM
      (fun (s : LayoutVars) (k : Nat) =>
        (text[st.wordStartI + k]?).bind fun c =>
        (s.chars[st.wordStartC + k]?).bind fun ch =>
          some { s with chars := s.chars.set (st.wordStartC + k) { ch with pos := ⟨s.x, s.y⟩ },
                        x := s.x + (cm c).XAdvance })
      st1

/-- Body of the main loop of `Text.Layout` at byte index `i` holding byte `b`. -/
def layoutStep (text : List Nat) (cm : Nat → CharInfo) (lineHeight width : Int)
    (visible : Bool) (st : LayoutVars) (i b : Nat) : Option LayoutVars :=
  if b = 10 then
    some { st with x := 0, y := st.y + lineHeight, wordStartC := st.chars.length,
                   wordStartI := i + 1 }
  else if b = 32 then
    (wrapIt text cm lineHeight width st i).map fun s =>
      { s with wordStartC := s.chars.length, wordStartI := i + 1,
               x := s.x + (cm b).XAdvance }
  else
    some { st with chars := st.chars ++ [⟨⟨st.x, st.y⟩, b, visible⟩],
                   x := st.x + (cm b).XAdvance }

/-- The function `Text.Layout` on an ASCII text (so that the loop over the string
visits every byte): from the bytes of `t.Text`, the metrics map, the line height
and the wrap width `t.Size.X`, the laid-out characters `t.chars` and the new
`t.Size`. -/
def Layout (text : List Nat) (cm : Nat → CharInfo) (lineHeight width : Int)
    (visible : Bool) : Option (List oneChar × I2) :=
  ((List.range text.length).foldlM
      (fun (st : LayoutVars) (i : Nat) =>
        (text[i]?).bind fun b => layoutStep text cm lineHeight width visible st i b)
      (⟨0, 0, 0, [], 0, 0⟩ : LayoutVars)).bind fun st =>
  (wrapIt text cm lineHeight width st text.length).map fun s =>
    (s.chars, ⟨if s.x > s.maxW then s.x else s.maxW, s.y + lineHeight⟩)

/-! ## Axis swap -/

/-- The point with its `x` and `y` coordinates swapped. -/
def I2.swap (p : I2) : I2 := ⟨p.Y, p.X⟩

/-- The edge with the coordinates of both ends swapped and its direction
reversed. -/
def mirrorEdge (e : I2 × I2) : I2 × I2 := (e.2.swap, e.1.swap)

/-- The graph whose edges are the mirrored edges of `g`. -/
def Graph.mirror (g : Graph) : Graph := ⟨g.E.map mirrorEdge⟩

/-- The accumulators with every edge mirrored and every point swapped. -/
def Acc.mirror (a : Acc) : Acc := ⟨a.o.mirror, a.pVerts.map I2.swap⟩

/-- The column scan variables that correspond to row scan variables under the
axis swap. -/
def RowScan.mirror (st : RowScan) : ColScan :=
  ⟨st.o.mirror, st.pVerts.map I2.swap, st.up, st.down, st.u.swap⟩

/-- The transposed terrain: tile `(x, y)` of the transpose is tile `(y, x)` of `t`. -/
def Terrain.transpose (t : Terrain) : Terrain :=
  { doodads := t.doodads
    tiles := (List.range (t.size.X * t.size.Y).toNat).map fun k =>
      t.tiles.getD (k / t.size.Y.toNat + t.size.X.toNat * (k % t.size.Y.toNat)) 0
    tileInfo := t.tileInfo
    tileSize := t.tileSize
    size := ⟨t.size.Y, t.size.X⟩ }

/-! ## Runs of a scan line -/

/-- On scan line `j` of the blocking map `blk`, the columns `i0 .. i1 - 1` are a
run opened at `i0`: exactly one of the tiles above and below the line is blocking
at `i0`, the flags change between column `i0 - 1` and column `i0`, and they stay
the same on all columns of `[i0, i1)`. -/
def RowRun (blk : Int → Int → Bool) (j i0 i1 : Int) : Prop :=
  blk i0 (j - 1) ≠ blk i0 j ∧
  (blk (i0 - 1) (j - 1) ≠ blk i0 (j - 1) ∨ blk (i0 - 1) j ≠ blk i0 j) ∧
  ∀ k, i0 ≤ k → k < i1 → blk k (j - 1) = blk i0 (j - 1) ∧ blk k j = blk i0 j

/-- The edge (if any) that the row pass adds at column `i1` of scan line `j` for
the run opened at column `i0`: `rowEdges` at the corner `(i1, j)` with the origin
that `rowOrigin` set at the corner `(i0, j)`. -/
def rowRunEdges (blk : Int → Int → Bool) (s : Int) (fatUL fatDR : I2) (j i0 i1 : Int) :
    List (I2 × I2) :=
  rowEdges fatUL fatDR ((I2.mk i1 j).Mul s)
    (rowOrigin fatUL fatDR ((I2.mk i0 j).Mul s) ⟨0, 0⟩ (blk (i0 - 1) (j - 1))
      (blk (i0 - 1) j) (blk i0 (j - 1)) (blk i0 j))
    (blk i0 (j - 1)) (blk i0 j) (blk i1 (j - 1)) (blk i1 j)


/-! # Properties -/

/-! ## Basic facts about the containers -/

theorem Abs_eq_abs (x : Int) : Abs x = |x| := by
  unfold Abs
  split_ifs with h
  · exact (abs_of_neg h).symm
  · exact (abs_of_nonneg (not_lt.mp h)).symm

theorem VertexSet.mem_set {s : VertexSet} {v p : I2} :
    p ∈ VertexSet.set s v ↔ p ∈ s ∨ p = v := by
  unfold VertexSet.set
  split_ifs with h
  · constructor
    · intro hp; exact Or.inl hp
    · rintro (hp | rfl)
      · exact hp
      · exact h
  · simp

theorem VertexSet.nodup_set {s : VertexSet} (v : I2) (hs : s.Nodup) :
    (VertexSet.set s v).Nodup := by
  unfold VertexSet.set
  split_ifs with h
  · exact hs
  · rw [List.nodup_append]
    refine ⟨hs, List.nodup_singleton v, ?_⟩
    intro a ha hb
    rw [List.mem_singleton] at hb
    subst hb
    exact h ha

theorem Graph.mem_AddEdge {g : Graph} {u v : I2} {e : I2 × I2} :
    e ∈ (g.AddEdge u v).E ↔ e ∈ g.E ∨ e = (u, v) := by
  unfold Graph.AddEdge
  split_ifs with h
  · constructor
    · intro he; exact Or.inl he
    · rintro (he | rfl)
      · exact he
      · exact h
  · simp

theorem buildPaths_inner_mem (camSize : I2) (FullyBlocks : Graph → I2 → I2 → Bool)
    (o : Graph) (u : I2) (l : List I2) (p : Graph) (e : I2 × I2) :
    e ∈ (l.foldl
        (fun (p : Graph) (v : I2) =>
          if Abs (u.X - v.X) > camSize.X then p
          else if Abs (u.Y - v.Y) > camSize.Y then p
          else if FullyBlocks o u v then p
          else p.AddEdge u v) p).E ↔
      e ∈ p.E ∨ ∃ v ∈ l, e = (u, v) ∧ keepsPair camSize FullyBlocks o u v := by
  induction l generalizing p with
  | nil => simp
  | cons w l ih =>
    rw [List.foldl_cons, ih]
    simp only [List.mem_cons, exists_eq_or_imp]
    split_ifs with h1 h2 h3
    · have hk : ¬ keepsPair camSize FullyBlocks o u w := fun hk => hk.1 h1
      tauto
    · have hk : ¬ keepsPair camSize FullyBlocks o u w := fun hk => hk.2.1 h2
      tauto
    · have hk : ¬ keepsPair camSize FullyBlocks o u w := fun hk => by
        rw [hk.2.2] at h3
        exact Bool.false_ne_true h3
      tauto
    · have hk : keepsPair camSize FullyBlocks o u w := ⟨h1, h2, by simpa using h3⟩
      rw [Graph.mem_AddEdge]
      tauto

theorem buildPaths_outer_mem (camSize : I2) (FullyBlocks : Graph → I2 → I2 → Bool)
    (o : Graph) (l2 l1 : List I2) (p : Graph) (e : I2 × I2) :
    e ∈ (l1.foldl
        (fun (p : Graph) (u : I2) =>
          l2.foldl
            (fun (p : Graph) (v : I2) =>
              if Abs (u.X - v.X) > camSize.X then p
              else if Abs (u.Y - v.Y) > camSize.Y then p
              else if FullyBlocks o u v then p
              else p.AddEdge u v) p) p).E ↔
      e ∈ p.E ∨ ∃ u ∈ l1, ∃ v ∈ l2, e = (u, v) ∧ keepsPair camSize FullyBlocks o u v := by
  induction l1 generalizing p with
  | nil => simp
  | cons w l1 ih =>
    rw [List.foldl_cons, ih, buildPaths_inner_mem]
    simp only [List.mem_cons, exists_eq_or_imp]
    rw [or_assoc]

theorem buildPaths_mem (camSize : I2) (FullyBlocks : Graph → I2 → I2 → Bool)
    (o : Graph) (pVerts : VertexSet) (u v : I2) :
    (u, v) ∈ (buildPaths camSize FullyBlocks o pVerts).E ↔
      u ∈ pVerts ∧ v ∈ pVerts ∧ |u.X - v.X| ≤ camSize.X ∧ |u.Y - v.Y| ≤ camSize.Y ∧
        FullyBlocks o u v = false := by
  unfold buildPaths
  rw [buildPaths_outer_mem]
  simp only [NewGraph, List.not_mem_nil, false_or, keepsPair, Abs_eq_abs, gt_iff_lt, not_lt,
    Prod.mk.injEq]
  constructor
  · rintro ⟨u1, hu1, v1, hv1, ⟨rfl, rfl⟩, h⟩
    exact ⟨hu1, hv1, h⟩
  · rintro ⟨hu, hv, h⟩
    exact ⟨u, hu, v, hv, ⟨rfl, rfl⟩, h⟩

/-! ## The path graph -/

/-- C2: when the occlusion oracle answers the same for `(u, v)` and `(v, u)`, the
path graph is symmetric: the edge `(u, v)` is present if and only if the edge
`(v, u)` is present. -/
theorem pathGraph_symmetric (camSize : I2) (FullyBlocks : Graph → I2 → I2 → Bool)
    (o : Graph) (pVerts : VertexSet)
    (hsym : ∀ u v, FullyBlocks o u v = FullyBlocks o v u) (u v : I2) :
    (u, v) ∈ (buildPaths camSize FullyBlocks o pVerts).E ↔
      (v, u) ∈ (buildPaths camSize FullyBlocks o pVerts).E := by
  rw [buildPaths_mem, buildPaths_mem, hsym u v, abs_sub_comm u.X v.X, abs_sub_comm u.Y v.Y]
  tauto

theorem pathGraph_symmetric_witness :
    (∀ u v : I2, (fun (_ : Graph) (a b : I2) => decide (a.X + b.X = 48)) NewGraph u v =
        (fun (_ : Graph) (a b : I2) => decide (a.X + b.X = 48)) NewGraph v u) ∧
    ((⟨15, 15⟩, ⟨15, 33⟩) ∈
        (buildPaths ⟨267, 150⟩ (fun _ a b => decide (a.X + b.X = 48)) NewGraph
          [⟨15, 15⟩, ⟨33, 15⟩, ⟨15, 33⟩, ⟨33, 33⟩]).E ↔
      (⟨15, 33⟩, ⟨15, 15⟩) ∈
        (buildPaths ⟨267, 150⟩ (fun _ a b => decide (a.X + b.X = 48)) NewGraph
          [⟨15, 15⟩, ⟨33, 15⟩, ⟨15, 33⟩, ⟨33, 33⟩]).E) :=
  ⟨fun u v => by simp only [add_comm],
    pathGraph_symmetric _ _ _ _ (fun u v => by simp only [add_comm]) _ _⟩

/-- C3, as stated, fails: on the 3 x 3 grid whose centre tile is blocking, with
the default viewport and an oracle that blocks nothing, the path graph returned
by `ObstaclesAndPaths` contains the self-pair of the vertex `(15, 15)`. -/
theorem pathGraph_self_pair_counterexample :
    (ObstaclesAndPaths (gridOf 3 3 16 [0, 0, 0, 0, 1, 0, 0, 0, 0]) 16 ⟨267, 150⟩
        (fun _ _ _ => false) ⟨0, 0⟩ ⟨0, 0⟩).map
      (fun r => decide ((⟨15, 15⟩, ⟨15, 15⟩) ∈ r.2.E)) = some true := by
  decide

/-- C3, amended: the path loop visits every ordered pair of points of the vertex
set, self-pairs included. The self-pair `(u, u)` is in the path graph exactly
when `u` is in the vertex set, `camSize` has no negative component and the
oracle does not report the zero-length segment at `u` as fully blocked. -/
theorem pathGraph_self_pair_iff (camSize : I2) (FullyBlocks : Graph → I2 → I2 → Bool)
    (o : Graph) (pVerts : VertexSet) (u : I2) :
    (u, u) ∈ (buildPaths camSize FullyBlocks o pVerts).E ↔
      u ∈ pVerts ∧ 0 ≤ camSize.X ∧ 0 ≤ camSize.Y ∧ FullyBlocks o u u = false := by
  rw [buildPaths_mem]
  simp

/-! ## Doodads -/

theorem doodadStep_mem_E (fatUL fatDR : I2) (a : Acc) (d : Doodad) (e : I2 × I2) :
    e ∈ (doodadStep fatUL fatDR a d).o.E ↔ e ∈ a.o.E ∨ e ∈ doodadLoop fatUL fatDR d := by
  simp only [doodadStep, Graph.mem_AddEdge, doodadLoop, doodadU, doodadV, I2.Add, I2.Sub,
    List.mem_cons, List.mem_singleton, List.not_mem_nil, or_false]
  tauto

theorem doodadStep_mem_pVerts (fatUL fatDR : I2) (a : Acc) (d : Doodad) (p : I2) :
    p ∈ (doodadStep fatUL fatDR a d).pVerts ↔
      p ∈ a.pVerts ∨ p ∈ doodadCorners fatUL fatDR d := by
  simp only [doodadStep, VertexSet.mem_set, doodadCorners, doodadU, doodadV, I2.Add, I2.Sub,
    ul, ur, dl, dr, List.mem_cons, List.mem_singleton, List.not_mem_nil, or_false,
    Int.sub_eq_add_neg]
  tauto

theorem doodadStep_nodup (fatUL fatDR : I2) (a : Acc) (d : Doodad) (h : a.pVerts.Nodup) :
    (doodadStep fatUL fatDR a d).pVerts.Nodup := by
  unfold doodadStep
  exact VertexSet.nodup_set _ (VertexSet.nodup_set _ (VertexSet.nodup_set _
    (VertexSet.nodup_set _ h)))

theorem doodadPass_mem_E (fatUL fatDR : I2) (ds : List Doodad) (a : Acc) (e : I2 × I2) :
    e ∈ (doodadPass ds fatUL fatDR a).o.E ↔
      e ∈ a.o.E ∨ ∃ d ∈ ds, e ∈ doodadLoop fatUL fatDR d := by
  unfold doodadPass
  induction ds generalizing a with
  | nil => simp
  | cons d ds ih =>
    rw [List.foldl_cons, ih, doodadStep_mem_E]
    simp only [List.mem_cons, exists_eq_or_imp]
    rw [or_assoc]

theorem doodadPass_mem_pVerts (fatUL fatDR : I2) (ds : List Doodad) (a : Acc) (p : I2) :
    p ∈ (doodadPass ds fatUL fatDR a).pVerts ↔
      p ∈ a.pVerts ∨ ∃ d ∈ ds, p ∈ doodadCorners fatUL fatDR d := by
  unfold doodadPass
  induction ds generalizing a with
  | nil => simp
  | cons d ds ih =>
    rw [List.foldl_cons, ih, doodadStep_mem_pVerts]
    simp only [List.mem_cons, exists_eq_or_imp]
    rw [or_assoc]

theorem doodadPass_nodup (fatUL fatDR : I2) (ds : List Doodad) (a : Acc)
    (h : a.pVerts.Nodup) : (doodadPass ds fatUL fatDR a).pVerts.Nodup := by
  unfold doodadPass
  induction ds generalizing a with
  | nil => exact h
  | cons d ds ih =>
    rw [List.foldl_cons]
    exact ih _ (doodadStep_nodup fatUL fatDR a d h)

/-- C9: starting from any obstacle graph and vertex set, the doodad loop adds,
for each doodad with fattened corners `U` and `V`, exactly the four edges of the
closed loop `U -> (U.x, V.y) -> V -> (V.x, U.y) -> U` (each edge ends where the
next begins) and exactly the four points `U + (-1,-1)`, `(U.x, V.y) + (-1,+1)`,
`V + (+1,+1)`, `(V.x, U.y) + (+1,-1)`, and nothing else; the contribution of a list
of doodads is the union of the contributions of its doodads, whether or not their
rectangles overlap. -/
theorem doodadPass_contribution (ds : List Doodad) (fatUL fatDR : I2) (a : Acc) :
    (∀ e, e ∈ (doodadPass ds fatUL fatDR a).o.E ↔
      e ∈ a.o.E ∨ ∃ d ∈ ds, e ∈ doodadLoop fatUL fatDR d) ∧
    (∀ p, p ∈ (doodadPass ds fatUL fatDR a).pVerts ↔
      p ∈ a.pVerts ∨ ∃ d ∈ ds, p ∈ doodadCorners fatUL fatDR d) ∧
    (∀ d, ∃ e1 e2 e3 e4, doodadLoop fatUL fatDR d = [e1, e2, e3, e4] ∧
      e1.2 = e2.1 ∧ e2.2 = e3.1 ∧ e3.2 = e4.1 ∧ e4.2 = e1.1) :=
  ⟨doodadPass_mem_E fatUL fatDR ds a, doodadPass_mem_pVerts fatUL fatDR ds a,
    fun _ => ⟨_, _, _, _, rfl, rfl, rfl, rfl, rfl⟩⟩

/-! ## One corner of a scan -/

theorem rowCell_flags (fatUL fatDR ut : I2) (cup cdown : Bool) (st : RowScan) :
    (rowCell fatUL fatDR ut cup cdown st).up = cup ∧
      (rowCell fatUL fatDR ut cup cdown st).down = cdown := by
  simp [rowCell]

theorem rowCell_mem_pVerts (fatUL fatDR ut : I2) (cup cdown : Bool) (st : RowScan) (p : I2) :
    p ∈ (rowCell fatUL fatDR ut cup cdown st).pVerts ↔
      p ∈ st.pVerts ∨ tagOf fatUL fatDR ut st.up cup st.down cdown = some p := by
  rcases st with ⟨o, pv, up, down, u⟩
  cases up <;> cases down <;> cases cup <;> cases cdown <;>
    simp [rowCell, tagOf, VertexSet.mem_set, eq_comm]

theorem rowCell_mem_E (fatUL fatDR ut : I2) (cup cdown : Bool) (st : RowScan) (e : I2 × I2) :
    e ∈ (rowCell fatUL fatDR ut cup cdown st).o.E ↔
      e ∈ st.o.E ∨ e ∈ rowEdges fatUL fatDR ut st.u st.up st.down cup cdown := by
  rcases st with ⟨o, pv, up, down, u⟩
  cases up <;> cases down <;> cases cup <;> cases cdown <;>
    simp [rowCell, rowEdges, Graph.mem_AddEdge]

theorem rowCell_u (fatUL fatDR ut : I2) (cup cdown : Bool) (st : RowScan) :
    (rowCell fatUL fatDR ut cup cdown st).u =
      rowOrigin fatUL fatDR ut st.u st.up st.down cup cdown := by
  rcases st with ⟨o, pv, up, down, u⟩
  cases up <;> cases down <;> cases cup <;> cases cdown <;>
    simp [rowCell, rowOrigin]

theorem rowCell_nodup (fatUL fatDR ut : I2) (cup cdown : Bool) (st : RowScan)
    (h : st.pVerts.Nodup) : (rowCell fatUL fatDR ut cup cdown st).pVerts.Nodup := by
  rcases st with ⟨o, pv, up, down, u⟩
  cases up <;> cases down <;> cases cup <;> cases cdown <;>
    simp [rowCell] <;> first | exact h | exact VertexSet.nodup_set _ h

theorem colCell_flags (fatUL fatDR ut : I2) (cleft cright : Bool) (st : ColScan) :
    (colCell fatUL fatDR ut cleft cright st).left = cleft ∧
      (colCell fatUL fatDR ut cleft cright st).right = cright := by
  simp [colCell]

theorem colCell_mem_pVerts (fatUL fatDR ut : I2) (cleft cright : Bool) (st : ColScan)
    (p : I2) :
    p ∈ (colCell fatUL fatDR ut cleft cright st).pVerts ↔
      p ∈ st.pVerts ∨ tagOf fatUL fatDR ut st.left st.right cleft cright = some p := by
  rcases st with ⟨o, pv, left, right, u⟩
  cases left <;> cases right <;> cases cleft <;> cases cright <;>
    simp [colCell, tagOf, VertexSet.mem_set, eq_comm]

theorem colCell_mem_E (fatUL fatDR ut : I2) (cleft cright : Bool) (st : ColScan)
    (e : I2 × I2) :
    e ∈ (colCell fatUL fatDR ut cleft cright st).o.E ↔
      e ∈ st.o.E ∨ e ∈ colEdges fatUL fatDR ut st.u st.left st.right cleft cright := by
  rcases st with ⟨o, pv, left, right, u⟩
  cases left <;> cases right <;> cases cleft <;> cases cright <;>
    simp [colCell, colEdges, Graph.mem_AddEdge]

theorem colCell_u (fatUL fatDR ut : I2) (cleft cright : Bool) (st : ColScan) :
    (colCell fatUL fatDR ut cleft cright st).u =
      colOrigin fatUL fatDR ut st.u st.left st.right cleft cright := by
  rcases st with ⟨o, pv, left, right, u⟩
  cases left <;> cases right <;> cases cleft <;> cases cright <;>
    simp [colCell, colOrigin]

theorem colCell_nodup (fatUL fatDR ut : I2) (cleft cright : Bool) (st : ColScan)
    (h : st.pVerts.Nodup) : (colCell fatUL fatDR ut cleft cright st).pVerts.Nodup := by
  rcases st with ⟨o, pv, left, right, u⟩
  cases left <;> cases right <;> cases cleft <;> cases cright <;>
    simp [colCell] <;> first | exact h | exact VertexSet.nodup_set _ h

/-! ## From the loops over `Terrain.Tile` to scans of a total blocking map -/

theorem Terrain.Tile_out (t : Terrain) (x y : Int)
    (h : x < 0 ∨ x ≥ t.size.X ∨ y < 0 ∨ y ≥ t.size.Y) : t.Tile x y = some ⟨"", true⟩ := by
  unfold Terrain.Tile
  rw [if_pos h]

theorem Terrain.blocking_out (t : Terrain) (x y : Int)
    (h : x < 0 ∨ x ≥ t.size.X ∨ y < 0 ∨ y ≥ t.size.Y) : t.blocking x y = true := by
  unfold Terrain.blocking
  rw [t.Tile_out x y h]
  rfl

theorem Terrain.Tile_blocking_of_map (t : Terrain) (x y : Int) (b : Bool)
    (h : (t.Tile x y).map TileInfo.Block = some b) : t.blocking x y = b := by
  unfold Terrain.blocking
  rw [h]
  rfl

theorem Terrain.Tile_in_isSome (t : Terrain) (hwf : t.WellFormed) (x y : Int)
    (hx0 : 0 ≤ x) (hx : x < t.size.X) (hy0 : 0 ≤ y) (hy : y < t.size.Y) :
    ∃ ti, t.Tile x y = some ti := by
  obtain ⟨hlen, hinfo⟩ := hwf
  have hidx : (x + t.size.X * y).toNat < t.tiles.length := by
    rw [hlen]
    have h1 : x + t.size.X * y < t.size.X * t.size.Y := by nlinarith
    have h2 : 0 ≤ x + t.size.X * y := by nlinarith
    omega
  have hk : t.tiles[(x + t.size.X * y).toNat]? = some (t.tiles[(x + t.size.X * y).toNat]) :=
    List.getElem?_eq_getElem hidx
  have hki : t.tiles[(x + t.size.X * y).toNat] < t.tileInfo.length :=
    hinfo _ (List.getElem_mem hidx)
  refine ⟨t.tileInfo[t.tiles[(x + t.size.X * y).toNat]], ?_⟩
  unfold Terrain.Tile
  rw [if_neg (by omega), hk, Option.some_bind, List.getElem?_eq_getElem hki]

theorem Terrain.Tile_map_blocking (t : Terrain) (hwf : t.WellFormed) (x y : Int) :
    (t.Tile x y).map TileInfo.Block = some (t.blocking x y) := by
  by_cases h : x < 0 ∨ x ≥ t.size.X ∨ y < 0 ∨ y ≥ t.size.Y
  · rw [t.blocking_out x y h, t.Tile_out x y h]
    rfl
  · obtain ⟨ti, hti⟩ := t.Tile_in_isSome hwf x y (by omega) (by omega) (by omega) (by omega)
    unfold Terrain.blocking
    rw [hti]
    rfl

theorem foldlM_range_eq_some {β : Type} (f : β → Nat → Option β) (g : Nat → β) (n : Nat)
    (b : β) (h0 : g 0 = b) (hs : ∀ k, k < n → f (g k) k = some (g (k + 1))) :
    (List.range n).foldlM f b = some (g n) := by
  induction n with
  | zero => simp [h0]
  | succ n ih =>
    rw [List.range_succ, List.foldlM_append, ih (fun k hk => hs k (Nat.lt_succ_of_lt hk))]
    simp [hs n (Nat.lt_succ_self n)]

theorem rowLine_eq (t : Terrain)
    (hT : ∀ x y, (t.Tile x y).map TileInfo.Block = some (t.blocking x y))
    (fatUL fatDR : I2) (j : Int) (a : Acc) :
    rowLine t fatUL fatDR j a =
      some (rowLineP t.blocking t.tileSize fatUL fatDR j (rowStart a) t.size.X.toNat).toAcc := by
  unfold rowLine
  refine congrArg (Option.map fun st => (⟨st.o, st.pVerts⟩ : Acc))
    (foldlM_range_eq_some _ (rowLineP t.blocking t.tileSize fatUL fatDR j (rowStart a))
      _ (rowStart a) rfl ?_)
  intro k _
  obtain ⟨tu, htu, hbu⟩ := Option.map_eq_some'.mp (hT k (j - 1))
  obtain ⟨td, htd, hbd⟩ := Option.map_eq_some'.mp (hT k j)
  rw [htu, htd, Option.some_bind, Option.some_bind, hbu, hbd]
  rfl

theorem rowPass_eq (t : Terrain)
    (hT : ∀ x y, (t.Tile x y).map TileInfo.Block = some (t.blocking x y))
    (fatUL fatDR : I2) (a : Acc) :
    rowPass t fatUL fatDR a =
      some (rowPassP t.blocking t.tileSize fatUL fatDR t.size.X.toNat a
        (t.size.Y + 1).toNat) := by
  unfold rowPass
  refine foldlM_range_eq_some _
    (rowPassP t.blocking t.tileSize fatUL fatDR t.size.X.toNat a) _ a rfl ?_
  intro k _
  dsimp only
  rw [rowLine_eq t hT]
  rfl

theorem colLine_eq (t : Terrain)
    (hT : ∀ x y, (t.Tile x y).map TileInfo.Block = some (t.blocking x y))
    (tileSize : Int) (fatUL fatDR : I2) (i : Int) (a : Acc) :
    colLine t tileSize fatUL fatDR i a =
      some (colLineP t.blocking tileSize fatUL fatDR i (colStart a) t.size.Y.toNat).toAcc := by
  unfold colLine
  refine congrArg (Option.map fun st => (⟨st.o, st.pVerts⟩ : Acc))
    (foldlM_range_eq_some _ (colLineP t.blocking tileSize fatUL fatDR i (colStart a))
      _ (colStart a) rfl ?_)
  intro k _
  obtain ⟨tl, htl, hbl⟩ := Option.map_eq_some'.mp (hT (i - 1) k)
  obtain ⟨tr, htr, hbr⟩ := Option.map_eq_some'.mp (hT i k)
  rw [htl, htr, Option.some_bind, Option.some_bind, hbl, hbr]
  rfl

theorem colPass_eq (t : Terrain)
    (hT : ∀ x y, (t.Tile x y).map TileInfo.Block = some (t.blocking x y))
    (tileSize : Int) (fatUL fatDR : I2) (a : Acc) :
    colPass t tileSize fatUL fatDR a =
      some (colPassP t.blocking tileSize fatUL fatDR t.size.Y.toNat a
        (t.size.X + 1).toNat) := by
  unfold colPass
  refine foldlM_range_eq_some _
    (colPassP t.blocking tileSize fatUL fatDR t.size.Y.toNat a) _ a rfl ?_
  intro k _
  dsimp only
  rw [colLine_eq t hT]
  rfl

theorem obstaclesAndVerts_eq (t : Terrain)
    (hT : ∀ x y, (t.Tile x y).map TileInfo.Block = some (t.blocking x y))
    (tileSize : Int) (fatUL fatDR : I2) :
    obstaclesAndVerts t tileSize fatUL fatDR =
      some (doodadPass t.doodads fatUL fatDR
        (colPassP t.blocking tileSize fatUL fatDR t.size.Y.toNat
          (rowPassP t.blocking t.tileSize fatUL fatDR t.size.X.toNat ⟨NewGraph, []⟩
            (t.size.Y + 1).toNat)
          (t.size.X + 1).toNat)) := by
  unfold obstaclesAndVerts
  rw [rowPass_eq t hT, Option.some_bind, colPass_eq t hT]
  rfl

/-! ## Scan lines: flags, registered points, edges -/

theorem rowLineP_flags (blk : Int → Int → Bool) (s : Int) (fatUL fatDR : I2) (j : Int)
    (st0 : RowScan) (h0 : st0.up = true ∧ st0.down = true) (hneg : ∀ y, blk (-1) y = true)
    (n : Nat) :
    (rowLineP blk s fatUL fatDR j st0 n).up = blk ((n : Int) - 1) (j - 1) ∧
      (rowLineP blk s fatUL fatDR j st0 n).down = blk ((n : Int) - 1) j := by
  cases n with
  | zero => simp [rowLineP, h0, hneg]
  | succ n =>
    have hn : ((n + 1 : Nat) : Int) - 1 = n := by push_cast; ring
    rw [hn]
    exact rowCell_flags _ _ _ _ _ _

theorem rowLineP_mem_pVerts (blk : Int → Int → Bool) (s : Int) (fatUL fatDR : I2) (j : Int)
    (st0 : RowScan) (h0 : st0.up = true ∧ st0.down = true) (hneg : ∀ y, blk (-1) y = true)
    (n : Nat) (p : I2) :
    p ∈ (rowLineP blk s fatUL fatDR j st0 n).pVerts ↔
      p ∈ st0.pVerts ∨ ∃ i : Nat, i < n ∧
        tagOf fatUL fatDR ((I2.mk (i : Int) j).Mul s) (blk ((i : Int) - 1) (j - 1))
          (blk i (j - 1)) (blk ((i : Int) - 1) j) (blk i j) = some p := by
  induction n with
  | zero => simp [rowLineP]
  | succ n ih =>
    show p ∈ (rowCell fatUL fatDR ((I2.mk (n : Int) j).Mul s) (blk n (j - 1)) (blk n j)
      (rowLineP blk s fatUL fatDR j st0 n)).pVerts ↔ _
    rw [rowCell_mem_pVerts, ih, (rowLineP_flags blk s fatUL fatDR j st0 h0 hneg n).1,
      (rowLineP_flags blk s fatUL fatDR j st0 h0 hneg n).2]
    constructor
    · rintro ((h | ⟨i, hi, h⟩) | h)
      · exact Or.inl h
      · exact Or.inr ⟨i, Nat.lt_succ_of_lt hi, h⟩
      · exact Or.inr ⟨n, Nat.lt_succ_self n, h⟩
    · rintro (h | ⟨i, hi, h⟩)
      · exact Or.inl (Or.inl h)
      · rcases Nat.lt_succ_iff_lt_or_eq.mp hi with hlt | rfl
        · exact Or.inl (Or.inr ⟨i, hlt, h⟩)
        · exact Or.inr h

theorem rowLineP_nodup (blk : Int → Int → Bool) (s : Int) (fatUL fatDR : I2) (j : Int)
    (st0 : RowScan) (h : st0.pVerts.Nodup) (n : Nat) :
    (rowLineP blk s fatUL fatDR j st0 n).pVerts.Nodup := by
  induction n with
  | zero => exact h
  | succ n ih => exact rowCell_nodup _ _ _ _ _ _ ih

theorem rowLineP_mem_E (blk : Int → Int → Bool) (s : Int) (fatUL fatDR : I2) (j : Int)
    (st0 : RowScan) (n : Nat) (e : I2 × I2) :
    e ∈ (rowLineP blk s fatUL fatDR j st0 n).o.E ↔
      e ∈ st0.o.E ∨ ∃ i : Nat, i < n ∧
        e ∈ rowEdges fatUL fatDR ((I2.mk (i : Int) j).Mul s)
          (rowLineP blk s fatUL fatDR j st0 i).u (rowLineP blk s fatUL fatDR j st0 i).up
          (rowLineP blk s fatUL fatDR j st0 i).down (blk i (j - 1)) (blk i j) := by
  induction n with
  | zero => simp [rowLineP]
  | succ n ih =>
    show e ∈ (rowCell fatUL fatDR ((I2.mk (n : Int) j).Mul s) (blk n (j - 1)) (blk n j)
      (rowLineP blk s fatUL fatDR j st0 n)).o.E ↔ _
    rw [rowCell_mem_E, ih]
    constructor
    · rintro ((h | ⟨i, hi, h⟩) | h)
      · exact Or.inl h
      · exact Or.inr ⟨i, Nat.lt_succ_of_lt hi, h⟩
      · exact Or.inr ⟨n, Nat.lt_succ_self n, h⟩
    · rintro (h | ⟨i, hi, h⟩)
      · exact Or.inl (Or.inl h)
      · rcases Nat.lt_succ_iff_lt_or_eq.mp hi with hlt | rfl
        · exact Or.inl (Or.inr ⟨i, hlt, h⟩)
        · exact Or.inr h

theorem colLineP_flags (blk : Int → Int → Bool) (s : Int) (fatUL fatDR : I2) (i : Int)
    (st0 : ColScan) (h0 : st0.left = true ∧ st0.right = true)
    (hneg : ∀ x, blk x (-1) = true) (n : Nat) :
    (colLineP blk s fatUL fatDR i st0 n).left = blk (i - 1) ((n : Int) - 1) ∧
      (colLineP blk s fatUL fatDR i st0 n).right = blk i ((n : Int) - 1) := by
  cases n with
  | zero => simp [colLineP, h0, hneg]
  | succ n =>
    have hn : ((n + 1 : Nat) : Int) - 1 = n := by push_cast; ring
    rw [hn]
    exact colCell_flags _ _ _ _ _ _

theorem colLineP_mem_pVerts (blk : Int → Int → Bool) (s : Int) (fatUL fatDR : I2) (i : Int)
    (st0 : ColScan) (h0 : st0.left = true ∧ st0.right = true)
    (hneg : ∀ x, blk x (-1) = true) (n : Nat) (p : I2) :
    p ∈ (colLineP blk s fatUL fatDR i st0 n).pVerts ↔
      p ∈ st0.pVerts ∨ ∃ j : Nat, j < n ∧
        tagOf fatUL fatDR ((I2.mk i (j : Int)).Mul s) (blk (i - 1) ((j : Int) - 1))
          (blk i ((j : Int) - 1)) (blk (i - 1) j) (blk i j) = some p := by
  induction n with
  | zero => simp [colLineP]
  | succ n ih =>
    show p ∈ (colCell fatUL fatDR ((I2.mk i (n : Int)).Mul s) (blk (i - 1) n) (blk i n)
      (colLineP blk s fatUL fatDR i st0 n)).pVerts ↔ _
    rw [colCell_mem_pVerts, ih, (colLineP_flags blk s fatUL fatDR i st0 h0 hneg n).1,
      (colLineP_flags blk s fatUL fatDR i st0 h0 hneg n).2]
    constructor
    · rintro ((h | ⟨k, hk, h⟩) | h)
      · exact Or.inl h
      · exact Or.inr ⟨k, Nat.lt_succ_of_lt hk, h⟩
      · exact Or.inr ⟨n, Nat.lt_succ_self n, h⟩
    · rintro (h | ⟨k, hk, h⟩)
      · exact Or.inl (Or.inl h)
      · rcases Nat.lt_succ_iff_lt_or_eq.mp hk with hlt | rfl
        · exact Or.inl (Or.inr ⟨k, hlt, h⟩)
        · exact Or.inr h

theorem colLineP_nodup (blk : Int → Int → Bool) (s : Int) (fatUL fatDR : I2) (i : Int)
    (st0 : ColScan) (h : st0.pVerts.Nodup) (n : Nat) :
    (colLineP blk s fatUL fatDR i st0 n).pVerts.Nodup := by
  induction n with
  | zero => exact h
  | succ n ih => exact colCell_nodup _ _ _ _ _ _ ih

theorem colLineP_mem_E (blk : Int → Int → Bool) (s : Int) (fatUL fatDR : I2) (i : Int)
    (st0 : ColScan) (n : Nat) (e : I2 × I2) :
    e ∈ (colLineP blk s fatUL fatDR i st0 n).o.E ↔
      e ∈ st0.o.E ∨ ∃ j : Nat, j < n ∧
        e ∈ colEdges fatUL fatDR ((I2.mk i (j : Int)).Mul s)
          (colLineP blk s fatUL fatDR i st0 j).u (colLineP blk s fatUL fatDR i st0 j).left
          (colLineP blk s fatUL fatDR i st0 j).right (blk (i - 1) j) (blk i j) := by
  induction n with
  | zero => simp [colLineP]
  | succ n ih =>
    show e ∈ (colCell fatUL fatDR ((I2.mk i (n : Int)).Mul s) (blk (i - 1) n) (blk i n)
      (colLineP blk s fatUL fatDR i st0 n)).o.E ↔ _
    rw [colCell_mem_E, ih]
    constructor
    · rintro ((h | ⟨k, hk, h⟩) | h)
      · exact Or.inl h
      · exact Or.inr ⟨k, Nat.lt_succ_of_lt hk, h⟩
      · exact Or.inr ⟨n, Nat.lt_succ_self n, h⟩
    · rintro (h | ⟨k, hk, h⟩)
      · exact Or.inl (Or.inl h)
      · rcases Nat.lt_succ_iff_lt_or_eq.mp hk with hlt | rfl
        · exact Or.inl (Or.inr ⟨k, hlt, h⟩)
        · exact Or.inr h

/-! ## Whole passes: registered points -/

theorem rowPassP_mem_pVerts (blk : Int → Int → Bool) (s : Int) (fatUL fatDR : I2)
    (hneg : ∀ y, blk (-1) y = true) (w : Nat) (a : Acc) (m : Nat) (p : I2) :
    p ∈ (rowPassP blk s fatUL fatDR w a m).pVerts ↔
      p ∈ a.pVerts ∨ ∃ j : Nat, j < m ∧ ∃ i : Nat, i < w ∧
        tagOf fatUL fatDR ((I2.mk (i : Int) (j : Int)).Mul s)
          (blk ((i : Int) - 1) ((j : Int) - 1)) (blk i ((j : Int) - 1))
          (blk ((i : Int) - 1) j) (blk i j) = some p := by
  induction m with
  | zero => simp [rowPassP]
  | succ m ih =>
    show p ∈ (rowLineP blk s fatUL fatDR (m : Int)
      (rowStart (rowPassP blk s fatUL fatDR w a m)) w).pVerts ↔ _
    rw [rowLineP_mem_pVerts blk s fatUL fatDR _ _ ⟨rfl, rfl⟩ hneg]
    show p ∈ (rowPassP blk s fatUL fatDR w a m).pVerts ∨ _ ↔ _
    rw [ih]
    constructor
    · rintro ((h | ⟨j, hj, h⟩) | h)
      · exact Or.inl h
      · exact Or.inr ⟨j, Nat.lt_succ_of_lt hj, h⟩
      · exact Or.inr ⟨m, Nat.lt_succ_self m, h⟩
    · rintro (h | ⟨j, hj, h⟩)
      · exact Or.inl (Or.inl h)
      · rcases Nat.lt_succ_iff_lt_or_eq.mp hj with hlt | rfl
        · exact Or.inl (Or.inr ⟨j, hlt, h⟩)
        · exact Or.inr h

theorem rowPassP_nodup (blk : Int → Int → Bool) (s : Int) (fatUL fatDR : I2) (w : Nat)
    (a : Acc) (h : a.pVerts.Nodup) (m : Nat) :
    (rowPassP blk s fatUL fatDR w a m).pVerts.Nodup := by
  induction m with
  | zero => exact h
  | succ m ih => exact rowLineP_nodup blk s fatUL fatDR _ _ ih w

theorem colPassP_mem_pVerts (blk : Int → Int → Bool) (s : Int) (fatUL fatDR : I2)
    (hneg : ∀ x, blk x (-1) = true) (h : Nat) (a : Acc) (m : Nat) (p : I2) :
    p ∈ (colPassP blk s fatUL fatDR h a m).pVerts ↔
      p ∈ a.pVerts ∨ ∃ i : Nat, i < m ∧ ∃ j : Nat, j < h ∧
        tagOf fatUL fatDR ((I2.mk (i : Int) (j : Int)).Mul s)
          (blk ((i : Int) - 1) ((j : Int) - 1)) (blk i ((j : Int) - 1))
          (blk ((i : Int) - 1) j) (blk i j) = some p := by
  induction m with
  | zero => simp [colPassP]
  | succ m ih =>
    show p ∈ (colLineP blk s fatUL fatDR (m : Int)
      (colStart (colPassP blk s fatUL fatDR h a m)) h).pVerts ↔ _
    rw [colLineP_mem_pVerts blk s fatUL fatDR _ _ ⟨rfl, rfl⟩ hneg]
    show p ∈ (colPassP blk s fatUL fatDR h a m).pVerts ∨ _ ↔ _
    rw [ih]
    constructor
    · rintro ((h | ⟨j, hj, h⟩) | h)
      · exact Or.inl h
      · exact Or.inr ⟨j, Nat.lt_succ_of_lt hj, h⟩
      · exact Or.inr ⟨m, Nat.lt_succ_self m, h⟩
    · rintro (h | ⟨j, hj, h⟩)
      · exact Or.inl (Or.inl h)
      · rcases Nat.lt_succ_iff_lt_or_eq.mp hj with hlt | rfl
        · exact Or.inl (Or.inr ⟨j, hlt, h⟩)
        · exact Or.inr h

theorem colPassP_nodup (blk : Int → Int → Bool) (s : Int) (fatUL fatDR : I2) (h : Nat)
    (a : Acc) (hn : a.pVerts.Nodup) (m : Nat) :
    (colPassP blk s fatUL fatDR h a m).pVerts.Nodup := by
  induction m with
  | zero => exact hn
  | succ m ih => exact colLineP_nodup blk s fatUL fatDR _ _ ih h

/-! ## Registered points of a terrain -/

theorem tagOf_eq_some (fatUL fatDR ut : I2) (bul bur bdl bdr : Bool) (p : I2) :
    tagOf fatUL fatDR ut bul bur bdl bdr = some p ↔
      (bul = true ∧ bur = false ∧ bdl = false ∧ bdr = false ∧
        p = (ut.Add fatDR).Add dr) ∨
      (bul = false ∧ bur = true ∧ bdl = false ∧ bdr = false ∧
        p = (ut.Add ⟨fatUL.X, fatDR.Y⟩).Add dl) ∨
      (bul = false ∧ bur = false ∧ bdl = true ∧ bdr = false ∧
        p = (ut.Add ⟨fatDR.X, fatUL.Y⟩).Add ur) ∨
      (bul = false ∧ bur = false ∧ bdl = false ∧ bdr = true ∧
        p = (ut.Add fatUL).Add ul) := by
  cases bul <;> cases bur <;> cases bdl <;> cases bdr <;> simp [tagOf, eq_comm]

theorem tagOf_right_blocked (fatUL fatDR ut : I2) (bul bdl : Bool) :
    tagOf fatUL fatDR ut bul true bdl true = none := by
  cases bul <;> cases bdl <;> rfl

theorem tagOf_down_blocked (fatUL fatDR ut : I2) (bul bur : Bool) :
    tagOf fatUL fatDR ut bul bur true true = none := by
  cases bul <;> cases bur <;> rfl

theorem Terrain.blocking_false_in (t : Terrain) (x y : Int) (h : t.blocking x y = false) :
    0 ≤ x ∧ x < t.size.X ∧ 0 ≤ y ∧ y < t.size.Y := by
  by_contra hc
  have hout : x < 0 ∨ x ≥ t.size.X ∨ y < 0 ∨ y ≥ t.size.Y := by omega
  rw [t.blocking_out x y hout] at h
  exact Bool.noConfusion h

theorem rowPass_tags (t : Terrain) (s : Int) (fatUL fatDR : I2) (a : Acc) (p : I2) :
    p ∈ (rowPassP t.blocking s fatUL fatDR t.size.X.toNat a (t.size.Y + 1).toNat).pVerts ↔
      p ∈ a.pVerts ∨ ∃ i j : Int, 0 ≤ i ∧ i ≤ t.size.X ∧ 0 ≤ j ∧ j ≤ t.size.Y ∧
        cornerTag t s fatUL fatDR i j = some p := by
  rw [rowPassP_mem_pVerts _ _ _ _ (fun y => t.blocking_out (-1) y (Or.inl (by decide)))]
  refine or_congr Iff.rfl ?_
  constructor
  · rintro ⟨j, hj, i, hi, h⟩
    exact ⟨i, j, by omega, by omega, by omega, by omega, h⟩
  · rintro ⟨i, j, hi0, hiW, hj0, hjH, h⟩
    have hlt : i < t.size.X := by
      by_contra hc
      have hout : ∀ y, t.blocking i y = true := fun y => t.blocking_out i y (by omega)
      unfold cornerTag at h
      rw [hout (j - 1), hout j, tagOf_right_blocked] at h
      exact Option.noConfusion h
    refine ⟨j.toNat, by omega, i.toNat, by omega, ?_⟩
    rw [Int.toNat_of_nonneg hi0, Int.toNat_of_nonneg hj0]
    exact h

theorem colPass_tags (t : Terrain) (s : Int) (fatUL fatDR : I2) (a : Acc) (p : I2) :
    p ∈ (colPassP t.blocking s fatUL fatDR t.size.Y.toNat a (t.size.X + 1).toNat).pVerts ↔
      p ∈ a.pVerts ∨ ∃ i j : Int, 0 ≤ i ∧ i ≤ t.size.X ∧ 0 ≤ j ∧ j ≤ t.size.Y ∧
        cornerTag t s fatUL fatDR i j = some p := by
  rw [colPassP_mem_pVerts _ _ _ _ (fun x => t.blocking_out x (-1) (by omega))]
  refine or_congr Iff.rfl ?_
  constructor
  · rintro ⟨i, hi, j, hj, h⟩
    exact ⟨i, j, by omega, by omega, by omega, by omega, h⟩
  · rintro ⟨i, j, hi0, hiW, hj0, hjH, h⟩
    have hlt : j < t.size.Y := by
      by_contra hc
      have hout : ∀ x, t.blocking x j = true := fun x => t.blocking_out x j (by omega)
      unfold cornerTag at h
      rw [hout (i - 1), hout i, tagOf_down_blocked] at h
      exact Option.noConfusion h
    refine ⟨i.toNat, by omega, j.toNat, by omega, ?_⟩
    rw [Int.toNat_of_nonneg hi0, Int.toNat_of_nonneg hj0]
    exact h

theorem cornerTag_zero (t : Terrain) (s i j : Int) :
    cornerTag t s ⟨0, 0⟩ ⟨0, 0⟩ i j = convexCornerTag t s i j := by
  unfold cornerTag convexCornerTag
  generalize t.blocking (i - 1) (j - 1) = b1
  generalize t.blocking i (j - 1) = b2
  generalize t.blocking (i - 1) j = b3
  generalize t.blocking i j = b4
  cases b1 <;> cases b2 <;> cases b3 <;> cases b4 <;>
    simp [tagOf, I2.Add, I2.Mul, ul, ur, dl, dr, Int.sub_eq_add_neg]

theorem rowCell_pVerts_of_count (fatUL fatDR ut : I2) (cup cdown : Bool) (st : RowScan)
    (h : [st.up, cup, st.down, cdown].count true ≠ 1) :
    (rowCell fatUL fatDR ut cup cdown st).pVerts = st.pVerts := by
  rcases st with ⟨o, pv, up, down, u⟩
  cases up <;> cases down <;> cases cup <;> cases cdown <;> simp [rowCell] at h ⊢

theorem colCell_pVerts_of_count (fatUL fatDR ut : I2) (cleft cright : Bool) (st : ColScan)
    (h : [st.left, st.right, cleft, cright].count true ≠ 1) :
    (colCell fatUL fatDR ut cleft cright st).pVerts = st.pVerts := by
  rcases st with ⟨o, pv, left, right, u⟩
  cases left <;> cases right <;> cases cleft <;> cases cright <;> simp [colCell] at h ⊢

/-- C6: on a well-formed grid, with zero footprint offsets and the column pass
scaling by the terrain's tile size, the points registered by the row pass alone
are exactly the convex corner points `c + d(c)` of the grid corners `(i, j)`,
`0 ≤ i ≤ W`, `0 ≤ j ≤ H`, at which exactly one of the four surrounding tiles is
blocking (tiles outside the grid counting as blocking), and the column pass alone
registers exactly the same set; at a corner where the number of blocking tiles
among the four is not one, neither pass registers a point. -/
theorem convex_tags_both_passes (t : Terrain) (hwf : t.WellFormed) :
    (∃ ar ac, rowPass t ⟨0, 0⟩ ⟨0, 0⟩ ⟨NewGraph, []⟩ = some ar ∧
      colPass t t.tileSize ⟨0, 0⟩ ⟨0, 0⟩ ⟨NewGraph, []⟩ = some ac ∧
      (∀ p, p ∈ ar.pVerts ↔ ∃ i j : Int, 0 ≤ i ∧ i ≤ t.size.X ∧ 0 ≤ j ∧ j ≤ t.size.Y ∧
        convexCornerTag t t.tileSize i j = some p) ∧
      (∀ p, p ∈ ac.pVerts ↔ ∃ i j : Int, 0 ≤ i ∧ i ≤ t.size.X ∧ 0 ≤ j ∧ j ≤ t.size.Y ∧
        convexCornerTag t t.tileSize i j = some p)) ∧
    (∀ (fatUL fatDR ut : I2) (cup cdown : Bool) (st : RowScan),
      [st.up, cup, st.down, cdown].count true ≠ 1 →
        (rowCell fatUL fatDR ut cup cdown st).pVerts = st.pVerts) ∧
    (∀ (fatUL fatDR ut : I2) (cleft cright : Bool) (st : ColScan),
      [st.left, st.right, cleft, cright].count true ≠ 1 →
        (colCell fatUL fatDR ut cleft cright st).pVerts = st.pVerts) := by
  refine ⟨⟨_, _, rowPass_eq t (t.Tile_map_blocking hwf) _ _ _,
    colPass_eq t (t.Tile_map_blocking hwf) _ _ _ _, ?_, ?_⟩,
    rowCell_pVerts_of_count, colCell_pVerts_of_count⟩
  · intro p
    rw [rowPass_tags]
    simp only [List.not_mem_nil, false_or, cornerTag_zero]
  · intro p
    rw [colPass_tags]
    simp only [List.not_mem_nil, false_or, cornerTag_zero]

theorem convex_tags_both_passes_witness :
    (gridOf 3 3 16 [0, 0, 0, 0, 1, 0, 0, 0, 0]).WellFormed ∧
    ((∃ ar ac, rowPass (gridOf 3 3 16 [0, 0, 0, 0, 1, 0, 0, 0, 0]) ⟨0, 0⟩ ⟨0, 0⟩
        ⟨NewGraph, []⟩ = some ar ∧
      colPass (gridOf 3 3 16 [0, 0, 0, 0, 1, 0, 0, 0, 0])
        (gridOf 3 3 16 [0, 0, 0, 0, 1, 0, 0, 0, 0]).tileSize ⟨0, 0⟩ ⟨0, 0⟩
        ⟨NewGraph, []⟩ = some ac ∧
      (∀ p, p ∈ ar.pVerts ↔ ∃ i j : Int,
        0 ≤ i ∧ i ≤ (gridOf 3 3 16 [0, 0, 0, 0, 1, 0, 0, 0, 0]).size.X ∧
        0 ≤ j ∧ j ≤ (gridOf 3 3 16 [0, 0, 0, 0, 1, 0, 0, 0, 0]).size.Y ∧
        convexCornerTag (gridOf 3 3 16 [0, 0, 0, 0, 1, 0, 0, 0, 0])
          (gridOf 3 3 16 [0, 0, 0, 0, 1, 0, 0, 0, 0]).tileSize i j = some p) ∧
      (∀ p, p ∈ ac.pVerts ↔ ∃ i j : Int,
        0 ≤ i ∧ i ≤ (gridOf 3 3 16 [0, 0, 0, 0, 1, 0, 0, 0, 0]).size.X ∧
        0 ≤ j ∧ j ≤ (gridOf 3 3 16 [0, 0, 0, 0, 1, 0, 0, 0, 0]).size.Y ∧
        convexCornerTag (gridOf 3 3 16 [0, 0, 0, 0, 1, 0, 0, 0, 0])
          (gridOf 3 3 16 [0, 0, 0, 0, 1, 0, 0, 0, 0]).tileSize i j = some p)) ∧
    (∀ (fatUL fatDR ut : I2) (cup cdown : Bool) (st : RowScan),
      [st.up, cup, st.down, cdown].count true ≠ 1 →
        (rowCell fatUL fatDR ut cup cdown st).pVerts = st.pVerts) ∧
    (∀ (fatUL fatDR ut : I2) (cleft cright : Bool) (st : ColScan),
      [st.left, st.right, cleft, cright].count true ≠ 1 →
        (colCell fatUL fatDR ut cleft cright st).pVerts = st.pVerts)) :=
  ⟨by decide, convex_tags_both_passes _ (by decide)⟩

theorem Terrain.Tile_map_blocking_of_in (t : Terrain)
    (h : ∀ x y, 0 ≤ x → x < t.size.X → 0 ≤ y → y < t.size.Y →
      ∃ b, (t.Tile x y).map TileInfo.Block = some b) (x y : Int) :
    (t.Tile x y).map TileInfo.Block = some (t.blocking x y) := by
  by_cases hout : x < 0 ∨ x ≥ t.size.X ∨ y < 0 ∨ y ≥ t.size.Y
  · rw [t.blocking_out x y hout, t.Tile_out x y hout]
    rfl
  · obtain ⟨b, hb⟩ := h x y (by omega) (by omega) (by omega) (by omega)
    rw [t.Tile_blocking_of_map x y b hb, hb]

/-! ## The all-open grid -/

theorem rowCell_noop (fatUL fatDR ut : I2) (cup cdown : Bool) (st : RowScan)
    (h : (st.up = true ∧ st.down = true) ∨ (st.up = cup ∧ st.down = cdown)) :
    (rowCell fatUL fatDR ut cup cdown st).o = st.o ∧
      (rowCell fatUL fatDR ut cup cdown st).pVerts = st.pVerts := by
  rcases st with ⟨o, pv, up, down, u⟩
  cases up <;> cases down <;> cases cup <;> cases cdown <;> simp [rowCell] at h ⊢

theorem colCell_noop (fatUL fatDR ut : I2) (cleft cright : Bool) (st : ColScan)
    (h : (st.left = true ∧ st.right = true) ∨ (st.left = cleft ∧ st.right = cright)) :
    (colCell fatUL fatDR ut cleft cright st).o = st.o ∧
      (colCell fatUL fatDR ut cleft cright st).pVerts = st.pVerts := by
  rcases st with ⟨o, pv, left, right, u⟩
  cases left <;> cases right <;> cases cleft <;> cases cright <;> simp [colCell] at h ⊢

theorem rowLineP_noop (blk : Int → Int → Bool) (s : Int) (fatUL fatDR : I2) (j : Int)
    (st0 : RowScan) (h0 : st0.up = true ∧ st0.down = true) (n : Nat)
    (hconst : ∀ i : Nat, i + 1 < n → ∀ y, blk (i : Int) y = blk ((i + 1 : Nat) : Int) y) :
    (rowLineP blk s fatUL fatDR j st0 n).o = st0.o ∧
      (rowLineP blk s fatUL fatDR j st0 n).pVerts = st0.pVerts := by
  induction n with
  | zero => exact ⟨rfl, rfl⟩
  | succ n ih =>
    have ih1 := ih (fun i hi => hconst i (Nat.lt_succ_of_lt hi))
    have hflags : ((rowLineP blk s fatUL fatDR j st0 n).up = true ∧
        (rowLineP blk s fatUL fatDR j st0 n).down = true) ∨
        ((rowLineP blk s fatUL fatDR j st0 n).up = blk n (j - 1) ∧
        (rowLineP blk s fatUL fatDR j st0 n).down = blk n j) := by
      cases n with
      | zero => exact Or.inl h0
      | succ k =>
        right
        have hk := hconst k (Nat.lt_succ_self _)
        exact ⟨(rowCell_flags _ _ _ _ _ _).1.trans (hk _),
          (rowCell_flags _ _ _ _ _ _).2.trans (hk _)⟩
    have hcell := rowCell_noop fatUL fatDR ((I2.mk (n : Int) j).Mul s) (blk n (j - 1))
      (blk n j) (rowLineP blk s fatUL fatDR j st0 n) hflags
    exact ⟨hcell.1.trans ih1.1, hcell.2.trans ih1.2⟩

theorem rowPassP_noop (blk : Int → Int → Bool) (s : Int) (fatUL fatDR : I2) (w : Nat)
    (a : Acc)
    (hconst : ∀ i : Nat, i + 1 < w → ∀ y, blk (i : Int) y = blk ((i + 1 : Nat) : Int) y)
    (m : Nat) : rowPassP blk s fatUL fatDR w a m = a := by
  induction m with
  | zero => rfl
  | succ m ih =>
    have h := rowLineP_noop blk s fatUL fatDR (m : Int)
      (rowStart (rowPassP blk s fatUL fatDR w a m)) ⟨rfl, rfl⟩ w hconst
    show (⟨_, _⟩ : Acc) = a
    rw [h.1, h.2, ih]
    rfl

theorem colLineP_noop (blk : Int → Int → Bool) (s : Int) (fatUL fatDR : I2) (i : Int)
    (st0 : ColScan) (h0 : st0.left = true ∧ st0.right = true) (n : Nat)
    (hconst : ∀ j : Nat, j + 1 < n → ∀ x, blk x (j : Int) = blk x ((j + 1 : Nat) : Int)) :
    (colLineP blk s fatUL fatDR i st0 n).o = st0.o ∧
      (colLineP blk s fatUL fatDR i st0 n).pVerts = st0.pVerts := by
  induction n with
  | zero => exact ⟨rfl, rfl⟩
  | succ n ih =>
    have ih1 := ih (fun j hj => hconst j (Nat.lt_succ_of_lt hj))
    have hflags : ((colLineP blk s fatUL fatDR i st0 n).left = true ∧
        (colLineP blk s fatUL fatDR i st0 n).right = true) ∨
        ((colLineP blk s fatUL fatDR i st0 n).left = blk (i - 1) n ∧
        (colLineP blk s fatUL fatDR i st0 n).right = blk i n) := by
      cases n with
      | zero => exact Or.inl h0
      | succ k =>
        right
        have hk := hconst k (Nat.lt_succ_self _)
        exact ⟨(colCell_flags _ _ _ _ _ _).1.trans (hk _),
          (colCell_flags _ _ _ _ _ _).2.trans (hk _)⟩
    have hcell := colCell_noop fatUL fatDR ((I2.mk i (n : Int)).Mul s) (blk (i - 1) n)
      (blk i n) (colLineP blk s fatUL fatDR i st0 n) hflags
    exact ⟨hcell.1.trans ih1.1, hcell.2.trans ih1.2⟩

theorem colPassP_noop (blk : Int → Int → Bool) (s : Int) (fatUL fatDR : I2) (h : Nat)
    (a : Acc)
    (hconst : ∀ j : Nat, j + 1 < h → ∀ x, blk x (j : Int) = blk x ((j + 1 : Nat) : Int))
    (m : Nat) : colPassP blk s fatUL fatDR h a m = a := by
  induction m with
  | zero => rfl
  | succ m ih =>
    have hl := colLineP_noop blk s fatUL fatDR (m : Int)
      (colStart (colPassP blk s fatUL fatDR h a m)) ⟨rfl, rfl⟩ h hconst
    show (⟨_, _⟩ : Acc) = a
    rw [hl.1, hl.2, ih]
    rfl

/-- C4 (Scenario B for every grid size): when no tile of the grid is blocking and
there are no doodads, `ObstaclesAndPaths` succeeds and yields zero obstacle
edges, zero registered points and an empty path graph, for every width, height,
tile size, footprint offset, viewport and oracle. -/
theorem allOpen_empty (t : Terrain)
    (hopen : ∀ x y, 0 ≤ x → x < t.size.X → 0 ≤ y → y < t.size.Y →
      (t.Tile x y).map TileInfo.Block = some false)
    (hd : t.doodads = []) (tileSize : Int) (camSize : I2)
    (FullyBlocks : Graph → I2 → I2 → Bool) (fatUL fatDR : I2) :
    ∃ o pVerts p, obstaclesAndVerts t tileSize fatUL fatDR = some ⟨o, pVerts⟩ ∧
      ObstaclesAndPaths t tileSize camSize FullyBlocks fatUL fatDR = some (o, p) ∧
      o.NumEdges = 0 ∧ pVerts = [] ∧ p.NumEdges = 0 := by
  have hT := t.Tile_map_blocking_of_in (fun x y h1 h2 h3 h4 => ⟨false, hopen x y h1 h2 h3 h4⟩)
  have hin : ∀ x y, 0 ≤ x → x < t.size.X → 0 ≤ y → y < t.size.Y → t.blocking x y = false :=
    fun x y h1 h2 h3 h4 => t.Tile_blocking_of_map x y false (hopen x y h1 h2 h3 h4)
  have hrow : ∀ i : Nat, i + 1 < t.size.X.toNat → ∀ y,
      t.blocking (i : Int) y = t.blocking ((i + 1 : Nat) : Int) y := by
    intro i hi y
    by_cases hy : 0 ≤ y ∧ y < t.size.Y
    · rw [hin i y (by omega) (by omega) hy.1 hy.2, hin _ y (by omega) (by omega) hy.1 hy.2]
    · rw [t.blocking_out i y (by omega), t.blocking_out _ y (by omega)]
  have hcol : ∀ j : Nat, j + 1 < t.size.Y.toNat → ∀ x,
      t.blocking x (j : Int) = t.blocking x ((j + 1 : Nat) : Int) := by
    intro j hj x
    by_cases hx : 0 ≤ x ∧ x < t.size.X
    · rw [hin x j hx.1 hx.2 (by omega) (by omega), hin x _ hx.1 hx.2 (by omega) (by omega)]
    · rw [t.blocking_out x j (by omega), t.blocking_out x _ (by omega)]
  have hov : obstaclesAndVerts t tileSize fatUL fatDR = some ⟨NewGraph, []⟩ := by
    rw [obstaclesAndVerts_eq t hT, rowPassP_noop _ _ _ _ _ _ hrow,
      colPassP_noop _ _ _ _ _ _ hcol, hd]
    rfl
  refine ⟨NewGraph, [], NewGraph, hov, ?_, rfl, rfl, rfl⟩
  unfold ObstaclesAndPaths
  rw [hov]
  rfl

theorem allOpen_empty_witness :
    (∀ x y, 0 ≤ x → x < (gridOf 2 3 16 [0, 0, 0, 0, 0, 0]).size.X → 0 ≤ y →
      y < (gridOf 2 3 16 [0, 0, 0, 0, 0, 0]).size.Y →
      ((gridOf 2 3 16 [0, 0, 0, 0, 0, 0]).Tile x y).map TileInfo.Block = some false) ∧
    (gridOf 2 3 16 [0, 0, 0, 0, 0, 0]).doodads = [] ∧
    ∃ o pVerts p,
      obstaclesAndVerts (gridOf 2 3 16 [0, 0, 0, 0, 0, 0]) 16 ⟨-3, -2⟩ ⟨3, 2⟩ =
        some ⟨o, pVerts⟩ ∧
      ObstaclesAndPaths (gridOf 2 3 16 [0, 0, 0, 0, 0, 0]) 16 ⟨267, 150⟩
        (fun _ _ _ => false) ⟨-3, -2⟩ ⟨3, 2⟩ = some (o, p) ∧
      o.NumEdges = 0 ∧ pVerts = [] ∧ p.NumEdges = 0 :=
  have h : ∀ x y, 0 ≤ x → x < (gridOf 2 3 16 [0, 0, 0, 0, 0, 0]).size.X → 0 ≤ y →
      y < (gridOf 2 3 16 [0, 0, 0, 0, 0, 0]).size.Y →
      ((gridOf 2 3 16 [0, 0, 0, 0, 0, 0]).Tile x y).map TileInfo.Block = some false := by
    intro x y hx0 hx hy0 hy
    have hx2 : x < 2 := hx
    have hy3 : y < 3 := hy
    interval_cases x <;> interval_cases y <;> rfl
  ⟨h, rfl, allOpen_empty _ h rfl _ _ _ _ _⟩

/-! ## A single interior blocking tile -/

theorem single_tile_corner (t : Terrain) (a b : Int) (ha1 : 1 ≤ a) (ha2 : a + 2 ≤ t.size.X)
    (hb1 : 1 ≤ b) (hb2 : b + 2 ≤ t.size.Y)
    (hblk : ∀ x y, t.blocking x y = true ↔
      (x < 0 ∨ x ≥ t.size.X ∨ y < 0 ∨ y ≥ t.size.Y ∨ (x = a ∧ y = b)))
    (s : Int) (p : I2) :
    (∃ i j : Int, 0 ≤ i ∧ i ≤ t.size.X ∧ 0 ≤ j ∧ j ≤ t.size.Y ∧
      cornerTag t s ⟨0, 0⟩ ⟨0, 0⟩ i j = some p) ↔
    (p = ⟨a * s - 1, b * s - 1⟩ ∨ p = ⟨(a + 1) * s + 1, b * s - 1⟩ ∨
      p = ⟨a * s - 1, (b + 1) * s + 1⟩ ∨ p = ⟨(a + 1) * s + 1, (b + 1) * s + 1⟩) := by
  have hF : ∀ x y, t.blocking x y = false ↔
      ¬ (x < 0 ∨ x ≥ t.size.X ∨ y < 0 ∨ y ≥ t.size.Y ∨ (x = a ∧ y = b)) := by
    intro x y
    rw [← hblk x y]
    exact Bool.eq_false_iff
  constructor
  · rintro ⟨i, j, hi0, hiW, hj0, hjH, h⟩
    unfold cornerTag at h
    rw [tagOf_eq_some] at h
    simp only [hblk, hF] at h
    rcases h with ⟨h1, h2, h3, h4, rfl⟩ | ⟨h1, h2, h3, h4, rfl⟩ | ⟨h1, h2, h3, h4, rfl⟩ |
      ⟨h1, h2, h3, h4, rfl⟩
    · have hi : i = a + 1 := by omega
      have hj : j = b + 1 := by omega
      subst hi hj
      right; right; right
      simp [I2.Add, I2.Mul, dr]
    · have hi : i = a := by omega
      have hj : j = b + 1 := by omega
      subst hi hj
      right; right; left
      simp [I2.Add, I2.Mul, dl, Int.sub_eq_add_neg]
    · have hi : i = a + 1 := by omega
      have hj : j = b := by omega
      subst hi hj
      right; left
      simp [I2.Add, I2.Mul, ur, Int.sub_eq_add_neg]
    · have hi : i = a := by omega
      have hj : j = b := by omega
      subst hi hj
      left
      simp [I2.Add, I2.Mul, ul, Int.sub_eq_add_neg]
  · rintro (rfl | rfl | rfl | rfl)
    · refine ⟨a, b, by omega, by omega, by omega, by omega, ?_⟩
      unfold cornerTag
      rw [tagOf_eq_some]
      right; right; right
      refine ⟨(hF _ _).mpr (by omega), (hF _ _).mpr (by omega), (hF _ _).mpr (by omega),
        (hblk _ _).mpr (by omega), ?_⟩
      simp [I2.Add, I2.Mul, ul, Int.sub_eq_add_neg]
    · refine ⟨a + 1, b, by omega, by omega, by omega, by omega, ?_⟩
      unfold cornerTag
      rw [tagOf_eq_some]
      right; right; left
      refine ⟨(hF _ _).mpr (by omega), (hF _ _).mpr (by omega), (hblk _ _).mpr (by omega),
        (hF _ _).mpr (by omega), ?_⟩
      simp [I2.Add, I2.Mul, ur, Int.sub_eq_add_neg]
    · refine ⟨a, b + 1, by omega, by omega, by omega, by omega, ?_⟩
      unfold cornerTag
      rw [tagOf_eq_some]
      right; left
      refine ⟨(hF _ _).mpr (by omega), (hblk _ _).mpr (by omega), (hF _ _).mpr (by omega),
        (hF _ _).mpr (by omega), ?_⟩
      simp [I2.Add, I2.Mul, dl, Int.sub_eq_add_neg]
    · refine ⟨a + 1, b + 1, by omega, by omega, by omega, by omega, ?_⟩
      unfold cornerTag
      rw [tagOf_eq_some]
      left
      refine ⟨(hblk _ _).mpr (by omega), (hF _ _).mpr (by omega), (hF _ _).mpr (by omega),
        (hF _ _).mpr (by omega), ?_⟩
      simp [I2.Add, I2.Mul, dr]

theorem length_eq_four_of_mem_iff (l : List I2) (hl : l.Nodup) (A B C D : I2)
    (hd : [A, B, C, D].Nodup) (h : ∀ p, p ∈ l ↔ p = A ∨ p = B ∨ p = C ∨ p = D) :
    l.length = 4 := by
  have hperm : l.Perm [A, B, C, D] := by
    rw [List.perm_ext_iff_of_nodup hl hd]
    intro p
    rw [h p]
    simp
  exact hperm.length_eq

/-- C5 (Scenario A, generalised): on a grid whose only blocking tile is the
interior tile `(a, b)`, `1 ≤ a ≤ W - 2`, `1 ≤ b ≤ H - 2`, with tile size `s > 0`
in both passes, footprint offsets `(0, 0)` and no doodads, the vertex set built by
`ObstaclesAndPaths` has exactly 4 elements: `(a*s-1, b*s-1)`, `((a+1)*s+1, b*s-1)`,
`(a*s-1, (b+1)*s+1)` and `((a+1)*s+1, (b+1)*s+1)`. -/
theorem single_tile_four_tags (t : Terrain) (a b : Int)
    (ha1 : 1 ≤ a) (ha2 : a ≤ t.size.X - 2) (hb1 : 1 ≤ b) (hb2 : b ≤ t.size.Y - 2)
    (hs : 0 < t.tileSize)
    (htiles : ∀ x y, 0 ≤ x → x < t.size.X → 0 ≤ y → y < t.size.Y →
      (t.Tile x y).map TileInfo.Block = some (decide (x = a ∧ y = b)))
    (hd : t.doodads = []) :
    ∃ acc, obstaclesAndVerts t t.tileSize ⟨0, 0⟩ ⟨0, 0⟩ = some acc ∧
      acc.pVerts.length = 4 ∧
      ∀ p, p ∈ acc.pVerts ↔
        p = ⟨a * t.tileSize - 1, b * t.tileSize - 1⟩ ∨
        p = ⟨(a + 1) * t.tileSize + 1, b * t.tileSize - 1⟩ ∨
        p = ⟨a * t.tileSize - 1, (b + 1) * t.tileSize + 1⟩ ∨
        p = ⟨(a + 1) * t.tileSize + 1, (b + 1) * t.tileSize + 1⟩ := by
  have hT := t.Tile_map_blocking_of_in (fun x y h1 h2 h3 h4 => ⟨_, htiles x y h1 h2 h3 h4⟩)
  have hblk : ∀ x y, t.blocking x y = true ↔
      (x < 0 ∨ x ≥ t.size.X ∨ y < 0 ∨ y ≥ t.size.Y ∨ (x = a ∧ y = b)) := by
    intro x y
    by_cases hout : x < 0 ∨ x ≥ t.size.X ∨ y < 0 ∨ y ≥ t.size.Y
    · rw [t.blocking_out x y hout]
      simp only [true_iff]
      omega
    · rw [t.Tile_blocking_of_map x y _
        (htiles x y (by omega) (by omega) (by omega) (by omega)), decide_eq_true_iff]
      constructor
      · intro h
        exact Or.inr (Or.inr (Or.inr (Or.inr h)))
      · intro h
        omega
  have hmem : ∀ p, p ∈ (doodadPass t.doodads ⟨0, 0⟩ ⟨0, 0⟩
        (colPassP t.blocking t.tileSize ⟨0, 0⟩ ⟨0, 0⟩ t.size.Y.toNat
          (rowPassP t.blocking t.tileSize ⟨0, 0⟩ ⟨0, 0⟩ t.size.X.toNat ⟨NewGraph, []⟩
            (t.size.Y + 1).toNat)
          (t.size.X + 1).toNat)).pVerts ↔
        p = ⟨a * t.tileSize - 1, b * t.tileSize - 1⟩ ∨
        p = ⟨(a + 1) * t.tileSize + 1, b * t.tileSize - 1⟩ ∨
        p = ⟨a * t.tileSize - 1, (b + 1) * t.tileSize + 1⟩ ∨
        p = ⟨(a + 1) * t.tileSize + 1, (b + 1) * t.tileSize + 1⟩ := by
    intro p
    rw [hd]
    show p ∈ (colPassP t.blocking t.tileSize ⟨0, 0⟩ ⟨0, 0⟩ t.size.Y.toNat _ _).pVerts ↔ _
    rw [colPass_tags, rowPass_tags,
      single_tile_corner t a b ha1 (by omega) hb1 (by omega) hblk t.tileSize p]
    simp only [List.not_mem_nil, false_or, or_self]
  refine ⟨_, obstaclesAndVerts_eq t hT _ _ _, ?_, hmem⟩
  refine length_eq_four_of_mem_iff _ ?_ _ _ _ _ ?_ hmem
  · exact doodadPass_nodup _ _ _ _ (colPassP_nodup _ _ _ _ _ _
      (rowPassP_nodup _ _ _ _ _ _ List.nodup_nil _) _)
  · have h1 : a * t.tileSize < (a + 1) * t.tileSize := by nlinarith
    have h2 : b * t.tileSize < (b + 1) * t.tileSize := by nlinarith
    simp only [List.nodup_cons, List.mem_cons, List.mem_singleton, I2.mk.injEq,
      List.not_mem_nil, not_false_eq_true, List.nodup_nil, and_true, not_or]
    refine ⟨⟨?_, ?_, ?_⟩, ⟨?_, ?_⟩, ?_⟩ <;> omega

theorem single_tile_four_tags_witness :
    (1 : Int) ≤ 1 ∧ (1 : Int) ≤ (gridOf 3 3 16 [0, 0, 0, 0, 1, 0, 0, 0, 0]).size.X - 2 ∧
    (1 : Int) ≤ 1 ∧ (1 : Int) ≤ (gridOf 3 3 16 [0, 0, 0, 0, 1, 0, 0, 0, 0]).size.Y - 2 ∧
    0 < (gridOf 3 3 16 [0, 0, 0, 0, 1, 0, 0, 0, 0]).tileSize ∧
    (∀ x y, 0 ≤ x → x < (gridOf 3 3 16 [0, 0, 0, 0, 1, 0, 0, 0, 0]).size.X → 0 ≤ y →
      y < (gridOf 3 3 16 [0, 0, 0, 0, 1, 0, 0, 0, 0]).size.Y →
      ((gridOf 3 3 16 [0, 0, 0, 0, 1, 0, 0, 0, 0]).Tile x y).map TileInfo.Block =
        some (decide (x = 1 ∧ y = 1))) ∧
    (gridOf 3 3 16 [0, 0, 0, 0, 1, 0, 0, 0, 0]).doodads = [] ∧
    ∃ acc, obstaclesAndVerts (gridOf 3 3 16 [0, 0, 0, 0, 1, 0, 0, 0, 0])
        (gridOf 3 3 16 [0, 0, 0, 0, 1, 0, 0, 0, 0]).tileSize ⟨0, 0⟩ ⟨0, 0⟩ = some acc ∧
      acc.pVerts.length = 4 ∧
      ∀ p, p ∈ acc.pVerts ↔
        p = ⟨1 * (gridOf 3 3 16 [0, 0, 0, 0, 1, 0, 0, 0, 0]).tileSize - 1,
          1 * (gridOf 3 3 16 [0, 0, 0, 0, 1, 0, 0, 0, 0]).tileSize - 1⟩ ∨
        p = ⟨(1 + 1) * (gridOf 3 3 16 [0, 0, 0, 0, 1, 0, 0, 0, 0]).tileSize + 1,
          1 * (gridOf 3 3 16 [0, 0, 0, 0, 1, 0, 0, 0, 0]).tileSize - 1⟩ ∨
        p = ⟨1 * (gridOf 3 3 16 [0, 0, 0, 0, 1, 0, 0, 0, 0]).tileSize - 1,
          (1 + 1) * (gridOf 3 3 16 [0, 0, 0, 0, 1, 0, 0, 0, 0]).tileSize + 1⟩ ∨
        p = ⟨(1 + 1) * (gridOf 3 3 16 [0, 0, 0, 0, 1, 0, 0, 0, 0]).tileSize + 1,
          (1 + 1) * (gridOf 3 3 16 [0, 0, 0, 0, 1, 0, 0, 0, 0]).tileSize + 1⟩ :=
  have h : ∀ x y, 0 ≤ x → x < (gridOf 3 3 16 [0, 0, 0, 0, 1, 0, 0, 0, 0]).size.X → 0 ≤ y →
      y < (gridOf 3 3 16 [0, 0, 0, 0, 1, 0, 0, 0, 0]).size.Y →
      ((gridOf 3 3 16 [0, 0, 0, 0, 1, 0, 0, 0, 0]).Tile x y).map TileInfo.Block =
        some (decide (x = 1 ∧ y = 1)) := by
    intro x y hx0 hx hy0 hy
    have hx3 : x < 3 := hx
    have hy3 : y < 3 := hy
    interval_cases x <;> interval_cases y <;> rfl
  ⟨by decide, by decide, by decide, by decide, by decide, h, rfl,
    single_tile_four_tags _ 1 1 (by decide) (by decide) (by decide) (by decide) (by decide)
      h rfl⟩

/-! ## Registered points lie outside the fattened obstacle -/

theorem cornerTag_tile (t : Terrain) (s : Int) (fatUL fatDR : I2) (i j : Int) (p : I2)
    (h : cornerTag t s fatUL fatDR i j = some p) :
    ∃ x y, 0 ≤ x ∧ x < t.size.X ∧ 0 ≤ y ∧ y < t.size.Y ∧ t.blocking x y = true ∧
      p ∈ tileCornerTags s fatUL fatDR x y := by
  unfold cornerTag at h
  rw [tagOf_eq_some] at h
  rcases h with ⟨h1, h2, h3, h4, rfl⟩ | ⟨h1, h2, h3, h4, rfl⟩ | ⟨h1, h2, h3, h4, rfl⟩ |
    ⟨h1, h2, h3, h4, rfl⟩
  · have := t.blocking_false_in _ _ h2
    have := t.blocking_false_in _ _ h3
    refine ⟨i - 1, j - 1, by omega, by omega, by omega, by omega, h1, ?_⟩
    simp [tileCornerTags, I2.Add, I2.Mul, dr]
  · have := t.blocking_false_in _ _ h1
    have := t.blocking_false_in _ _ h4
    refine ⟨i, j - 1, by omega, by omega, by omega, by omega, h2, ?_⟩
    simp [tileCornerTags, I2.Add, I2.Mul, dl, Int.sub_eq_add_neg]
  · have := t.blocking_false_in _ _ h1
    have := t.blocking_false_in _ _ h4
    refine ⟨i - 1, j, by omega, by omega, by omega, by omega, h3, ?_⟩
    simp [tileCornerTags, I2.Add, I2.Mul, ur, Int.sub_eq_add_neg]
  · have := t.blocking_false_in _ _ h2
    have := t.blocking_false_in _ _ h3
    refine ⟨i, j, by omega, by omega, by omega, by omega, h4, ?_⟩
    simp [tileCornerTags, I2.Add, I2.Mul, ul, Int.sub_eq_add_neg]

theorem tileCornerTags_outside (s : Int) (fatUL fatDR : I2) (x y : Int) (p : I2)
    (h : p ∈ tileCornerTags s fatUL fatDR x y) :
    ¬ inClosedRect p (tileLo s fatUL x y) (tileHi s fatDR x y) := by
  simp only [tileCornerTags, List.mem_cons, List.mem_singleton, List.not_mem_nil,
    or_false] at h
  unfold inClosedRect tileLo tileHi
  rcases h with rfl | rfl | rfl | rfl <;> simp only [] <;> omega

theorem doodadCorners_outside (fatUL fatDR : I2) (d : Doodad) (p : I2)
    (h : p ∈ doodadCorners fatUL fatDR d) :
    ¬ inClosedRect p (doodadU fatUL d) (doodadV fatDR d) := by
  simp only [doodadCorners, List.mem_cons, List.mem_singleton, List.not_mem_nil,
    or_false] at h
  unfold inClosedRect
  rcases h with rfl | rfl | rfl | rfl <;> simp only [] <;> omega

/-- C10: on a well-formed grid, for every tile size (the column pass scaling by
the terrain's tile size) and every footprint offset, each point registered by the
row or column pass is one of the four corner points of a blocking tile `(x, y)` of
the grid and lies strictly outside the closed fattened rectangle
`[(x*s, y*s) + fatUL, ((x+1)*s, (y+1)*s) + fatDR]` of that tile; and each point the
doodad loop registers for a doodad lies strictly outside that doodad's fattened
rectangle `[U, V]`. -/
theorem tags_outside_fattened (t : Terrain) (hwf : t.WellFormed) (fatUL fatDR : I2) :
    (∃ a1 a2, rowPass t fatUL fatDR ⟨NewGraph, []⟩ = some a1 ∧
      colPass t t.tileSize fatUL fatDR a1 = some a2 ∧
      ∀ p ∈ a2.pVerts, ∃ x y, 0 ≤ x ∧ x < t.size.X ∧ 0 ≤ y ∧ y < t.size.Y ∧
        t.blocking x y = true ∧ p ∈ tileCornerTags t.tileSize fatUL fatDR x y ∧
        ¬ inClosedRect p (tileLo t.tileSize fatUL x y) (tileHi t.tileSize fatDR x y)) ∧
    (∀ (a : Acc) (d : Doodad) (p : I2), p ∈ (doodadStep fatUL fatDR a d).pVerts →
      p ∈ a.pVerts ∨ ¬ inClosedRect p (doodadU fatUL d) (doodadV fatDR d)) := by
  constructor
  · refine ⟨_, _, rowPass_eq t (t.Tile_map_blocking hwf) _ _ _,
      colPass_eq t (t.Tile_map_blocking hwf) _ _ _ _, ?_⟩
    intro p hp
    rw [colPass_tags, rowPass_tags] at hp
    have hc : ∃ i j : Int, cornerTag t t.tileSize fatUL fatDR i j = some p := by
      rcases hp with (h | ⟨i, j, _, _, _, _, h⟩) | ⟨i, j, _, _, _, _, h⟩
      · exact absurd h (List.not_mem_nil p)
      · exact ⟨i, j, h⟩
      · exact ⟨i, j, h⟩
    obtain ⟨i, j, h⟩ := hc
    obtain ⟨x, y, hx0, hx, hy0, hy, hb, hmem⟩ := cornerTag_tile t _ _ _ i j p h
    exact ⟨x, y, hx0, hx, hy0, hy, hb, hmem, tileCornerTags_outside _ _ _ _ _ _ hmem⟩
  · intro a d p hp
    rw [doodadStep_mem_pVerts] at hp
    rcases hp with h | h
    · exact Or.inl h
    · exact Or.inr (doodadCorners_outside _ _ _ _ h)

theorem tags_outside_fattened_witness :
    (gridOf 3 3 16 [0, 0, 0, 0, 1, 0, 0, 0, 0]).WellFormed ∧
    ((∃ a1 a2, rowPass (gridOf 3 3 16 [0, 0, 0, 0, 1, 0, 0, 0, 0]) ⟨-3, -2⟩ ⟨3, 2⟩
        ⟨NewGraph, []⟩ = some a1 ∧
      colPass (gridOf 3 3 16 [0, 0, 0, 0, 1, 0, 0, 0, 0])
        (gridOf 3 3 16 [0, 0, 0, 0, 1, 0, 0, 0, 0]).tileSize ⟨-3, -2⟩ ⟨3, 2⟩ a1 = some a2 ∧
      ∀ p ∈ a2.pVerts, ∃ x y, 0 ≤ x ∧
        x < (gridOf 3 3 16 [0, 0, 0, 0, 1, 0, 0, 0, 0]).size.X ∧ 0 ≤ y ∧
        y < (gridOf 3 3 16 [0, 0, 0, 0, 1, 0, 0, 0, 0]).size.Y ∧
        (gridOf 3 3 16 [0, 0, 0, 0, 1, 0, 0, 0, 0]).blocking x y = true ∧
        p ∈ tileCornerTags (gridOf 3 3 16 [0, 0, 0, 0, 1, 0, 0, 0, 0]).tileSize
          ⟨-3, -2⟩ ⟨3, 2⟩ x y ∧
        ¬ inClosedRect p
          (tileLo (gridOf 3 3 16 [0, 0, 0, 0, 1, 0, 0, 0, 0]).tileSize ⟨-3, -2⟩ x y)
          (tileHi (gridOf 3 3 16 [0, 0, 0, 0, 1, 0, 0, 0, 0]).tileSize ⟨3, 2⟩ x y)) ∧
    (∀ (a : Acc) (d : Doodad) (p : I2), p ∈ (doodadStep ⟨-3, -2⟩ ⟨3, 2⟩ a d).pVerts →
      p ∈ a.pVerts ∨ ¬ inClosedRect p (doodadU ⟨-3, -2⟩ d) (doodadV ⟨3, 2⟩ d))) :=
  ⟨by decide, tags_outside_fattened _ (by decide) _ _⟩

/-! ## Degenerate edges -/

theorem mem_rowEdges (fatUL fatDR ut u : I2) (up down cup cdown : Bool) (e : I2 × I2)
    (h : e ∈ rowEdges fatUL fatDR ut u up down cup cdown) :
    up ≠ down ∧
      ((e.1 = u ∧ (e.2.X = ut.X + fatUL.X ∨ e.2.X = ut.X + fatDR.X)) ∨
        (e.2 = u ∧ (e.1.X = ut.X + fatUL.X ∨ e.1.X = ut.X + fatDR.X))) := by
  cases up <;> cases down <;> cases cup <;> cases cdown <;>
    simp [rowEdges, I2.Add] at h ⊢ <;> subst h <;> simp

theorem rowOrigin_cases (fatUL fatDR ut u : I2) (up down cup cdown : Bool)
    (h : cup ≠ cdown) :
    (rowOrigin fatUL fatDR ut u up down cup cdown = u ∧ up = cup ∧ down = cdown) ∨
      (rowOrigin fatUL fatDR ut u up down cup cdown).X = ut.X + fatUL.X ∨
      (rowOrigin fatUL fatDR ut u up down cup cdown).X = ut.X + fatDR.X := by
  cases up <;> cases down <;> cases cup <;> cases cdown <;>
    simp [rowOrigin, I2.Add] at h ⊢

theorem rowLineP_u_form (blk : Int → Int → Bool) (s : Int) (fatUL fatDR : I2) (j : Int)
    (st0 : RowScan) (h0 : st0.up = true ∧ st0.down = true) (n : Nat)
    (hrun : (rowLineP blk s fatUL fatDR j st0 n).up ≠ (rowLineP blk s fatUL fatDR j st0 n).down) :
    ∃ i0 : Nat, i0 < n ∧
      ((rowLineP blk s fatUL fatDR j st0 n).u.X = (i0 : Int) * s + fatUL.X ∨
        (rowLineP blk s fatUL fatDR j st0 n).u.X = (i0 : Int) * s + fatDR.X) := by
  induction n with
  | zero =>
    exfalso
    apply hrun
    show st0.up = st0.down
    rw [h0.1, h0.2]
  | succ n ih =>
    have hf := rowCell_flags fatUL fatDR ((I2.mk (n : Int) j).Mul s) (blk n (j - 1)) (blk n j)
      (rowLineP blk s fatUL fatDR j st0 n)
    have hu := rowCell_u fatUL fatDR ((I2.mk (n : Int) j).Mul s) (blk n (j - 1)) (blk n j)
      (rowLineP blk s fatUL fatDR j st0 n)
    have hne : blk n (j - 1) ≠ blk n j := by
      intro hc
      apply hrun
      show (rowCell _ _ _ _ _ _).up = (rowCell _ _ _ _ _ _).down
      rw [hf.1, hf.2, hc]
    show ∃ i0 : Nat, i0 < n + 1 ∧ ((rowCell _ _ _ _ _ _).u.X = _ ∨ (rowCell _ _ _ _ _ _).u.X = _)
    rw [hu]
    rcases rowOrigin_cases fatUL fatDR ((I2.mk (n : Int) j).Mul s)
      (rowLineP blk s fatUL fatDR j st0 n).u (rowLineP blk s fatUL fatDR j st0 n).up
      (rowLineP blk s fatUL fatDR j st0 n).down (blk n (j - 1)) (blk n j) hne with
      ⟨he, h1, h2⟩ | h | h
    · obtain ⟨i0, hi0, hform⟩ := ih (by rw [h1, h2]; exact hne)
      exact ⟨i0, Nat.lt_succ_of_lt hi0, by rw [he]; exact hform⟩
    · exact ⟨n, Nat.lt_succ_self n, Or.inl h⟩
    · exact ⟨n, Nat.lt_succ_self n, Or.inr h⟩

theorem rowLineP_nondegenerate (blk : Int → Int → Bool) (s : Int) (fatUL fatDR : I2)
    (hs : 0 < s) (hle : fatUL.X ≤ fatDR.X)
    (hx : ∀ k : Int, 0 < k → fatDR.X - fatUL.X ≠ k * s) (j : Int)
    (st0 : RowScan) (h0 : st0.up = true ∧ st0.down = true) (n : Nat) (e : I2 × I2)
    (he : e ∈ (rowLineP blk s fatUL fatDR j st0 n).o.E) : e ∈ st0.o.E ∨ e.1 ≠ e.2 := by
  rw [rowLineP_mem_E] at he
  rcases he with h | ⟨i, _, h⟩
  · exact Or.inl h
  · right
    obtain ⟨hrun, hform⟩ := mem_rowEdges _ _ _ _ _ _ _ _ _ h
    obtain ⟨i0, hi0, hu⟩ := rowLineP_u_form blk s fatUL fatDR j st0 h0 i hrun
    have hk : (0 : Int) < (i : Int) - i0 := by omega
    have hpos : 0 < ((i : Int) - i0) * s := mul_pos hk hs
    have hxk := hx _ hk
    have hmul : ((i : Int) - i0) * s = (i : Int) * s - (i0 : Int) * s := by ring
    have hut : ((I2.mk (i : Int) j).Mul s).X = (i : Int) * s := rfl
    intro heq
    rcases hform with ⟨h1, h2⟩ | ⟨h1, h2⟩
    · have hX : e.2.X = (rowLineP blk s fatUL fatDR j st0 i).u.X := by rw [← heq, h1]
      rw [hut] at h2
      rcases h2 with h2 | h2 <;> rcases hu with hu | hu <;> omega
    · have hX : e.1.X = (rowLineP blk s fatUL fatDR j st0 i).u.X := by rw [heq, h1]
      rw [hut] at h2
      rcases h2 with h2 | h2 <;> rcases hu with hu | hu <;> omega

theorem rowPassP_nondegenerate (blk : Int → Int → Bool) (s : Int) (fatUL fatDR : I2)
    (hs : 0 < s) (hle : fatUL.X ≤ fatDR.X)
    (hx : ∀ k : Int, 0 < k → fatDR.X - fatUL.X ≠ k * s) (w : Nat) (a : Acc) (m : Nat)
    (e : I2 × I2) (he : e ∈ (rowPassP blk s fatUL fatDR w a m).o.E) :
    e ∈ a.o.E ∨ e.1 ≠ e.2 := by
  induction m with
  | zero => exact Or.inl he
  | succ m ih =>
    rcases rowLineP_nondegenerate blk s fatUL fatDR hs hle hx (m : Int)
      (rowStart (rowPassP blk s fatUL fatDR w a m)) ⟨rfl, rfl⟩ w e he with h | h
    · exact ih h
    · exact Or.inr h

theorem mem_colEdges (fatUL fatDR ut u : I2) (left right cleft cright : Bool) (e : I2 × I2)
    (h : e ∈ colEdges fatUL fatDR ut u left right cleft cright) :
    left ≠ right ∧
      ((e.1 = u ∧ (e.2.Y = ut.Y + fatUL.Y ∨ e.2.Y = ut.Y + fatDR.Y)) ∨
        (e.2 = u ∧ (e.1.Y = ut.Y + fatUL.Y ∨ e.1.Y = ut.Y + fatDR.Y))) := by
  cases left <;> cases right <;> cases cleft <;> cases cright <;>
    simp [colEdges, I2.Add] at h ⊢ <;> subst h <;> simp

theorem colOrigin_cases (fatUL fatDR ut u : I2) (left right cleft cright : Bool)
    (h : cleft ≠ cright) :
    (colOrigin fatUL fatDR ut u left right cleft cright = u ∧ left = cleft ∧
        right = cright) ∨
      (colOrigin fatUL fatDR ut u left right cleft cright).Y = ut.Y + fatUL.Y ∨
      (colOrigin fatUL fatDR ut u left right cleft cright).Y = ut.Y + fatDR.Y := by
  cases left <;> cases right <;> cases cleft <;> cases cright <;>
    simp [colOrigin, I2.Add] at h ⊢

theorem colLineP_u_form (blk : Int → Int → Bool) (s : Int) (fatUL fatDR : I2) (i : Int)
    (st0 : ColScan) (h0 : st0.left = true ∧ st0.right = true) (n : Nat)
    (hrun : (colLineP blk s fatUL fatDR i st0 n).left ≠
      (colLineP blk s fatUL fatDR i st0 n).right) :
    ∃ j0 : Nat, j0 < n ∧
      ((colLineP blk s fatUL fatDR i st0 n).u.Y = (j0 : Int) * s + fatUL.Y ∨
        (colLineP blk s fatUL fatDR i st0 n).u.Y = (j0 : Int) * s + fatDR.Y) := by
  induction n with
  | zero =>
    exfalso
    apply hrun
    show st0.left = st0.right
    rw [h0.1, h0.2]
  | succ n ih =>
    have hf := colCell_flags fatUL fatDR ((I2.mk i (n : Int)).Mul s) (blk (i - 1) n) (blk i n)
      (colLineP blk s fatUL fatDR i st0 n)
    have hu := colCell_u fatUL fatDR ((I2.mk i (n : Int)).Mul s) (blk (i - 1) n) (blk i n)
      (colLineP blk s fatUL fatDR i st0 n)
    have hne : blk (i - 1) n ≠ blk i n := by
      intro hc
      apply hrun
      show (colCell _ _ _ _ _ _).left = (colCell _ _ _ _ _ _).right
      rw [hf.1, hf.2, hc]
    show ∃ j0 : Nat, j0 < n + 1 ∧ ((colCell _ _ _ _ _ _).u.Y = _ ∨ (colCell _ _ _ _ _ _).u.Y = _)
    rw [hu]
    rcases colOrigin_cases fatUL fatDR ((I2.mk i (n : Int)).Mul s)
      (colLineP blk s fatUL fatDR i st0 n).u (colLineP blk s fatUL fatDR i st0 n).left
      (colLineP blk s fatUL fatDR i st0 n).right (blk (i - 1) n) (blk i n) hne with
      ⟨he, h1, h2⟩ | h | h
    · obtain ⟨j0, hj0, hform⟩ := ih (by rw [h1, h2]; exact hne)
      exact ⟨j0, Nat.lt_succ_of_lt hj0, by rw [he]; exact hform⟩
    · exact ⟨n, Nat.lt_succ_self n, Or.inl h⟩
    · exact ⟨n, Nat.lt_succ_self n, Or.inr h⟩

theorem colLineP_nondegenerate (blk : Int → Int → Bool) (s : Int) (fatUL fatDR : I2)
    (hs : 0 < s) (hle : fatUL.Y ≤ fatDR.Y)
    (hy : ∀ k : Int, 0 < k → fatDR.Y - fatUL.Y ≠ k * s) (i : Int)
    (st0 : ColScan) (h0 : st0.left = true ∧ st0.right = true) (n : Nat) (e : I2 × I2)
    (he : e ∈ (colLineP blk s fatUL fatDR i st0 n).o.E) : e ∈ st0.o.E ∨ e.1 ≠ e.2 := by
  rw [colLineP_mem_E] at he
  rcases he with h | ⟨j, _, h⟩
  · exact Or.inl h
  · right
    obtain ⟨hrun, hform⟩ := mem_colEdges _ _ _ _ _ _ _ _ _ h
    obtain ⟨j0, hj0, hu⟩ := colLineP_u_form blk s fatUL fatDR i st0 h0 j hrun
    have hk : (0 : Int) < (j : Int) - j0 := by omega
    have hpos : 0 < ((j : Int) - j0) * s := mul_pos hk hs
    have hyk := hy _ hk
    have hmul : ((j : Int) - j0) * s = (j : Int) * s - (j0 : Int) * s := by ring
    have hut : ((I2.mk i (j : Int)).Mul s).Y = (j : Int) * s := rfl
    intro heq
    rcases hform with ⟨h1, h2⟩ | ⟨h1, h2⟩
    · have hY : e.2.Y = (colLineP blk s fatUL fatDR i st0 j).u.Y := by rw [← heq, h1]
      rw [hut] at h2
      rcases h2 with h2 | h2 <;> rcases hu with hu | hu <;> omega
    · have hY : e.1.Y = (colLineP blk s fatUL fatDR i st0 j).u.Y := by rw [heq, h1]
      rw [hut] at h2
      rcases h2 with h2 | h2 <;> rcases hu with hu | hu <;> omega

theorem colPassP_nondegenerate (blk : Int → Int → Bool) (s : Int) (fatUL fatDR : I2)
    (hs : 0 < s) (hle : fatUL.Y ≤ fatDR.Y)
    (hy : ∀ k : Int, 0 < k → fatDR.Y - fatUL.Y ≠ k * s) (h : Nat) (a : Acc) (m : Nat)
    (e : I2 × I2) (he : e ∈ (colPassP blk s fatUL fatDR h a m).o.E) :
    e ∈ a.o.E ∨ e.1 ≠ e.2 := by
  induction m with
  | zero => exact Or.inl he
  | succ m ih =>
    rcases colLineP_nondegenerate blk s fatUL fatDR hs hle hy (m : Int)
      (colStart (colPassP blk s fatUL fatDR h a m)) ⟨rfl, rfl⟩ h e he with h1 | h1
    · exact ih h1
    · exact Or.inr h1

/-- C7, as stated, fails: on the 3 x 2 grid with rows `wall wall wall` and
`wall open wall`, tile size 16 and footprint offsets `fatUL = (-8, -8)`,
`fatDR = (8, 8)` (which satisfy `fatUL ≤ 0 ≤ fatDR`), the row pass emits the
zero-length edge from `(24, 24)` to `(24, 24)`: the fattening fills the
one-tile gap exactly. -/
theorem degenerate_edge_counterexample :
    (gridOf 3 2 16 [1, 1, 1, 1, 0, 1]).WellFormed ∧
    0 < (gridOf 3 2 16 [1, 1, 1, 1, 0, 1]).tileSize ∧
    ((⟨-8, -8⟩ : I2).X ≤ 0 ∧ (⟨-8, -8⟩ : I2).Y ≤ 0) ∧
    (0 ≤ (⟨8, 8⟩ : I2).X ∧ 0 ≤ (⟨8, 8⟩ : I2).Y) ∧
    (rowPass (gridOf 3 2 16 [1, 1, 1, 1, 0, 1]) ⟨-8, -8⟩ ⟨8, 8⟩ ⟨NewGraph, []⟩).map
      (fun a => decide ((⟨24, 24⟩, ⟨24, 24⟩) ∈ a.o.E)) = some true := by
  decide

/-- C7, amended: on a well-formed grid with tile size `s > 0` (the same in both
passes) and footprint offsets with `fatUL ≤ 0 ≤ fatDR` componentwise such that
neither `fatDR.x - fatUL.x` nor `fatDR.y - fatUL.y` is a positive multiple of `s`,
the row pass followed by the column pass succeeds and every obstacle edge
`(from, to)` they emit has `from ≠ to`. -/
theorem no_degenerate_edges (t : Terrain) (hwf : t.WellFormed) (fatUL fatDR : I2)
    (hs : 0 < t.tileSize) (hUL : fatUL.X ≤ 0 ∧ fatUL.Y ≤ 0) (hDR : 0 ≤ fatDR.X ∧ 0 ≤ fatDR.Y)
    (hx : ∀ k : Int, 0 < k → fatDR.X - fatUL.X ≠ k * t.tileSize)
    (hy : ∀ k : Int, 0 < k → fatDR.Y - fatUL.Y ≠ k * t.tileSize) :
    ∃ a1 a2, rowPass t fatUL fatDR ⟨NewGraph, []⟩ = some a1 ∧
      colPass t t.tileSize fatUL fatDR a1 = some a2 ∧
      ∀ e ∈ a2.o.E, e.1 ≠ e.2 := by
  refine ⟨_, _, rowPass_eq t (t.Tile_map_blocking hwf) _ _ _,
    colPass_eq t (t.Tile_map_blocking hwf) _ _ _ _, ?_⟩
  intro e he
  rcases colPassP_nondegenerate _ _ _ _ hs (by omega) hy _ _ _ e he with h | h
  · rcases rowPassP_nondegenerate _ _ _ _ hs (by omega) hx _ _ _ e h with h1 | h1
    · exact absurd h1 (List.not_mem_nil e)
    · exact h1
  · exact h

theorem no_degenerate_edges_witness :
    (gridOf 3 2 16 [1, 1, 1, 1, 0, 1]).WellFormed ∧
    0 < (gridOf 3 2 16 [1, 1, 1, 1, 0, 1]).tileSize ∧
    ((⟨-3, -2⟩ : I2).X ≤ 0 ∧ (⟨-3, -2⟩ : I2).Y ≤ 0) ∧
    (0 ≤ (⟨3, 2⟩ : I2).X ∧ 0 ≤ (⟨3, 2⟩ : I2).Y) ∧
    (∀ k : Int, 0 < k → (⟨3, 2⟩ : I2).X - (⟨-3, -2⟩ : I2).X ≠
      k * (gridOf 3 2 16 [1, 1, 1, 1, 0, 1]).tileSize) ∧
    (∀ k : Int, 0 < k → (⟨3, 2⟩ : I2).Y - (⟨-3, -2⟩ : I2).Y ≠
      k * (gridOf 3 2 16 [1, 1, 1, 1, 0, 1]).tileSize) ∧
    ∃ a1 a2, rowPass (gridOf 3 2 16 [1, 1, 1, 1, 0, 1]) ⟨-3, -2⟩ ⟨3, 2⟩ ⟨NewGraph, []⟩ =
        some a1 ∧
      colPass (gridOf 3 2 16 [1, 1, 1, 1, 0, 1])
        (gridOf 3 2 16 [1, 1, 1, 1, 0, 1]).tileSize ⟨-3, -2⟩ ⟨3, 2⟩ a1 = some a2 ∧
      ∀ e ∈ a2.o.E, e.1 ≠ e.2 :=
  have hx : ∀ k : Int, 0 < k → (⟨3, 2⟩ : I2).X - (⟨-3, -2⟩ : I2).X ≠
      k * (gridOf 3 2 16 [1, 1, 1, 1, 0, 1]).tileSize := by
    intro k hk
    show (3 : Int) - (-3) ≠ k * 16
    omega
  have hy : ∀ k : Int, 0 < k → (⟨3, 2⟩ : I2).Y - (⟨-3, -2⟩ : I2).Y ≠
      k * (gridOf 3 2 16 [1, 1, 1, 1, 0, 1]).tileSize := by
    intro k hk
    show (2 : Int) - (-2) ≠ k * 16
    omega
  ⟨by decide, by decide, by decide, by decide, hx, hy,
    no_degenerate_edges _ (by decide) _ _ (by decide) (by decide) (by decide) hx hy⟩

/-! ## Runs that reach the end of a scan line -/

/-- C8 at a failing input: on the 3 x 3 grid with tile size 16 whose only
blocking tile is `(2, 1)`, in the last column, the tile above it is open, so the
claim requires a row-pass edge on `y = 16` covering `[32, 48]`; the row pass
emits no edge at all, because the run opened at column 2 is never closed. On the
mirrored grid whose only blocking tile is `(0, 1)`, in the first column, the
row pass does emit the edge on `y = 16` from `(16, 16)` to `(0, 16)`. -/
theorem rowPass_drops_run_at_last_column :
    (gridOf 3 3 16 [0, 0, 0, 0, 0, 1, 0, 0, 0]).blocking 2 0 = false ∧
    (gridOf 3 3 16 [0, 0, 0, 0, 0, 1, 0, 0, 0]).blocking 2 1 = true ∧
    (rowPass (gridOf 3 3 16 [0, 0, 0, 0, 0, 1, 0, 0, 0]) ⟨0, 0⟩ ⟨0, 0⟩ ⟨NewGraph, []⟩).map
      (fun a => a.o.E) = some [] ∧
    (rowPass (gridOf 3 3 16 [0, 0, 0, 1, 0, 0, 0, 0, 0]) ⟨0, 0⟩ ⟨0, 0⟩ ⟨NewGraph, []⟩).map
      (fun a => a.o.E) =
      some [(⟨16, 16⟩, ⟨0, 16⟩), (⟨0, 32⟩, ⟨16, 32⟩)] := by
  decide

/-! ## Terrain.Tile -/

theorem Terrain.Tile_in_eq (t : Terrain) (hwf : t.WellFormed) (x y : Int)
    (hx0 : 0 ≤ x) (hx : x < t.size.X) (hy0 : 0 ≤ y) (hy : y < t.size.Y) :
    ∃ (h1 : (x + t.size.X * y).toNat < t.tiles.length)
      (h2 : t.tiles.get ⟨(x + t.size.X * y).toNat, h1⟩ < t.tileInfo.length),
      t.Tile x y = some (t.tileInfo.get ⟨t.tiles.get ⟨(x + t.size.X * y).toNat, h1⟩, h2⟩) := by
  obtain ⟨hlen, hinfo⟩ := hwf
  have hidx : (x + t.size.X * y).toNat < t.tiles.length := by
    rw [hlen]
    have h1 : x + t.size.X * y < t.size.X * t.size.Y := by nlinarith
    have h2 : 0 ≤ x + t.size.X * y := by nlinarith
    omega
  have hki : t.tiles.get ⟨(x + t.size.X * y).toNat, hidx⟩ < t.tileInfo.length :=
    hinfo _ (List.get_mem _ _ _)
  refine ⟨hidx, hki, ?_⟩
  unfold Terrain.Tile
  rw [if_neg (by omega), List.getElem?_eq_getElem hidx, Option.some_bind]
  exact List.getElem?_eq_getElem hki

/-- C11: on a well-formed terrain of size `W x H`, `Terrain.Tile x y` returns a
`TileInfo` with `Block = true` whenever `x < 0`, `x ≥ W`, `y < 0` or `y ≥ H`, and
otherwise returns `tileInfo[tiles[x + W * y]]`, both index operations being in
range. -/
theorem Tile_world_edges_are_walls (t : Terrain) (hwf : t.WellFormed) (x y : Int) :
    ((x < 0 ∨ x ≥ t.size.X ∨ y < 0 ∨ y ≥ t.size.Y) →
      ∃ ti, t.Tile x y = some ti ∧ ti.Block = true) ∧
    ((0 ≤ x ∧ x < t.size.X ∧ 0 ≤ y ∧ y < t.size.Y) →
      ∃ (h1 : (x + t.size.X * y).toNat < t.tiles.length)
        (h2 : t.tiles.get ⟨(x + t.size.X * y).toNat, h1⟩ < t.tileInfo.length),
        t.Tile x y =
          some (t.tileInfo.get ⟨t.tiles.get ⟨(x + t.size.X * y).toNat, h1⟩, h2⟩)) :=
  ⟨fun h => ⟨_, t.Tile_out x y h, rfl⟩,
    fun h => t.Tile_in_eq hwf x y h.1 h.2.1 h.2.2.1 h.2.2.2⟩

theorem Tile_world_edges_are_walls_witness :
    (gridOf 3 3 16 [0, 0, 0, 0, 1, 0, 0, 0, 0]).WellFormed ∧
    (((1 : Int) < 0 ∨ (1 : Int) ≥ (gridOf 3 3 16 [0, 0, 0, 0, 1, 0, 0, 0, 0]).size.X ∨
        (1 : Int) < 0 ∨ (1 : Int) ≥ (gridOf 3 3 16 [0, 0, 0, 0, 1, 0, 0, 0, 0]).size.Y) →
      ∃ ti, (gridOf 3 3 16 [0, 0, 0, 0, 1, 0, 0, 0, 0]).Tile 1 1 = some ti ∧
        ti.Block = true) ∧
    ((0 ≤ (1 : Int) ∧ (1 : Int) < (gridOf 3 3 16 [0, 0, 0, 0, 1, 0, 0, 0, 0]).size.X ∧
        0 ≤ (1 : Int) ∧ (1 : Int) < (gridOf 3 3 16 [0, 0, 0, 0, 1, 0, 0, 0, 0]).size.Y) →
      ∃ (h1 : ((1 : Int) + (gridOf 3 3 16 [0, 0, 0, 0, 1, 0, 0, 0, 0]).size.X * 1).toNat <
          (gridOf 3 3 16 [0, 0, 0, 0, 1, 0, 0, 0, 0]).tiles.length)
        (h2 : (gridOf 3 3 16 [0, 0, 0, 0, 1, 0, 0, 0, 0]).tiles.get
            ⟨((1 : Int) + (gridOf 3 3 16 [0, 0, 0, 0, 1, 0, 0, 0, 0]).size.X * 1).toNat, h1⟩ <
          (gridOf 3 3 16 [0, 0, 0, 0, 1, 0, 0, 0, 0]).tileInfo.length),
        (gridOf 3 3 16 [0, 0, 0, 0, 1, 0, 0, 0, 0]).Tile 1 1 =
          some ((gridOf 3 3 16 [0, 0, 0, 0, 1, 0, 0, 0, 0]).tileInfo.get
            ⟨(gridOf 3 3 16 [0, 0, 0, 0, 1, 0, 0, 0, 0]).tiles.get
              ⟨((1 : Int) +
                (gridOf 3 3 16 [0, 0, 0, 0, 1, 0, 0, 0, 0]).size.X * 1).toNat, h1⟩, h2⟩)) :=
  ⟨by decide, Tile_world_edges_are_walls _ (by decide) 1 1⟩

/-! ## Load -/

/-- C12 at a failing input: for the footprint `ul = (-4, -2)`, `dr = (4, 2)`
(`ul ≤ 0 ≤ dr`), `Load` passes `fatUL = (4, 2)` and `fatDR = (-4, -2)`: both
components of `fatUL` are positive and both components of `fatDR` negative. In
general it passes `(-ul, -dr)`. -/
theorem Load_offsets_signs_inverted :
    Load.offsets ⟨-4, -2⟩ ⟨4, 2⟩ = (⟨4, 2⟩, ⟨-4, -2⟩) ∧
    ¬ ((Load.offsets ⟨-4, -2⟩ ⟨4, 2⟩).1.X ≤ 0) ∧
    ¬ (0 ≤ (Load.offsets ⟨-4, -2⟩ ⟨4, 2⟩).2.X) ∧
    ∀ ul dr : I2, Load.offsets ul dr = (⟨-ul.X, -ul.Y⟩, ⟨-dr.X, -dr.Y⟩) := by
  refine ⟨by decide, by decide, by decide, ?_⟩
  intro ul dr
  simp [Load.offsets, I2.Mul]

/-! ## Text.Layout -/

/-- C16 at a failing input: for the text `"ab\nc"`, every character advancing by
6, line height 10 and wrap width 100, `Layout` stores `Size = (6, 20)` although
the character `b` sits at `x = 6` and ends at `x = 12`: the width of a line that
a newline ends is never recorded in `maxW`. -/
theorem Layout_newline_line_not_contained :
    Layout [97, 98, 10, 99] (fun _ => ⟨0, 0, 5, 8, 0, 0, 6⟩) 10 100 true =
      some ([⟨⟨0, 0⟩, 97, true⟩, ⟨⟨6, 0⟩, 98, true⟩, ⟨⟨0, 10⟩, 99, true⟩], ⟨6, 20⟩) ∧
    (Layout [97, 98, 10, 99] (fun _ => ⟨0, 0, 5, 8, 0, 0, 6⟩) 10 100 true).map
      (fun r => r.1.all fun ch => decide (ch.pos.X + 6 ≤ r.2.X)) = some false := by
  decide

/-! ## The column pass is the row pass with the axes swapped -/

theorem I2.swap_swap (p : I2) : p.swap.swap = p := rfl

theorem I2.swap_injective : Function.Injective I2.swap := by
  intro p q h
  have := congrArg I2.swap h
  simpa [I2.swap_swap] using this

theorem mirrorEdge_mirrorEdge (e : I2 × I2) : mirrorEdge (mirrorEdge e) = e := rfl

theorem mirrorEdge_injective : Function.Injective mirrorEdge := by
  intro p q h
  have := congrArg mirrorEdge h
  simpa [mirrorEdge_mirrorEdge] using this

theorem I2.swap_Add (p q : I2) : (p.Add q).swap = p.swap.Add q.swap := rfl

theorem Graph.mirror_AddEdge (g : Graph) (u v : I2) :
    (g.AddEdge u v).mirror = g.mirror.AddEdge v.swap u.swap := by
  have hmem : (v.swap, u.swap) ∈ g.mirror.E ↔ (u, v) ∈ g.E := by
    show mirrorEdge (u, v) ∈ g.E.map mirrorEdge ↔ _
    exact List.mem_map_of_injective mirrorEdge_injective
  unfold Graph.AddEdge
  by_cases h : (u, v) ∈ g.E
  · rw [if_pos h, if_pos (hmem.mpr h)]
  · rw [if_neg h, if_neg (fun hc => h (hmem.mp hc))]
    simp [Graph.mirror, mirrorEdge]

theorem VertexSet.map_swap_set (s : VertexSet) (v : I2) :
    (VertexSet.set s v).map I2.swap = VertexSet.set (s.map I2.swap) v.swap := by
  have hmem : v.swap ∈ s.map I2.swap ↔ v ∈ s := List.mem_map_of_injective I2.swap_injective
  unfold VertexSet.set
  by_cases h : v ∈ s
  · rw [if_pos h, if_pos (hmem.mpr h)]
  · rw [if_neg h, if_neg (fun hc => h (hmem.mp hc))]
    simp

theorem colCell_mirror (fatUL fatDR ut : I2) (c1 c2 : Bool) (st : RowScan) :
    colCell fatUL fatDR ut.swap c1 c2 st.mirror =
      (rowCell fatUL.swap fatDR.swap ut c1 c2 st).mirror := by
  rcases st with ⟨o, pv, up, down, u⟩
  cases up <;> cases down <;> cases c1 <;> cases c2 <;>
    simp [rowCell, colCell, RowScan.mirror, Graph.mirror_AddEdge, VertexSet.map_swap_set,
      I2.swap_Add] <;>
    simp [I2.swap, I2.Add, ul, ur, dl, dr]

theorem colLineP_mirror (blk : Int → Int → Bool) (s : Int) (fatUL fatDR : I2) (i : Int)
    (st0 : RowScan) (n : Nat) :
    colLineP blk s fatUL fatDR i st0.mirror n =
      (rowLineP (fun x y => blk y x) s fatUL.swap fatDR.swap i st0 n).mirror := by
  induction n with
  | zero => rfl
  | succ n ih =>
    show colCell fatUL fatDR ((I2.mk i (n : Int)).Mul s) (blk (i - 1) n) (blk i n)
      (colLineP blk s fatUL fatDR i st0.mirror n) = _
    rw [ih]
    exact colCell_mirror fatUL fatDR ((I2.mk (n : Int) i).Mul s) _ _ _

theorem colPassP_mirror (blk : Int → Int → Bool) (s : Int) (fatUL fatDR : I2) (h : Nat)
    (a : Acc) (m : Nat) :
    colPassP blk s fatUL fatDR h a.mirror m =
      (rowPassP (fun x y => blk y x) s fatUL.swap fatDR.swap h a m).mirror := by
  induction m with
  | zero => rfl
  | succ m ih =>
    show (colLineP blk s fatUL fatDR (m : Int)
      (colStart (colPassP blk s fatUL fatDR h a.mirror m)) h).toAcc = _
    rw [ih]
    exact congrArg ColScan.toAcc (colLineP_mirror blk s fatUL fatDR (m : Int)
      (rowStart (rowPassP (fun x y => blk y x) s fatUL.swap fatDR.swap h a m)) h)

theorem Terrain.transpose_Tile (t : Terrain) (hwf : t.WellFormed) (x y : Int) :
    t.transpose.Tile x y = t.Tile y x := by
  by_cases hout : x < 0 ∨ x ≥ t.size.Y ∨ y < 0 ∨ y ≥ t.size.X
  · rw [t.transpose.Tile_out x y hout, t.Tile_out y x (by omega)]
  · obtain ⟨h1, h2, hT⟩ := t.Tile_in_eq hwf y x (by omega) (by omega) (by omega) (by omega)
    rw [hT]
    obtain ⟨xn, rfl⟩ := Int.eq_ofNat_of_zero_le (show 0 ≤ x by omega)
    obtain ⟨yn, rfl⟩ := Int.eq_ofNat_of_zero_le (show 0 ≤ y by omega)
    obtain ⟨Wn, hW⟩ := Int.eq_ofNat_of_zero_le (show 0 ≤ t.size.X by omega)
    obtain ⟨Hn, hH⟩ := Int.eq_ofNat_of_zero_le (show 0 ≤ t.size.Y by omega)
    have hxH : xn < Hn := by omega
    have hyW : yn < Wn := by omega
    have hlen : t.tiles.length = Wn * Hn := by
      rw [hwf.1, hW, hH, ← Nat.cast_mul, Int.toNat_natCast]
    have hsrc : ((yn : Int) + t.size.X * (xn : Int)).toNat = yn + Wn * xn := by
      rw [hW, ← Nat.cast_mul, ← Nat.cast_add, Int.toNat_natCast]
    have hdst : ((xn : Int) + t.size.Y * (yn : Int)).toNat = xn + Hn * yn := by
      rw [hH, ← Nat.cast_mul, ← Nat.cast_add, Int.toNat_natCast]
    have hdlt : xn + Hn * yn < Wn * Hn := by nlinarith
    have hslt : yn + Wn * xn < t.tiles.length := by rw [hlen]; nlinarith
    have hdiv : (xn + Hn * yn) / Hn = yn := by
      rw [Nat.add_mul_div_left _ _ (by omega), Nat.div_eq_of_lt hxH, Nat.zero_add]
    have hmod : (xn + Hn * yn) % Hn = xn := by
      rw [Nat.add_mul_mod_self_left, Nat.mod_eq_of_lt hxH]
    have htile : t.transpose.tiles[xn + Hn * yn]? = some (t.tiles[yn + Wn * xn]) := by
      show ((List.range (t.size.X * t.size.Y).toNat).map _)[xn + Hn * yn]? = _
      rw [List.getElem?_map, List.getElem?_range
        (by rw [hW, hH, ← Nat.cast_mul, Int.toNat_natCast]; exact hdlt)]
      show some (t.tiles.getD _ 0) = _
      rw [hH, hW, Int.toNat_natCast, Int.toNat_natCast, hdiv, hmod,
        List.getD_eq_getElem _ _ hslt]
    have hinfo : t.tiles.get ⟨((yn : Int) + t.size.X * (xn : Int)).toNat, h1⟩ =
        t.tiles[yn + Wn * xn] := by
      simp only [List.get_eq_getElem, hsrc]
    have hout' : ¬ ((xn : Int) < 0 ∨ (xn : Int) ≥ t.transpose.size.X ∨ (yn : Int) < 0 ∨
        (yn : Int) ≥ t.transpose.size.Y) := hout
    unfold Terrain.Tile
    rw [if_neg hout']
    show (t.transpose.tiles[((xn : Int) + t.size.Y * (yn : Int)).toNat]?).bind
      (fun k => t.tileInfo[k]?) = _
    rw [hdst, htile, Option.some_bind]
    have h2' : t.tiles[yn + Wn * xn] < t.tileInfo.length := by
      rw [← hinfo]; exact h2
    rw [List.getElem?_eq_getElem h2']
    congr 1
    simp only [List.get_eq_getElem, hsrc]


theorem Terrain.transpose_blocking (t : Terrain) (hwf : t.WellFormed) :
    t.transpose.blocking = fun x y => t.blocking y x := by
  funext x y
  unfold Terrain.blocking
  rw [t.transpose_Tile hwf]

theorem Terrain.transpose_Tile_map_blocking (t : Terrain) (hwf : t.WellFormed) (x y : Int) :
    (t.transpose.Tile x y).map TileInfo.Block = some (t.transpose.blocking x y) := by
  rw [t.transpose_blocking hwf, t.transpose_Tile hwf]
  exact t.Tile_map_blocking hwf y x

/-- C15: on a well-formed grid `G`, with the same tile size in both passes and any
footprint offsets, the column pass on `G` and the row pass on the transposed grid
(tile `(x, y)` of the transpose is tile `(y, x)` of `G`) with offsets whose
components are swapped both succeed, and the obstacle edges and registered points
of the column pass are exactly those of that row pass after swapping the `x` and
`y` coordinates of every point and reversing the direction of every edge. -/
theorem colPass_is_rowPass_transposed (t : Terrain) (hwf : t.WellFormed) (fatUL fatDR : I2) :
    ∃ ac ar, colPass t t.tileSize fatUL fatDR ⟨NewGraph, []⟩ = some ac ∧
      rowPass t.transpose ⟨fatUL.Y, fatUL.X⟩ ⟨fatDR.Y, fatDR.X⟩ ⟨NewGraph, []⟩ = some ar ∧
      ac.o.E = ar.o.E.map (fun e => ((⟨e.2.Y, e.2.X⟩ : I2), (⟨e.1.Y, e.1.X⟩ : I2))) ∧
      ac.pVerts = ar.pVerts.map (fun p => (⟨p.Y, p.X⟩ : I2)) ∧
      (∀ u v : I2, (u, v) ∈ ac.o.E ↔ ((⟨v.Y, v.X⟩ : I2), (⟨u.Y, u.X⟩ : I2)) ∈ ar.o.E) ∧
      (∀ p : I2, p ∈ ac.pVerts ↔ (⟨p.Y, p.X⟩ : I2) ∈ ar.pVerts) := by
  have hm := colPassP_mirror t.blocking t.tileSize fatUL fatDR t.size.Y.toNat
    ⟨NewGraph, []⟩ (t.size.X + 1).toNat
  have hE : (colPassP t.blocking t.tileSize fatUL fatDR t.size.Y.toNat ⟨NewGraph, []⟩
      (t.size.X + 1).toNat).o.E =
      (rowPassP t.transpose.blocking t.transpose.tileSize ⟨fatUL.Y, fatUL.X⟩
        ⟨fatDR.Y, fatDR.X⟩ t.transpose.size.X.toNat ⟨NewGraph, []⟩
        (t.transpose.size.Y + 1).toNat).o.E.map mirrorEdge := by
    rw [t.transpose_blocking hwf]
    exact congrArg (fun a => a.o.E) hm
  have hP : (colPassP t.blocking t.tileSize fatUL fatDR t.size.Y.toNat ⟨NewGraph, []⟩
      (t.size.X + 1).toNat).pVerts =
      (rowPassP t.transpose.blocking t.transpose.tileSize ⟨fatUL.Y, fatUL.X⟩
        ⟨fatDR.Y, fatDR.X⟩ t.transpose.size.X.toNat ⟨NewGraph, []⟩
        (t.transpose.size.Y + 1).toNat).pVerts.map I2.swap := by
    rw [t.transpose_blocking hwf]
    exact congrArg (fun a => a.pVerts) hm
  refine ⟨_, _, colPass_eq t (t.Tile_map_blocking hwf) _ _ _ _,
    rowPass_eq t.transpose (t.transpose_Tile_map_blocking hwf) _ _ _, hE, hP, ?_, ?_⟩
  · intro u v
    rw [hE]
    exact (List.mem_map_of_injective mirrorEdge_injective
      (a := ((⟨v.Y, v.X⟩ : I2), (⟨u.Y, u.X⟩ : I2))))
  · intro p
    rw [hP]
    exact (List.mem_map_of_injective I2.swap_injective (a := (⟨p.Y, p.X⟩ : I2)))

theorem colPass_is_rowPass_transposed_witness :
    (gridOf 3 2 16 [1, 0, 0, 1, 0, 1]).WellFormed ∧
    ∃ ac ar, colPass (gridOf 3 2 16 [1, 0, 0, 1, 0, 1])
        (gridOf 3 2 16 [1, 0, 0, 1, 0, 1]).tileSize ⟨-3, -2⟩ ⟨4, 5⟩ ⟨NewGraph, []⟩ = some ac ∧
      rowPass (gridOf 3 2 16 [1, 0, 0, 1, 0, 1]).transpose ⟨(⟨-3, -2⟩ : I2).Y, (⟨-3, -2⟩ : I2).X⟩
        ⟨(⟨4, 5⟩ : I2).Y, (⟨4, 5⟩ : I2).X⟩ ⟨NewGraph, []⟩ = some ar ∧
      ac.o.E = ar.o.E.map (fun e => ((⟨e.2.Y, e.2.X⟩ : I2), (⟨e.1.Y, e.1.X⟩ : I2))) ∧
      ac.pVerts = ar.pVerts.map (fun p => (⟨p.Y, p.X⟩ : I2)) ∧
      (∀ u v : I2, (u, v) ∈ ac.o.E ↔ ((⟨v.Y, v.X⟩ : I2), (⟨u.Y, u.X⟩ : I2)) ∈ ar.o.E) ∧
      (∀ p : I2, p ∈ ac.pVerts ↔ (⟨p.Y, p.X⟩ : I2) ∈ ar.pVerts) :=
  ⟨by decide, colPass_is_rowPass_transposed _ (by decide) _ _⟩

/-! ## Runs: the exact edge set of a pass -/

theorem rowOrigin_same (fatUL fatDR ut u : I2) (up down : Bool) :
    rowOrigin fatUL fatDR ut u up down up down = u := by
  cases up <;> cases down <;> rfl

theorem rowOrigin_changed (fatUL fatDR ut u u' : I2) (up down cup cdown : Bool)
    (hne : cup ≠ cdown) (hch : ¬ (up = cup ∧ down = cdown)) :
    rowOrigin fatUL fatDR ut u up down cup cdown =
      rowOrigin fatUL fatDR ut u' up down cup cdown := by
  cases up <;> cases down <;> cases cup <;> cases cdown <;> simp [rowOrigin] at hne hch ⊢

theorem RowRun_unique (blk : Int → Int → Bool) (j i0 i0' i1 : Int)
    (h : RowRun blk j i0 i1) (h' : RowRun blk j i0' i1) (hlt : i0 < i1) (hlt' : i0' < i1) :
    i0 = i0' := by
  obtain ⟨_, hch, hc⟩ := h
  obtain ⟨_, hch', hc'⟩ := h'
  by_contra hne
  rcases lt_or_gt_of_ne hne with hl | hl
  · have h1 := hc (i0' - 1) (by omega) (by omega)
    have h2 := hc i0' (by omega) hlt'
    rcases hch' with hx | hx
    · exact hx (h1.1.trans h2.1.symm)
    · exact hx (h1.2.trans h2.2.symm)
  · have h1 := hc' (i0 - 1) (by omega) (by omega)
    have h2 := hc' i0 (by omega) hlt
    rcases hch with hx | hx
    · exact hx (h1.1.trans h2.1.symm)
    · exact hx (h1.2.trans h2.2.symm)

theorem rowLineP_run (blk : Int → Int → Bool) (s : Int) (fatUL fatDR : I2) (j : Int)
    (st0 : RowScan) (h0 : st0.up = true ∧ st0.down = true) (hneg : ∀ y, blk (-1) y = true)
    (n : Nat)
    (hrun : (rowLineP blk s fatUL fatDR j st0 n).up ≠
      (rowLineP blk s fatUL fatDR j st0 n).down) :
    ∃ i0 : Int, 0 ≤ i0 ∧ i0 < n ∧ RowRun blk j i0 n ∧
      (rowLineP blk s fatUL fatDR j st0 n).up = blk i0 (j - 1) ∧
      (rowLineP blk s fatUL fatDR j st0 n).down = blk i0 j ∧
      (rowLineP blk s fatUL fatDR j st0 n).u =
        rowOrigin fatUL fatDR ((I2.mk i0 j).Mul s) ⟨0, 0⟩ (blk (i0 - 1) (j - 1))
          (blk (i0 - 1) j) (blk i0 (j - 1)) (blk i0 j) := by
  induction n with
  | zero =>
    exfalso
    apply hrun
    show st0.up = st0.down
    rw [h0.1, h0.2]
  | succ n ih =>
    have hf := rowCell_flags fatUL fatDR ((I2.mk (n : Int) j).Mul s) (blk n (j - 1)) (blk n j)
      (rowLineP blk s fatUL fatDR j st0 n)
    have hu := rowCell_u fatUL fatDR ((I2.mk (n : Int) j).Mul s) (blk n (j - 1)) (blk n j)
      (rowLineP blk s fatUL fatDR j st0 n)
    have hprev := rowLineP_flags blk s fatUL fatDR j st0 h0 hneg n
    have hne : blk n (j - 1) ≠ blk n j := by
      intro hc
      apply hrun
      show (rowCell _ _ _ _ _ _).up = (rowCell _ _ _ _ _ _).down
      rw [hf.1, hf.2, hc]
    have hcast : ((n + 1 : Nat) : Int) = (n : Int) + 1 := by push_cast; ring
    show ∃ i0 : Int, 0 ≤ i0 ∧ i0 < ((n + 1 : Nat) : Int) ∧ RowRun blk j i0 ((n + 1 : Nat) : Int) ∧
      (rowCell _ _ _ _ _ _).up = _ ∧ (rowCell _ _ _ _ _ _).down = _ ∧
      (rowCell _ _ _ _ _ _).u = _
    rw [hf.1, hf.2, hu, hcast]
    by_cases hsame : (rowLineP blk s fatUL fatDR j st0 n).up = blk n (j - 1) ∧
        (rowLineP blk s fatUL fatDR j st0 n).down = blk n j
    · obtain ⟨i0, hi0, hi0n, ⟨hr1, hr2, hr3⟩, hup, hdown, hu0⟩ :=
        ih (by rw [hsame.1, hsame.2]; exact hne)
      refine ⟨i0, hi0, by omega, ⟨hr1, hr2, ?_⟩, hsame.1.symm.trans hup,
        hsame.2.symm.trans hdown, ?_⟩
      · intro k hk1 hk2
        by_cases hkn : k < n
        · exact hr3 k hk1 hkn
        · have hk : k = n := by omega
          rw [hk]
          exact ⟨hsame.1.symm.trans hup, hsame.2.symm.trans hdown⟩
      · rw [hsame.1, hsame.2, rowOrigin_same]
        exact hu0
    · refine ⟨n, by omega, by omega, ⟨hne, ?_, ?_⟩, rfl, rfl, ?_⟩
      · rw [hprev.1, hprev.2] at hsame
        by_contra hc
        push_neg at hc
        exact hsame hc
      · intro k hk1 hk2
        have hk : k = n := by omega
        rw [hk]
        exact ⟨rfl, rfl⟩
      · rw [rowOrigin_changed fatUL fatDR _ _ ⟨0, 0⟩ _ _ _ _ hne hsame, hprev.1, hprev.2]

theorem rowLineP_mem_E_runs (blk : Int → Int → Bool) (s : Int) (fatUL fatDR : I2) (j : Int)
    (st0 : RowScan) (h0 : st0.up = true ∧ st0.down = true) (hneg : ∀ y, blk (-1) y = true)
    (n : Nat) (e : I2 × I2) :
    e ∈ (rowLineP blk s fatUL fatDR j st0 n).o.E ↔
      e ∈ st0.o.E ∨ ∃ i0 i1 : Int, 0 ≤ i0 ∧ i0 < i1 ∧ i1 < n ∧ RowRun blk j i0 i1 ∧
        e ∈ rowRunEdges blk s fatUL fatDR j i0 i1 := by
  rw [rowLineP_mem_E]
  refine or_congr Iff.rfl ?_
  constructor
  · rintro ⟨i, hi, he⟩
    obtain ⟨hrun, _⟩ := mem_rowEdges _ _ _ _ _ _ _ _ _ he
    obtain ⟨i0, hi0, hi0i, hr, hup, hdown, hu⟩ :=
      rowLineP_run blk s fatUL fatDR j st0 h0 hneg i hrun
    refine ⟨i0, i, hi0, hi0i, by omega, hr, ?_⟩
    unfold rowRunEdges
    rw [← hu, ← hup, ← hdown]
    exact he
  · rintro ⟨i0, i1, hi0, hlt, hi1n, hr, he⟩
    obtain ⟨i, rfl⟩ := Int.eq_ofNat_of_zero_le (show 0 ≤ i1 by omega)
    have hprev := rowLineP_flags blk s fatUL fatDR j st0 h0 hneg i
    have hc := hr.2.2 ((i : Int) - 1) (by omega) (by omega)
    have hrun : (rowLineP blk s fatUL fatDR j st0 i).up ≠
        (rowLineP blk s fatUL fatDR j st0 i).down := by
      rw [hprev.1, hprev.2, hc.1, hc.2]
      exact hr.1
    obtain ⟨i0', hi0', hi0i', hr', hup, hdown, hu⟩ :=
      rowLineP_run blk s fatUL fatDR j st0 h0 hneg i hrun
    have heq : i0 = i0' := RowRun_unique blk j i0 i0' i hr hr' hlt hi0i'
    subst heq
    refine ⟨i, by omega, ?_⟩
    rw [hu, hup, hdown]
    exact he

theorem rowPassP_mem_E_runs (blk : Int → Int → Bool) (s : Int) (fatUL fatDR : I2)
    (hneg : ∀ y, blk (-1) y = true) (w : Nat) (a : Acc) (m : Nat) (e : I2 × I2) :
    e ∈ (rowPassP blk s fatUL fatDR w a m).o.E ↔
      e ∈ a.o.E ∨ ∃ j i0 i1 : Int, 0 ≤ j ∧ j < m ∧ 0 ≤ i0 ∧ i0 < i1 ∧ i1 < w ∧
        RowRun blk j i0 i1 ∧ e ∈ rowRunEdges blk s fatUL fatDR j i0 i1 := by
  induction m with
  | zero =>
    constructor
    · intro h
      exact Or.inl h
    · rintro (h | ⟨j, _, _, hj0, hjm, _⟩)
      · exact h
      · exact absurd hjm (by simp; omega)
  | succ m ih =>
    show e ∈ (rowLineP blk s fatUL fatDR (m : Int)
      (rowStart (rowPassP blk s fatUL fatDR w a m)) w).o.E ↔ _
    rw [rowLineP_mem_E_runs blk s fatUL fatDR _ _ ⟨rfl, rfl⟩ hneg]
    show e ∈ (rowPassP blk s fatUL fatDR w a m).o.E ∨ _ ↔ _
    rw [ih]
    constructor
    · rintro ((h | ⟨j, i0, i1, hj0, hjm, h⟩) | ⟨i0, i1, h⟩)
      · exact Or.inl h
      · exact Or.inr ⟨j, i0, i1, hj0, by push_cast; omega, h⟩
      · exact Or.inr ⟨m, i0, i1, by omega, by push_cast; omega, h⟩
    · rintro (h | ⟨j, i0, i1, hj0, hjm, h⟩)
      · exact Or.inl (Or.inl h)
      · by_cases hlt : j < m
        · exact Or.inl (Or.inr ⟨j, i0, i1, hj0, hlt, h⟩)
        · have hj : j = m := by push_cast at hjm; omega
          subst hj
          exact Or.inr ⟨i0, i1, h⟩

theorem Graph.mem_mirror (g : Graph) (e : I2 × I2) : e ∈ g.mirror.E ↔ mirrorEdge e ∈ g.E := by
  show e ∈ g.E.map mirrorEdge ↔ _
  constructor
  · intro h
    obtain ⟨e', he', rfl⟩ := List.mem_map.mp h
    exact he'
  · intro h
    exact List.mem_map.mpr ⟨mirrorEdge e, h, rfl⟩

theorem Acc.mirror_mirror (a : Acc) : a.mirror.mirror = a := by
  rcases a with ⟨⟨E⟩, pv⟩
  simp only [Acc.mirror, Graph.mirror, List.map_map]
  have h1 : mirrorEdge ∘ mirrorEdge = id := rfl
  have h2 : I2.swap ∘ I2.swap = id := rfl
  rw [h1, h2, List.map_id, List.map_id]

theorem colPassP_mem_E_runs (blk : Int → Int → Bool) (s : Int) (fatUL fatDR : I2)
    (hneg : ∀ x, blk x (-1) = true) (h : Nat) (a : Acc) (m : Nat) (e : I2 × I2) :
    e ∈ (colPassP blk s fatUL fatDR h a m).o.E ↔
      e ∈ a.o.E ∨ ∃ i j0 j1 : Int, 0 ≤ i ∧ i < m ∧ 0 ≤ j0 ∧ j0 < j1 ∧ j1 < h ∧
        RowRun (fun x y => blk y x) i j0 j1 ∧
        mirrorEdge e ∈ rowRunEdges (fun x y => blk y x) s fatUL.swap fatDR.swap i j0 j1 := by
  have hm := colPassP_mirror blk s fatUL fatDR h a.mirror m
  rw [Acc.mirror_mirror] at hm
  rw [hm]
  show e ∈ (rowPassP _ _ _ _ _ _ _).o.mirror.E ↔ _
  rw [Graph.mem_mirror, rowPassP_mem_E_runs _ _ _ _ (fun y => hneg y)]
  refine or_congr ?_ Iff.rfl
  show mirrorEdge e ∈ a.o.mirror.E ↔ _
  rw [Graph.mem_mirror]
  rfl

theorem mem_rowEdges_changed (fatUL fatDR ut u : I2) (up down cup cdown : Bool)
    (e : I2 × I2) (h : e ∈ rowEdges fatUL fatDR ut u up down cup cdown) :
    ¬ (up = cup ∧ down = cdown) := by
  cases up <;> cases down <;> cases cup <;> cases cdown <;> simp [rowEdges] at h ⊢

theorem rowRunEdges_zero (blk : Int → Int → Bool) (s j i0 i1 : Int) (e : I2 × I2)
    (hr : RowRun blk j i0 i1) (he : e ∈ rowRunEdges blk s ⟨0, 0⟩ ⟨0, 0⟩ j i0 i1) :
    (e = (⟨i0 * s, j * s⟩, ⟨i1 * s, j * s⟩) ∧ blk i0 (j - 1) = true ∧ blk i0 j = false) ∨
    (e = (⟨i1 * s, j * s⟩, ⟨i0 * s, j * s⟩) ∧ blk i0 (j - 1) = false ∧ blk i0 j = true) := by
  obtain ⟨hr1, hr2, _⟩ := hr
  unfold rowRunEdges at he
  revert hr1 hr2 he
  generalize blk (i0 - 1) (j - 1) = b1
  generalize blk (i0 - 1) j = b2
  generalize blk i0 (j - 1) = b3
  generalize blk i0 j = b4
  generalize blk i1 (j - 1) = b5
  generalize blk i1 j = b6
  cases b1 <;> cases b2 <;> cases b3 <;> cases b4 <;> cases b5 <;> cases b6 <;>
    simp [rowEdges, rowOrigin, I2.Add, I2.Mul]

theorem rowPass_edges_oriented (blk : Int → Int → Bool) (hneg : ∀ y, blk (-1) y = true)
    (s : Int) (hs : 0 < s) (w m : Nat) (e : I2 × I2)
    (he : e ∈ (rowPassP blk s ⟨0, 0⟩ ⟨0, 0⟩ w ⟨NewGraph, []⟩ m).o.E) :
    ∃ j i0 i1 : Int, 0 ≤ j ∧ j < m ∧ 0 ≤ i0 ∧ i0 < i1 ∧ i1 < w ∧ i0 * s < i1 * s ∧
      ((e = (⟨i0 * s, j * s⟩, ⟨i1 * s, j * s⟩) ∧
          ∀ i, i0 ≤ i → i < i1 → blk i (j - 1) = true ∧ blk i j = false) ∨
        (e = (⟨i1 * s, j * s⟩, ⟨i0 * s, j * s⟩) ∧
          ∀ i, i0 ≤ i → i < i1 → blk i (j - 1) = false ∧ blk i j = true)) := by
  rw [rowPassP_mem_E_runs _ _ _ _ hneg] at he
  rcases he with h | ⟨j, i0, i1, hj0, hjm, hi0, hlt, hi1, hr, he⟩
  · exact absurd h (List.not_mem_nil e)
  · refine ⟨j, i0, i1, hj0, hjm, hi0, hlt, hi1, by nlinarith, ?_⟩
    rcases rowRunEdges_zero blk s j i0 i1 e hr he with ⟨h1, h2, h3⟩ | ⟨h1, h2, h3⟩
    · left
      refine ⟨h1, fun i hi1 hi2 => ?_⟩
      have := hr.2.2 i hi1 hi2
      exact ⟨this.1.trans h2, this.2.trans h3⟩
    · right
      refine ⟨h1, fun i hi1 hi2 => ?_⟩
      have := hr.2.2 i hi1 hi2
      exact ⟨this.1.trans h2, this.2.trans h3⟩

theorem colPass_edges_oriented (blk : Int → Int → Bool) (hneg : ∀ x, blk x (-1) = true)
    (s : Int) (hs : 0 < s) (h m : Nat) (e : I2 × I2)
    (he : e ∈ (colPassP blk s ⟨0, 0⟩ ⟨0, 0⟩ h ⟨NewGraph, []⟩ m).o.E) :
    ∃ i j0 j1 : Int, 0 ≤ i ∧ i < m ∧ 0 ≤ j0 ∧ j0 < j1 ∧ j1 < h ∧ j0 * s < j1 * s ∧
      ((e = (⟨i * s, j1 * s⟩, ⟨i * s, j0 * s⟩) ∧
          ∀ j, j0 ≤ j → j < j1 → blk (i - 1) j = true ∧ blk i j = false) ∨
        (e = (⟨i * s, j0 * s⟩, ⟨i * s, j1 * s⟩) ∧
          ∀ j, j0 ≤ j → j < j1 → blk (i - 1) j = false ∧ blk i j = true)) := by
  have hm : colPassP blk s ⟨0, 0⟩ ⟨0, 0⟩ h ⟨NewGraph, []⟩ m =
      (rowPassP (fun x y => blk y x) s ⟨0, 0⟩ ⟨0, 0⟩ h ⟨NewGraph, []⟩ m).mirror :=
    colPassP_mirror blk s ⟨0, 0⟩ ⟨0, 0⟩ h ⟨NewGraph, []⟩ m
  have he' : mirrorEdge e ∈
      (rowPassP (fun x y => blk y x) s ⟨0, 0⟩ ⟨0, 0⟩ h ⟨NewGraph, []⟩ m).o.E := by
    rw [hm] at he
    exact (Graph.mem_mirror _ _).mp he
  obtain ⟨i, j0, j1, hi0, him, hj0, hlt, hj1, hsl, hcase⟩ :=
    rowPass_edges_oriented (fun x y => blk y x) (fun y => hneg y) s hs h m _ he'
  refine ⟨i, j0, j1, hi0, him, hj0, hlt, hj1, hsl, ?_⟩
  rcases hcase with ⟨h1, h2⟩ | ⟨h1, h2⟩
  · left
    refine ⟨?_, h2⟩
    have := congrArg mirrorEdge h1
    rw [mirrorEdge_mirrorEdge] at this
    exact this
  · right
    refine ⟨?_, h2⟩
    have := congrArg mirrorEdge h1
    rw [mirrorEdge_mirrorEdge] at this
    exact this

/-- C13: on a well-formed grid with tile size `s > 0` in both passes and zero
footprint offsets, every edge of the row pass lies on a scan line `y = j * s`,
runs between `x = i0 * s` and `x = i1 * s` with `i0 < i1`, and on every column
`i` of `[i0, i1)` exactly one of the tiles `(i, j-1)`, `(i, j)` is blocking, the
same one along the whole edge: the edge goes left to right when the blocking
tiles are above and right to left when they are below. Every edge of the column
pass lies on `x = i * s` between `y = j0 * s` and `y = j1 * s`, going bottom to
top when the blocking tiles are on the left and top to bottom when they are on
the right. In all four cases the vector `(dy, -dx)` of the directed edge
`(dx, dy)` points to the side of the blocking tiles. -/
theorem traced_edges_solid_side (t : Terrain) (hwf : t.WellFormed) (hs : 0 < t.tileSize) :
    ∃ ar ac, rowPass t ⟨0, 0⟩ ⟨0, 0⟩ ⟨NewGraph, []⟩ = some ar ∧
      colPass t t.tileSize ⟨0, 0⟩ ⟨0, 0⟩ ⟨NewGraph, []⟩ = some ac ∧
      (∀ e ∈ ar.o.E, ∃ j i0 i1 : Int, 0 ≤ j ∧ j ≤ t.size.Y ∧ 0 ≤ i0 ∧ i0 < i1 ∧
        i1 < t.size.X ∧
        ((e = (⟨i0 * t.tileSize, j * t.tileSize⟩, ⟨i1 * t.tileSize, j * t.tileSize⟩) ∧
            (∀ i, i0 ≤ i → i < i1 → t.blocking i (j - 1) = true ∧ t.blocking i j = false) ∧
            e.2.Y - e.1.Y = 0 ∧ -(e.2.X - e.1.X) < 0) ∨
          (e = (⟨i1 * t.tileSize, j * t.tileSize⟩, ⟨i0 * t.tileSize, j * t.tileSize⟩) ∧
            (∀ i, i0 ≤ i → i < i1 → t.blocking i (j - 1) = false ∧ t.blocking i j = true) ∧
            e.2.Y - e.1.Y = 0 ∧ 0 < -(e.2.X - e.1.X)))) ∧
      (∀ e ∈ ac.o.E, ∃ i j0 j1 : Int, 0 ≤ i ∧ i ≤ t.size.X ∧ 0 ≤ j0 ∧ j0 < j1 ∧
        j1 < t.size.Y ∧
        ((e = (⟨i * t.tileSize, j1 * t.tileSize⟩, ⟨i * t.tileSize, j0 * t.tileSize⟩) ∧
            (∀ j, j0 ≤ j → j < j1 → t.blocking (i - 1) j = true ∧ t.blocking i j = false) ∧
            e.2.Y - e.1.Y < 0 ∧ -(e.2.X - e.1.X) = 0) ∨
          (e = (⟨i * t.tileSize, j0 * t.tileSize⟩, ⟨i * t.tileSize, j1 * t.tileSize⟩) ∧
            (∀ j, j0 ≤ j → j < j1 → t.blocking (i - 1) j = false ∧ t.blocking i j = true) ∧
            0 < e.2.Y - e.1.Y ∧ -(e.2.X - e.1.X) = 0))) := by
  refine ⟨_, _, rowPass_eq t (t.Tile_map_blocking hwf) _ _ _,
    colPass_eq t (t.Tile_map_blocking hwf) _ _ _ _, ?_, ?_⟩
  · intro e he
    obtain ⟨j, i0, i1, hj0, hjm, hi0, hlt, hi1, hsl, hcase⟩ :=
      rowPass_edges_oriented t.blocking
        (fun y => t.blocking_out (-1) y (Or.inl (by decide))) t.tileSize hs _ _ e he
    refine ⟨j, i0, i1, hj0, by omega, hi0, hlt, by omega, ?_⟩
    rcases hcase with ⟨h1, h2⟩ | ⟨h1, h2⟩
    · left
      refine ⟨h1, h2, ?_, ?_⟩ <;> rw [h1] <;> simp only [] <;> omega
    · right
      refine ⟨h1, h2, ?_, ?_⟩ <;> rw [h1] <;> simp only [] <;> omega
  · intro e he
    obtain ⟨i, j0, j1, hi0, him, hj0, hlt, hj1, hsl, hcase⟩ :=
      colPass_edges_oriented t.blocking
        (fun x => t.blocking_out x (-1) (by omega)) t.tileSize hs _ _ e he
    refine ⟨i, j0, j1, hi0, by omega, hj0, hlt, by omega, ?_⟩
    rcases hcase with ⟨h1, h2⟩ | ⟨h1, h2⟩
    · left
      refine ⟨h1, h2, ?_, ?_⟩ <;> rw [h1] <;> simp only [] <;> omega
    · right
      refine ⟨h1, h2, ?_, ?_⟩ <;> rw [h1] <;> simp only [] <;> omega

theorem single_tile_row_runs (blk : Int → Int → Bool) (W H a b : Int)
    (ha1 : 1 ≤ a) (ha2 : a + 2 ≤ W) (hb1 : 1 ≤ b) (hb2 : b + 2 ≤ H)
    (hblk : ∀ x y, blk x y = true ↔ (x < 0 ∨ x ≥ W ∨ y < 0 ∨ y ≥ H ∨ (x = a ∧ y = b)))
    (s : Int) (fatUL fatDR : I2) (e : I2 × I2) :
    (∃ j i0 i1 : Int, 0 ≤ j ∧ j < H + 1 ∧ 0 ≤ i0 ∧ i0 < i1 ∧ i1 < W ∧ RowRun blk j i0 i1 ∧
      e ∈ rowRunEdges blk s fatUL fatDR j i0 i1) ↔
    (e = (⟨(a + 1) * s + fatDR.X, b * s + fatUL.Y⟩, ⟨a * s + fatUL.X, b * s + fatUL.Y⟩) ∨
      e = (⟨a * s + fatUL.X, (b + 1) * s + fatDR.Y⟩,
        ⟨(a + 1) * s + fatDR.X, (b + 1) * s + fatDR.Y⟩)) := by
  have hF : ∀ x y, blk x y = false ↔
      ¬ (x < 0 ∨ x ≥ W ∨ y < 0 ∨ y ≥ H ∨ (x = a ∧ y = b)) := by
    intro x y
    rw [← hblk x y]
    exact Bool.eq_false_iff
  constructor
  · rintro ⟨j, i0, i1, hj0, hjH, hi0, hlt, hi1, hr, he⟩
    have hN := mem_rowEdges_changed _ _ _ _ _ _ _ _ _ he
    obtain ⟨hr1, hr2, hr3⟩ := hr
    have hC := hr3 (i1 - 1) (by omega) (by omega)
    have hrow : ∀ x x' y, 0 ≤ x → x < W → 0 ≤ x' → x' < W → y ≠ b → blk x y = blk x' y := by
      intro x x' y h1 h2 h3 h4 h5
      rw [Bool.eq_iff_iff, hblk, hblk]
      omega
    have htrue : ∀ c d : Bool, c ≠ d → c = false → d = true := by
      intro c d; cases c <;> cases d <;> simp
    have key : i0 = a ∧ i1 = a + 1 ∧ (j = b ∨ j = b + 1) := by
      by_cases hjb : j = b
      · subst hjb
        have v3 : blk i0 (j - 1) = false := (hF _ _).mpr (by omega)
        have v4 : blk i0 j = true := htrue _ _ hr1 v3
        have h4 := (hblk _ _).mp v4
        have h5 := (hblk _ _).mp (hC.2.trans v4)
        omega
      · by_cases hjb1 : j = b + 1
        · subst hjb1
          have v4 : blk i0 (b + 1) = false := (hF _ _).mpr (by omega)
          have v3 : blk i0 (b + 1 - 1) = true := htrue _ _ (Ne.symm hr1) v4
          have h4 := (hblk _ _).mp v3
          have h5 := (hblk _ _).mp (hC.1.trans v3)
          omega
        · exfalso
          exact hN ⟨hrow _ _ _ hi0 (by omega) (by omega) hi1 (by omega),
            hrow _ _ _ hi0 (by omega) (by omega) hi1 hjb⟩
    obtain ⟨rfl, rfl, hj⟩ := key
    rcases hj with rfl | rfl
    · left
      have v1 : blk (i0 - 1) (j - 1) = false := (hF _ _).mpr (by omega)
      have v2 : blk (i0 - 1) j = false := (hF _ _).mpr (by omega)
      have v3 : blk i0 (j - 1) = false := (hF _ _).mpr (by omega)
      have v4 : blk i0 j = true := (hblk _ _).mpr (by omega)
      have v5 : blk (i0 + 1) (j - 1) = false := (hF _ _).mpr (by omega)
      have v6 : blk (i0 + 1) j = false := (hF _ _).mpr (by omega)
      simpa [rowRunEdges, v1, v2, v3, v4, v5, v6, rowEdges, rowOrigin, I2.Add, I2.Mul] using he
    · right
      have v1 : blk (i0 - 1) b = false := (hF _ _).mpr (by omega)
      have v2 : blk (i0 - 1) (b + 1) = false := (hF _ _).mpr (by omega)
      have v3 : blk i0 b = true := (hblk _ _).mpr (by omega)
      have v4 : blk i0 (b + 1) = false := (hF _ _).mpr (by omega)
      have v5 : blk (i0 + 1) b = false := (hF _ _).mpr (by omega)
      have v6 : blk (i0 + 1) (b + 1) = false := (hF _ _).mpr (by omega)
      simpa [rowRunEdges, v1, v2, v3, v4, v5, v6, rowEdges, rowOrigin, I2.Add, I2.Mul] using he
  · rintro (rfl | rfl)
    · have v1 : blk (a - 1) (b - 1) = false := (hF _ _).mpr (by omega)
      have v2 : blk (a - 1) b = false := (hF _ _).mpr (by omega)
      have v3 : blk a (b - 1) = false := (hF _ _).mpr (by omega)
      have v4 : blk a b = true := (hblk _ _).mpr (by omega)
      have v5 : blk (a + 1) (b - 1) = false := (hF _ _).mpr (by omega)
      have v6 : blk (a + 1) b = false := (hF _ _).mpr (by omega)
      refine ⟨b, a, a + 1, by omega, by omega, by omega, by omega, by omega, ⟨?_, ?_, ?_⟩, ?_⟩
      · rw [v3, v4]; decide
      · right; rw [v2, v4]; decide
      · intro k hk1 hk2
        have hk : k = a := by omega
        rw [hk]
        exact ⟨rfl, rfl⟩
      · simp [rowRunEdges, v1, v2, v3, v4, v5, v6, rowEdges, rowOrigin, I2.Add, I2.Mul]
    · have v1 : blk (a - 1) b = false := (hF _ _).mpr (by omega)
      have v2 : blk (a - 1) (b + 1) = false := (hF _ _).mpr (by omega)
      have v3 : blk a b = true := (hblk _ _).mpr (by omega)
      have v4 : blk a (b + 1) = false := (hF _ _).mpr (by omega)
      have v5 : blk (a + 1) b = false := (hF _ _).mpr (by omega)
      have v6 : blk (a + 1) (b + 1) = false := (hF _ _).mpr (by omega)
      refine ⟨b + 1, a, a + 1, by omega, by omega, by omega, by omega, by omega,
        ⟨?_, ?_, ?_⟩, ?_⟩
      · rw [show b + 1 - 1 = b by ring, v3, v4]; decide
      · left; rw [show b + 1 - 1 = b by ring, v1, v3]; decide
      · intro k hk1 hk2
        have hk : k = a := by omega
        rw [hk]
        exact ⟨rfl, rfl⟩
      · simp [rowRunEdges, v1, v2, v3, v4, v5, v6, rowEdges, rowOrigin, I2.Add, I2.Mul]

theorem single_tile_rowPass_edges (blk : Int → Int → Bool) (W H a b : Int)
    (ha1 : 1 ≤ a) (ha2 : a + 2 ≤ W) (hb1 : 1 ≤ b) (hb2 : b + 2 ≤ H)
    (hblk : ∀ x y, blk x y = true ↔ (x < 0 ∨ x ≥ W ∨ y < 0 ∨ y ≥ H ∨ (x = a ∧ y = b)))
    (s : Int) (fatUL fatDR : I2) (a0 : Acc) (e : I2 × I2) :
    e ∈ (rowPassP blk s fatUL fatDR W.toNat a0 (H + 1).toNat).o.E ↔
      e ∈ a0.o.E ∨
      e = (⟨(a + 1) * s + fatDR.X, b * s + fatUL.Y⟩, ⟨a * s + fatUL.X, b * s + fatUL.Y⟩) ∨
      e = (⟨a * s + fatUL.X, (b + 1) * s + fatDR.Y⟩,
        ⟨(a + 1) * s + fatDR.X, (b + 1) * s + fatDR.Y⟩) := by
  have hWn : ((W.toNat : Nat) : Int) = W := Int.toNat_of_nonneg (by omega)
  have hHn : (((H + 1).toNat : Nat) : Int) = H + 1 := Int.toNat_of_nonneg (by omega)
  rw [rowPassP_mem_E_runs blk s fatUL fatDR (fun y => (hblk (-1) y).mpr (Or.inl (by decide))),
    hWn, hHn, single_tile_row_runs blk W H a b ha1 ha2 hb1 hb2 hblk]

theorem single_tile_colPass_edges (blk : Int → Int → Bool) (W H a b : Int)
    (ha1 : 1 ≤ a) (ha2 : a + 2 ≤ W) (hb1 : 1 ≤ b) (hb2 : b + 2 ≤ H)
    (hblk : ∀ x y, blk x y = true ↔ (x < 0 ∨ x ≥ W ∨ y < 0 ∨ y ≥ H ∨ (x = a ∧ y = b)))
    (s : Int) (fatUL fatDR : I2) (a0 : Acc) (e : I2 × I2) :
    e ∈ (colPassP blk s fatUL fatDR H.toNat a0 (W + 1).toNat).o.E ↔
      e ∈ a0.o.E ∨
      e = (⟨a * s + fatUL.X, b * s + fatUL.Y⟩, ⟨a * s + fatUL.X, (b + 1) * s + fatDR.Y⟩) ∨
      e = (⟨(a + 1) * s + fatDR.X, (b + 1) * s + fatDR.Y⟩,
        ⟨(a + 1) * s + fatDR.X, b * s + fatUL.Y⟩) := by
  have hHn : ((H.toNat : Nat) : Int) = H := Int.toNat_of_nonneg (by omega)
  have hWn : (((W + 1).toNat : Nat) : Int) = W + 1 := Int.toNat_of_nonneg (by omega)
  have hblkT : ∀ x y, (fun x y => blk y x) x y = true ↔
      (x < 0 ∨ x ≥ H ∨ y < 0 ∨ y ≥ W ∨ (x = b ∧ y = a)) := by
    intro x y
    show blk y x = true ↔ _
    rw [hblk]
    omega
  rw [colPassP_mem_E_runs blk s fatUL fatDR (fun x => (hblk x (-1)).mpr (by omega)),
    hWn, hHn, single_tile_row_runs (fun x y => blk y x) H W b a hb1 hb2 ha1 ha2 hblkT]
  refine or_congr Iff.rfl (or_congr ?_ ?_)
  · constructor
    · intro h
      have := congrArg mirrorEdge h
      rw [mirrorEdge_mirrorEdge] at this
      exact this
    · intro h
      rw [h]
      rfl
  · constructor
    · intro h
      have := congrArg mirrorEdge h
      rw [mirrorEdge_mirrorEdge] at this
      exact this
    · intro h
      rw [h]
      rfl

theorem single_tile_corner_fat (t : Terrain) (a b : Int) (ha1 : 1 ≤ a)
    (ha2 : a + 2 ≤ t.size.X) (hb1 : 1 ≤ b) (hb2 : b + 2 ≤ t.size.Y)
    (hblk : ∀ x y, t.blocking x y = true ↔
      (x < 0 ∨ x ≥ t.size.X ∨ y < 0 ∨ y ≥ t.size.Y ∨ (x = a ∧ y = b)))
    (s : Int) (fatUL fatDR : I2) (p : I2) :
    (∃ i j : Int, 0 ≤ i ∧ i ≤ t.size.X ∧ 0 ≤ j ∧ j ≤ t.size.Y ∧
      cornerTag t s fatUL fatDR i j = some p) ↔ p ∈ tileCornerTags s fatUL fatDR a b := by
  have hF : ∀ x y, t.blocking x y = false ↔
      ¬ (x < 0 ∨ x ≥ t.size.X ∨ y < 0 ∨ y ≥ t.size.Y ∨ (x = a ∧ y = b)) := by
    intro x y
    rw [← hblk x y]
    exact Bool.eq_false_iff
  constructor
  · rintro ⟨i, j, _, _, _, _, h⟩
    obtain ⟨x, y, hx0, hx, hy0, hy, hb, hmem⟩ := cornerTag_tile t s fatUL fatDR i j p h
    have hxy := (hblk x y).mp hb
    have hxa : x = a := by omega
    have hyb : y = b := by omega
    rw [← hxa, ← hyb]
    exact hmem
  · intro hp
    simp only [tileCornerTags, List.mem_cons, List.mem_singleton, List.not_mem_nil,
      or_false] at hp
    rcases hp with rfl | rfl | rfl | rfl
    · refine ⟨a, b, by omega, by omega, by omega, by omega, ?_⟩
      unfold cornerTag
      rw [tagOf_eq_some]
      right; right; right
      refine ⟨(hF _ _).mpr (by omega), (hF _ _).mpr (by omega), (hF _ _).mpr (by omega),
        (hblk _ _).mpr (by omega), ?_⟩
      simp [I2.Add, I2.Mul, ul, Int.sub_eq_add_neg]
    · refine ⟨a + 1, b, by omega, by omega, by omega, by omega, ?_⟩
      unfold cornerTag
      rw [tagOf_eq_some]
      right; right; left
      refine ⟨(hF _ _).mpr (by omega), (hF _ _).mpr (by omega), (hblk _ _).mpr (by omega),
        (hF _ _).mpr (by omega), ?_⟩
      simp [I2.Add, I2.Mul, ur, Int.sub_eq_add_neg]
    · refine ⟨a, b + 1, by omega, by omega, by omega, by omega, ?_⟩
      unfold cornerTag
      rw [tagOf_eq_some]
      right; left
      refine ⟨(hF _ _).mpr (by omega), (hblk _ _).mpr (by omega), (hF _ _).mpr (by omega),
        (hF _ _).mpr (by omega), ?_⟩
      simp [I2.Add, I2.Mul, dl, Int.sub_eq_add_neg]
    · refine ⟨a + 1, b + 1, by omega, by omega, by omega, by omega, ?_⟩
      unfold cornerTag
      rw [tagOf_eq_some]
      left
      refine ⟨(hblk _ _).mpr (by omega), (hF _ _).mpr (by omega), (hF _ _).mpr (by omega),
        (hF _ _).mpr (by omega), ?_⟩
      simp [I2.Add, I2.Mul, dr]

theorem allOpen_obstaclesAndVerts (t : Terrain)
    (hopen : ∀ x y, 0 ≤ x → x < t.size.X → 0 ≤ y → y < t.size.Y →
      (t.Tile x y).map TileInfo.Block = some false)
    (tileSize : Int) (fatUL fatDR : I2) :
    obstaclesAndVerts t tileSize fatUL fatDR =
      some (doodadPass t.doodads fatUL fatDR ⟨NewGraph, []⟩) := by
  have hT := t.Tile_map_blocking_of_in (fun x y h1 h2 h3 h4 => ⟨false, hopen x y h1 h2 h3 h4⟩)
  have hin : ∀ x y, 0 ≤ x → x < t.size.X → 0 ≤ y → y < t.size.Y → t.blocking x y = false :=
    fun x y h1 h2 h3 h4 => t.Tile_blocking_of_map x y false (hopen x y h1 h2 h3 h4)
  have hrow : ∀ i : Nat, i + 1 < t.size.X.toNat → ∀ y,
      t.blocking (i : Int) y = t.blocking ((i + 1 : Nat) : Int) y := by
    intro i hi y
    by_cases hy : 0 ≤ y ∧ y < t.size.Y
    · rw [hin i y (by omega) (by omega) hy.1 hy.2, hin _ y (by omega) (by omega) hy.1 hy.2]
    · rw [t.blocking_out i y (by omega), t.blocking_out _ y (by omega)]
  have hcol : ∀ j : Nat, j + 1 < t.size.Y.toNat → ∀ x,
      t.blocking x (j : Int) = t.blocking x ((j + 1 : Nat) : Int) := by
    intro j hj x
    by_cases hx : 0 ≤ x ∧ x < t.size.X
    · rw [hin x j hx.1 hx.2 (by omega) (by omega), hin x _ hx.1 hx.2 (by omega) (by omega)]
    · rw [t.blocking_out x j (by omega), t.blocking_out x _ (by omega)]
  rw [obstaclesAndVerts_eq t hT, rowPassP_noop _ _ _ _ _ _ hrow,
    colPassP_noop _ _ _ _ _ _ hcol]

/-- C14: let `t` be a grid whose only blocking tile is the interior tile `(a, b)`,
`1 ≤ a ≤ W - 2`, `1 ≤ b ≤ H - 2`, without doodads, traced with tile size `s` in
both passes, and let `t0` be an all-open grid with the single doodad `d` whose
unfattened world rectangle is `[(a*s, b*s), ((a+1)*s, (b+1)*s)]`. For every
footprint offset, the obstacle edge set and the vertex set that the row and
column passes produce for `t` are equal to the edge set and vertex set that the
doodad loop produces for `t0`. -/
theorem single_tile_matches_doodad (t t0 : Terrain) (a b : Int) (d : Doodad)
    (fatUL fatDR : I2) (tileSize0 : Int)
    (ha1 : 1 ≤ a) (ha2 : a ≤ t.size.X - 2) (hb1 : 1 ≤ b) (hb2 : b ≤ t.size.Y - 2)
    (htiles : ∀ x y, 0 ≤ x → x < t.size.X → 0 ≤ y → y < t.size.Y →
      (t.Tile x y).map TileInfo.Block = some (decide (x = a ∧ y = b)))
    (hnd : t.doodads = [])
    (hopen : ∀ x y, 0 ≤ x → x < t0.size.X → 0 ≤ y → y < t0.size.Y →
      (t0.Tile x y).map TileInfo.Block = some false)
    (hd0 : t0.doodads = [d])
    (hU : (d.pos.Sub d.animOffset).Add d.UL = ⟨a * t.tileSize, b * t.tileSize⟩)
    (hV : (d.pos.Sub d.animOffset).Add d.DR = ⟨(a + 1) * t.tileSize, (b + 1) * t.tileSize⟩) :
    ∃ acc acc0, obstaclesAndVerts t t.tileSize fatUL fatDR = some acc ∧
      obstaclesAndVerts t0 tileSize0 fatUL fatDR = some acc0 ∧
      (∀ e, e ∈ acc.o.E ↔ e ∈ acc0.o.E) ∧ (∀ p, p ∈ acc.pVerts ↔ p ∈ acc0.pVerts) := by
  have hT := t.Tile_map_blocking_of_in (fun x y h1 h2 h3 h4 => ⟨_, htiles x y h1 h2 h3 h4⟩)
  have hblk : ∀ x y, t.blocking x y = true ↔
      (x < 0 ∨ x ≥ t.size.X ∨ y < 0 ∨ y ≥ t.size.Y ∨ (x = a ∧ y = b)) := by
    intro x y
    by_cases hout : x < 0 ∨ x ≥ t.size.X ∨ y < 0 ∨ y ≥ t.size.Y
    · rw [t.blocking_out x y hout]
      simp only [true_iff]
      omega
    · rw [t.Tile_blocking_of_map x y _
        (htiles x y (by omega) (by omega) (by omega) (by omega)), decide_eq_true_iff]
      constructor
      · intro h
        exact Or.inr (Or.inr (Or.inr (Or.inr h)))
      · intro h
        omega
  have hUx : d.pos.X - d.animOffset.X + d.UL.X = a * t.tileSize := congrArg I2.X hU
  have hUy : d.pos.Y - d.animOffset.Y + d.UL.Y = b * t.tileSize := congrArg I2.Y hU
  have hVx : d.pos.X - d.animOffset.X + d.DR.X = (a + 1) * t.tileSize := congrArg I2.X hV
  have hVy : d.pos.Y - d.animOffset.Y + d.DR.Y = (b + 1) * t.tileSize := congrArg I2.Y hV
  refine ⟨_, _, obstaclesAndVerts_eq t hT _ _ _,
    allOpen_obstaclesAndVerts t0 hopen tileSize0 fatUL fatDR, ?_, ?_⟩
  · intro e
    rw [hnd, hd0, doodadPass_mem_E, doodadPass_mem_E]
    rw [single_tile_colPass_edges t.blocking t.size.X t.size.Y a b ha1 (by omega) hb1
        (by omega) hblk,
      single_tile_rowPass_edges t.blocking t.size.X t.size.Y a b ha1 (by omega) hb1
        (by omega) hblk]
    simp only [NewGraph, List.not_mem_nil, false_or, List.mem_singleton, exists_eq_left,
      doodadLoop, doodadU, doodadV, hUx, hUy, hVx, hVy, List.mem_cons, or_false, false_and,
      exists_false]
    tauto
  · intro p
    rw [hnd, hd0, doodadPass_mem_pVerts, doodadPass_mem_pVerts]
    rw [colPass_tags, rowPass_tags,
      single_tile_corner_fat t a b ha1 (by omega) hb1 (by omega) hblk]
    simp only [List.not_mem_nil, false_or, or_self, List.mem_singleton, exists_eq_left,
      tileCornerTags, doodadCorners, doodadU, doodadV, hUx, hUy, hVx, hVy, List.mem_cons,
      or_false, false_and, exists_false]
    tauto

theorem single_tile_matches_doodad_witness :
    (1 : Int) ≤ 1 ∧ (1 : Int) ≤ (gridOf 3 3 16 [0, 0, 0, 0, 1, 0, 0, 0, 0]).size.X - 2 ∧
    (1 : Int) ≤ 1 ∧ (1 : Int) ≤ (gridOf 3 3 16 [0, 0, 0, 0, 1, 0, 0, 0, 0]).size.Y - 2 ∧
    (∀ x y, 0 ≤ x → x < (gridOf 3 3 16 [0, 0, 0, 0, 1, 0, 0, 0, 0]).size.X → 0 ≤ y →
      y < (gridOf 3 3 16 [0, 0, 0, 0, 1, 0, 0, 0, 0]).size.Y →
      ((gridOf 3 3 16 [0, 0, 0, 0, 1, 0, 0, 0, 0]).Tile x y).map TileInfo.Block =
        some (decide (x = 1 ∧ y = 1))) ∧
    (gridOf 3 3 16 [0, 0, 0, 0, 1, 0, 0, 0, 0]).doodads = [] ∧
    (∀ x y, 0 ≤ x →
      x < (Terrain.mk [⟨⟨20, 24⟩, ⟨4, 8⟩, ⟨0, 0⟩, ⟨16, 16⟩⟩] [0, 0, 0, 0]
        [⟨"open", false⟩] 16 ⟨2, 2⟩).size.X → 0 ≤ y →
      y < (Terrain.mk [⟨⟨20, 24⟩, ⟨4, 8⟩, ⟨0, 0⟩, ⟨16, 16⟩⟩] [0, 0, 0, 0]
        [⟨"open", false⟩] 16 ⟨2, 2⟩).size.Y →
      ((Terrain.mk [⟨⟨20, 24⟩, ⟨4, 8⟩, ⟨0, 0⟩, ⟨16, 16⟩⟩] [0, 0, 0, 0]
        [⟨"open", false⟩] 16 ⟨2, 2⟩).Tile x y).map TileInfo.Block = some false) ∧
    (Terrain.mk [⟨⟨20, 24⟩, ⟨4, 8⟩, ⟨0, 0⟩, ⟨16, 16⟩⟩] [0, 0, 0, 0]
      [⟨"open", false⟩] 16 ⟨2, 2⟩).doodads = [⟨⟨20, 24⟩, ⟨4, 8⟩, ⟨0, 0⟩, ⟨16, 16⟩⟩] ∧
    (((⟨20, 24⟩ : I2).Sub ⟨4, 8⟩).Add ⟨0, 0⟩ =
      ⟨1 * (gridOf 3 3 16 [0, 0, 0, 0, 1, 0, 0, 0, 0]).tileSize,
        1 * (gridOf 3 3 16 [0, 0, 0, 0, 1, 0, 0, 0, 0]).tileSize⟩) ∧
    (((⟨20, 24⟩ : I2).Sub ⟨4, 8⟩).Add ⟨16, 16⟩ =
      ⟨(1 + 1) * (gridOf 3 3 16 [0, 0, 0, 0, 1, 0, 0, 0, 0]).tileSize,
        (1 + 1) * (gridOf 3 3 16 [0, 0, 0, 0, 1, 0, 0, 0, 0]).tileSize⟩) ∧
    ∃ acc acc0,
      obstaclesAndVerts (gridOf 3 3 16 [0, 0, 0, 0, 1, 0, 0, 0, 0])
        (gridOf 3 3 16 [0, 0, 0, 0, 1, 0, 0, 0, 0]).tileSize ⟨-3, -2⟩ ⟨3, 2⟩ = some acc ∧
      obstaclesAndVerts (Terrain.mk [⟨⟨20, 24⟩, ⟨4, 8⟩, ⟨0, 0⟩, ⟨16, 16⟩⟩] [0, 0, 0, 0]
        [⟨"open", false⟩] 16 ⟨2, 2⟩) 16 ⟨-3, -2⟩ ⟨3, 2⟩ = some acc0 ∧
      (∀ e, e ∈ acc.o.E ↔ e ∈ acc0.o.E) ∧ (∀ p, p ∈ acc.pVerts ↔ p ∈ acc0.pVerts) :=
  have h : ∀ x y, 0 ≤ x → x < (gridOf 3 3 16 [0, 0, 0, 0, 1, 0, 0, 0, 0]).size.X → 0 ≤ y →
      y < (gridOf 3 3 16 [0, 0, 0, 0, 1, 0, 0, 0, 0]).size.Y →
      ((gridOf 3 3 16 [0, 0, 0, 0, 1, 0, 0, 0, 0]).Tile x y).map TileInfo.Block =
        some (decide (x = 1 ∧ y = 1)) := by
    intro x y hx0 hx hy0 hy
    have hx3 : x < 3 := hx
    have hy3 : y < 3 := hy
    interval_cases x <;> interval_cases y <;> rfl
  have h0 : ∀ x y, 0 ≤ x →
      x < (Terrain.mk [⟨⟨20, 24⟩, ⟨4, 8⟩, ⟨0, 0⟩, ⟨16, 16⟩⟩] [0, 0, 0, 0]
        [⟨"open", false⟩] 16 ⟨2, 2⟩).size.X → 0 ≤ y →
      y < (Terrain.mk [⟨⟨20, 24⟩, ⟨4, 8⟩, ⟨0, 0⟩, ⟨16, 16⟩⟩] [0, 0, 0, 0]
        [⟨"open", false⟩] 16 ⟨2, 2⟩).size.Y →
      ((Terrain.mk [⟨⟨20, 24⟩, ⟨4, 8⟩, ⟨0, 0⟩, ⟨16, 16⟩⟩] [0, 0, 0, 0]
        [⟨"open", false⟩] 16 ⟨2, 2⟩).Tile x y).map TileInfo.Block = some false := by
    intro x y hx0 hx hy0 hy
    have hx2 : x < 2 := hx
    have hy2 : y < 2 := hy
    interval_cases x <;> interval_cases y <;> rfl
  ⟨by decide, by decide, by decide, by decide, h, rfl, h0, rfl, by decide, by decide,
    single_tile_matches_doodad _ _ 1 1 _ _ _ 16 (by decide) (by decide) (by decide)
      (by decide) h rfl h0 rfl (by decide) (by decide)⟩

theorem traced_edges_solid_side_witness :
    (gridOf 3 3 16 [0, 0, 0, 0, 1, 0, 0, 0, 0]).WellFormed ∧
    0 < (gridOf 3 3 16 [0, 0, 0, 0, 1, 0, 0, 0, 0]).tileSize ∧
    ∃ ar ac, rowPass (gridOf 3 3 16 [0, 0, 0, 0, 1, 0, 0, 0, 0]) ⟨0, 0⟩ ⟨0, 0⟩
        ⟨NewGraph, []⟩ = some ar ∧
      colPass (gridOf 3 3 16 [0, 0, 0, 0, 1, 0, 0, 0, 0])
        (gridOf 3 3 16 [0, 0, 0, 0, 1, 0, 0, 0, 0]).tileSize ⟨0, 0⟩ ⟨0, 0⟩
        ⟨NewGraph, []⟩ = some ac ∧
      (∀ e ∈ ar.o.E, ∃ j i0 i1 : Int, 0 ≤ j ∧
        j ≤ (gridOf 3 3 16 [0, 0, 0, 0, 1, 0, 0, 0, 0]).size.Y ∧ 0 ≤ i0 ∧ i0 < i1 ∧
        i1 < (gridOf 3 3 16 [0, 0, 0, 0, 1, 0, 0, 0, 0]).size.X ∧
        ((e = (⟨i0 * (gridOf 3 3 16 [0, 0, 0, 0, 1, 0, 0, 0, 0]).tileSize,
              j * (gridOf 3 3 16 [0, 0, 0, 0, 1, 0, 0, 0, 0]).tileSize⟩,
            ⟨i1 * (gridOf 3 3 16 [0, 0, 0, 0, 1, 0, 0, 0, 0]).tileSize,
              j * (gridOf 3 3 16 [0, 0, 0, 0, 1, 0, 0, 0, 0]).tileSize⟩) ∧
            (∀ i, i0 ≤ i → i < i1 →
              (gridOf 3 3 16 [0, 0, 0, 0, 1, 0, 0, 0, 0]).blocking i (j - 1) = true ∧
              (gridOf 3 3 16 [0, 0, 0, 0, 1, 0, 0, 0, 0]).blocking i j = false) ∧
            e.2.Y - e.1.Y = 0 ∧ -(e.2.X - e.1.X) < 0) ∨
          (e = (⟨i1 * (gridOf 3 3 16 [0, 0, 0, 0, 1, 0, 0, 0, 0]).tileSize,
              j * (gridOf 3 3 16 [0, 0, 0, 0, 1, 0, 0, 0, 0]).tileSize⟩,
            ⟨i0 * (gridOf 3 3 16 [0, 0, 0, 0, 1, 0, 0, 0, 0]).tileSize,
              j * (gridOf 3 3 16 [0, 0, 0, 0, 1, 0, 0, 0, 0]).tileSize⟩) ∧
            (∀ i, i0 ≤ i → i < i1 →
              (gridOf 3 3 16 [0, 0, 0, 0, 1, 0, 0, 0, 0]).blocking i (j - 1) = false ∧
              (gridOf 3 3 16 [0, 0, 0, 0, 1, 0, 0, 0, 0]).blocking i j = true) ∧
            e.2.Y - e.1.Y = 0 ∧ 0 < -(e.2.X - e.1.X)))) ∧
      (∀ e ∈ ac.o.E, ∃ i j0 j1 : Int, 0 ≤ i ∧
        i ≤ (gridOf 3 3 16 [0, 0, 0, 0, 1, 0, 0, 0, 0]).size.X ∧ 0 ≤ j0 ∧ j0 < j1 ∧
        j1 < (gridOf 3 3 16 [0, 0, 0, 0, 1, 0, 0, 0, 0]).size.Y ∧
        ((e = (⟨i * (gridOf 3 3 16 [0, 0, 0, 0, 1, 0, 0, 0, 0]).tileSize,
              j1 * (gridOf 3 3 16 [0, 0, 0, 0, 1, 0, 0, 0, 0]).tileSize⟩,
            ⟨i * (gridOf 3 3 16 [0, 0, 0, 0, 1, 0, 0, 0, 0]).tileSize,
              j0 * (gridOf 3 3 16 [0, 0, 0, 0, 1, 0, 0, 0, 0]).tileSize⟩) ∧
            (∀ j, j0 ≤ j → j < j1 →
              (gridOf 3 3 16 [0, 0, 0, 0, 1, 0, 0, 0, 0]).blocking (i - 1) j = true ∧
              (gridOf 3 3 16 [0, 0, 0, 0, 1, 0, 0, 0, 0]).blocking i j = false) ∧
            e.2.Y - e.1.Y < 0 ∧ -(e.2.X - e.1.X) = 0) ∨
          (e = (⟨i * (gridOf 3 3 16 [0, 0, 0, 0, 1, 0, 0, 0, 0]).tileSize,
              j0 * (gridOf 3 3 16 [0, 0, 0, 0, 1, 0, 0, 0, 0]).tileSize⟩,
            ⟨i * (gridOf 3 3 16 [0, 0, 0, 0, 1, 0, 0, 0, 0]).tileSize,
              j1 * (gridOf 3 3 16 [0, 0, 0, 0, 1, 0, 0, 0, 0]).tileSize⟩) ∧
            (∀ j, j0 ≤ j → j < j1 →
              (gridOf 3 3 16 [0, 0, 0, 0, 1, 0, 0, 0, 0]).blocking (i - 1) j = false ∧
              (gridOf 3 3 16 [0, 0, 0, 0, 1, 0, 0, 0, 0]).blocking i j = true) ∧
            0 < e.2.Y - e.1.Y ∧ -(e.2.X - e.1.X) = 0))) :=
  ⟨by decide, by decide, traced_edges_solid_side _ (by decide) (by decide)⟩

/-! ## The path graph returned by ObstaclesAndPaths -/

theorem ObstaclesAndPaths_eq_of_verts (t : Terrain) (tileSize : Int) (camSize : I2)
    (FullyBlocks : Graph → I2 → I2 → Bool) (fatUL fatDR : I2) (a : Acc)
    (h : obstaclesAndVerts t tileSize fatUL fatDR = some a) :
    ObstaclesAndPaths t tileSize camSize FullyBlocks fatUL fatDR =
      some (a.o, buildPaths camSize FullyBlocks a.o a.pVerts) := by
  unfold ObstaclesAndPaths
  rw [h]
  rfl

/-- C1: for all points `u ≠ v`, every span bound `camSize` and every occlusion
oracle: (1) for every vertex set and obstacle graph, the edge `(u, v)` is in the
path graph that the last loop of `ObstaclesAndPaths` builds from them if and only
if `u` and `v` are both in the vertex set, `|u.x - v.x| ≤ camSize.x`,
`|u.y - v.y| ≤ camSize.y`, and the oracle does not report the segment as fully
blocked by the obstacle graph; (2) on a well-formed terrain `ObstaclesAndPaths`
succeeds and returns the obstacle graph `o` it traced together with a path graph
`p` for which this equivalence holds with `o` and the vertex set `pVerts` it
traced; (3) the same holds on any terrain on which the tracing succeeds. -/
theorem pathGraph_edge_iff (camSize : I2) (FullyBlocks : Graph → I2 → I2 → Bool)
    (t : Terrain) (tileSize : Int) (fatUL fatDR : I2) (u v : I2)
    (_huv : u ≠ v) (hwf : t.WellFormed) :
    (∀ (o : Graph) (pVerts : VertexSet),
      (u, v) ∈ (buildPaths camSize FullyBlocks o pVerts).E ↔
        u ∈ pVerts ∧ v ∈ pVerts ∧ |u.X - v.X| ≤ camSize.X ∧ |u.Y - v.Y| ≤ camSize.Y ∧
          FullyBlocks o u v = false) ∧
    (∃ o pVerts p, obstaclesAndVerts t tileSize fatUL fatDR = some ⟨o, pVerts⟩ ∧
      ObstaclesAndPaths t tileSize camSize FullyBlocks fatUL fatDR = some (o, p) ∧
      ((u, v) ∈ p.E ↔
        u ∈ pVerts ∧ v ∈ pVerts ∧ |u.X - v.X| ≤ camSize.X ∧ |u.Y - v.Y| ≤ camSize.Y ∧
          FullyBlocks o u v = false)) ∧
    (∀ (t1 : Terrain) (tileSize1 : Int) (fatUL1 fatDR1 : I2) (o : Graph)
      (pVerts : VertexSet),
      obstaclesAndVerts t1 tileSize1 fatUL1 fatDR1 = some ⟨o, pVerts⟩ →
      ∃ p, ObstaclesAndPaths t1 tileSize1 camSize FullyBlocks fatUL1 fatDR1 = some (o, p) ∧
        ((u, v) ∈ p.E ↔
          u ∈ pVerts ∧ v ∈ pVerts ∧ |u.X - v.X| ≤ camSize.X ∧ |u.Y - v.Y| ≤ camSize.Y ∧
            FullyBlocks o u v = false)) := by
  refine ⟨fun o pVerts => buildPaths_mem camSize FullyBlocks o pVerts u v, ?_, ?_⟩
  · have hov := obstaclesAndVerts_eq t (t.Tile_map_blocking hwf) tileSize fatUL fatDR
    exact ⟨_, _, _, hov,
      ObstaclesAndPaths_eq_of_verts t tileSize camSize FullyBlocks fatUL fatDR _ hov,
      buildPaths_mem camSize FullyBlocks _ _ u v⟩
  · intro t1 tileSize1 fatUL1 fatDR1 o pVerts hov
    exact ⟨_,
      ObstaclesAndPaths_eq_of_verts t1 tileSize1 camSize FullyBlocks fatUL1 fatDR1 _ hov,
      buildPaths_mem camSize FullyBlocks o pVerts u v⟩

theorem pathGraph_edge_iff_witness :
    (⟨15, 15⟩ : I2) ≠ ⟨33, 15⟩ ∧
    (gridOf 3 3 16 [0, 0, 0, 0, 1, 0, 0, 0, 0]).WellFormed ∧
    ((⟨15, 15⟩, ⟨33, 15⟩) ∈
        (buildPaths ⟨267, 150⟩ (fun _ a b => decide (a.X = b.X)) NewGraph
          [⟨15, 15⟩, ⟨33, 15⟩, ⟨15, 33⟩, ⟨33, 33⟩]).E ↔
      (⟨15, 15⟩ : I2) ∈ ([⟨15, 15⟩, ⟨33, 15⟩, ⟨15, 33⟩, ⟨33, 33⟩] : VertexSet) ∧
      (⟨33, 15⟩ : I2) ∈ ([⟨15, 15⟩, ⟨33, 15⟩, ⟨15, 33⟩, ⟨33, 33⟩] : VertexSet) ∧
      |(⟨15, 15⟩ : I2).X - (⟨33, 15⟩ : I2).X| ≤ (⟨267, 150⟩ : I2).X ∧
      |(⟨15, 15⟩ : I2).Y - (⟨33, 15⟩ : I2).Y| ≤ (⟨267, 150⟩ : I2).Y ∧
      (fun (_ : Graph) (a b : I2) => decide (a.X = b.X)) NewGraph ⟨15, 15⟩ ⟨33, 15⟩ = false) ∧
    (∃ o pVerts p,
      obstaclesAndVerts (gridOf 3 3 16 [0, 0, 0, 0, 1, 0, 0, 0, 0]) 16 ⟨0, 0⟩ ⟨0, 0⟩ =
        some ⟨o, pVerts⟩ ∧
      ObstaclesAndPaths (gridOf 3 3 16 [0, 0, 0, 0, 1, 0, 0, 0, 0]) 16 ⟨267, 150⟩
        (fun _ a b => decide (a.X = b.X)) ⟨0, 0⟩ ⟨0, 0⟩ = some (o, p) ∧
      ((⟨15, 15⟩, ⟨33, 15⟩) ∈ p.E ↔
        (⟨15, 15⟩ : I2) ∈ pVerts ∧ (⟨33, 15⟩ : I2) ∈ pVerts ∧
        |(⟨15, 15⟩ : I2).X - (⟨33, 15⟩ : I2).X| ≤ (⟨267, 150⟩ : I2).X ∧
        |(⟨15, 15⟩ : I2).Y - (⟨33, 15⟩ : I2).Y| ≤ (⟨267, 150⟩ : I2).Y ∧
        (fun (_ : Graph) (a b : I2) => decide (a.X = b.X)) o ⟨15, 15⟩ ⟨33, 15⟩ = false)) ∧
    (ObstaclesAndPaths (gridOf 3 3 16 [0, 0, 0, 0, 1, 0, 0, 0, 0]) 16 ⟨267, 150⟩
        (fun _ a b => decide (a.X = b.X)) ⟨0, 0⟩ ⟨0, 0⟩).map
      (fun r => decide ((⟨15, 15⟩, ⟨33, 15⟩) ∈ r.2.E)) = some true :=
  ⟨by decide, by decide,
    (pathGraph_edge_iff ⟨267, 150⟩ (fun _ a b => decide (a.X = b.X))
      (gridOf 3 3 16 [0, 0, 0, 0, 1, 0, 0, 0, 0]) 16 ⟨0, 0⟩ ⟨0, 0⟩ ⟨15, 15⟩ ⟨33, 15⟩
      (by decide) (by decide)).1 NewGraph [⟨15, 15⟩, ⟨33, 15⟩, ⟨15, 33⟩, ⟨33, 33⟩],
    (pathGraph_edge_iff ⟨267, 150⟩ (fun _ a b => decide (a.X = b.X))
      (gridOf 3 3 16 [0, 0, 0, 0, 1, 0, 0, 0, 0]) 16 ⟨0, 0⟩ ⟨0, 0⟩ ⟨15, 15⟩ ⟨33, 15⟩
      (by decide) (by decide)).2.1,
    by decide⟩

end Awakengine
